import Mathlib

set_option maxHeartbeats 1000000

/-!
Shallow embedding of the pyformlang cores: the CFG object model
(`pyformlang/objects/cfg_objects`), the CFG engine with CNF conversion and
CYK recognition (`pyformlang/cfg/cfg.py`, `cyk_table.py`, `utils.py`), the
Bar-Hillel intersection, and the indexed-grammar marking algorithms
(`pyformlang/indexed_grammar`).  Python sets are modelled as
insertion-ordered duplicate-free lists; worklists ( `list.append` /
`list.pop()` ) are modelled as cons-stacks; raised exceptions are modelled
with `Except`; the recursion of `to_normal_form` is modelled with fuel
(`Option`-valued).
-/

namespace Pyformlang

/-- Grammar symbols of the CFG object model (`objects/cfg_objects`):
`Variable` and `Terminal` carry a hashable value (modelled as `String`),
and `Epsilon` is the distinguished epsilon terminal (a `Terminal` subclass
whose value is `"epsilon"`). -/
inductive Sym : Type
  | var : String → Sym
  | ter : String → Sym
  | eps : Sym
deriving DecidableEq, Repr

/-- The value carried by a symbol (`FormalObject.value`); `Epsilon` is
constructed with value `"epsilon"`. -/
def Sym.value : Sym → String
  | .var v => v
  | .ter t => t
  | .eps => "epsilon"

/-- Modelled from the spec: `objects/cfg_objects/epsilon.py` imports
`EPSILON_SYMBOLS` from `objects/finite_automaton_objects/epsilon.py`, but
that module in the source tree does not define it; the spec lists the
epsilon aliases as `{"epsilon","$","ε","ϵ","Є"}`. -/
def EPSILON_SYMBOLS : List String := ["epsilon", "$", "ε", "ϵ", "Є"]

/-- `EPSILON_SYMBOLS` of `objects/base_epsilon.py`, the list used by
`to_terminal` in `objects/cfg_objects/utils.py`. -/
def BASE_EPSILON_SYMBOLS : List String := ["epsilon", "ɛ"]

/-- A Python value taking part in an equality comparison: either a raw
string or a CFG object. -/
inductive PyV : Type
  | str : String → PyV
  | obj : Sym → PyV
deriving DecidableEq, Repr

/-- `o == s` for a CFG object `o` and a raw string `s`.  `Variable.__eq__`
and `Terminal.__eq__` fall through their isinstance tests (a string is
neither, and not a `FormalObject`) to `self.value == other`;
`Epsilon.__eq__` tests membership of `s` in `EPSILON_SYMBOLS`. -/
def eqObjStr : Sym → String → Bool
  | .var v, s => v == s
  | .ter t, s => t == s
  | .eps, s => EPSILON_SYMBOLS.contains s

/-- `x in l` for a Python list of strings `l`: tests `x == e` for each
element, dispatching on the type of `x` first (CPython `list_contains`
compares with the searched object on the left). -/
def pyMem (x : PyV) (l : List String) : Bool :=
  l.any fun e =>
    match x with
    | .str s => s == e
    | .obj o => eqObjStr o e

/-- `type(o).__eq__(o, other)` for a CFG object `o`.
`Variable.__eq__`: equal to a `Variable` with the same value, never equal
to another `FormalObject`, otherwise compares `self.value == other`.
`Terminal.__eq__`: likewise, where `isinstance(other, Terminal)` also
covers `Epsilon` (a `Terminal` subclass of value `"epsilon"`).
`Epsilon.__eq__`: equal to every `Epsilon`, otherwise tests
`other in EPSILON_SYMBOLS`.
The `isinstance(other, FormalObject)` test is modelled as true for every
CFG object (the spec: equality is cross-category-aware, a `Terminal`
never equals a `Variable` even with equal underlying value — asserted by
the repository's own `test_eq`). -/
def eqObj : Sym → PyV → Bool
  | .var v, .obj (.var w) => v == w
  | .var _, .obj _ => false
  | .var v, .str s => eqObjStr (.var v) s
  | .ter t, .obj (.ter w) => t == w
  | .ter t, .obj .eps => t == "epsilon"
  | .ter _, .obj _ => false
  | .ter t, .str s => eqObjStr (.ter t) s
  | .eps, .obj .eps => true
  | .eps, other => pyMem other EPSILON_SYMBOLS

/-- Full Python `a == b` for our value universe: try `type(a).__eq__`
first; `str.__eq__` returns `NotImplemented` against a non-string, in
which case the comparison is reflected to the right operand. -/
def pyEq : PyV → PyV → Bool
  | .str s, .str t => s == t
  | .str s, .obj o => eqObj o (.str s)
  | .obj o, b => eqObj o b

/-- `to_terminal` of `objects/cfg_objects/utils.py` restricted to raw
string input: an epsilon alias of `BASE_EPSILON_SYMBOLS` becomes
`Epsilon()`, anything else a `Terminal`. -/
def toTerminal (s : String) : Sym :=
  if BASE_EPSILON_SYMBOLS.contains s then Sym.eps else Sym.ter s

/-- A production (`objects/cfg_objects/production.py`): a head variable
and an ordered body of symbols. -/
structure Production : Type where
  head : String
  body : List Sym
deriving DecidableEq, Repr

/-- `Production.__init__` in filtering mode: `Epsilon` instances are
dropped from the body. -/
def mkProduction (head : String) (body : List Sym) : Production :=
  ⟨head, body.filter fun x => x != Sym.eps⟩

/-- `Production.is_normal_form`. -/
def Production.isNormalForm (p : Production) : Bool :=
  match p.body with
  | [b0, b1] => (match b0, b1 with | Sym.var _, Sym.var _ => true | _, _ => false)
  | [b0] => (match b0 with | Sym.ter _ => true | _ => false)
  | _ => false

/-- Insert at the end unless already present (Python `set.add` on a set
modelled as an insertion-ordered duplicate-free list). -/
def insertEnd [DecidableEq α] (l : List α) (x : α) : List α :=
  if x ∈ l then l else l ++ [x]

/-- Deduplicate keeping first occurrences (Python `set(...)` of a list). -/
def dedupL [DecidableEq α] (l : List α) : List α :=
  l.foldl insertEnd []

/-- Association-list lookup (Python `dict.get`). -/
def alookup [DecidableEq α] (k : α) : List (α × β) → Option β
  | [] => none
  | (k', v) :: rest => if k = k' then some v else alookup k rest

/-- Association-list update (Python `dict.__setitem__`): replaces the
binding in place, or appends a new one (dict insertion order). -/
def aupdate [DecidableEq α] (k : α) (v : β) : List (α × β) → List (α × β)
  | [] => [(k, v)]
  | (k', v') :: rest =>
      if k = k' then (k, v) :: rest else (k', v') :: aupdate k v rest

/-- A context-free grammar (`cfg/cfg.py`): variable and terminal sets,
optional start symbol, production set. -/
structure CFG : Type where
  vars : List String
  terms : List String
  start : Option String
  productions : List Production
deriving DecidableEq, Repr

/-- Registration of one body symbol (`__initialize_production_in_cfg`):
`Variable`s go to the variable set, `Terminal`s — `Epsilon` included — to
the terminal set. -/
def cfgRegister (vt : List String × List String) (sym : Sym) :
    List String × List String :=
  match sym with
  | Sym.var v => (insertEnd vt.1 v, vt.2)
  | Sym.ter t => (vt.1, insertEnd vt.2 t)
  | Sym.eps => (vt.1, insertEnd vt.2 "epsilon")

/-- Registration of one production: its head, then its body symbols. -/
def cfgInit (vt : List String × List String) (p : Production) :
    List String × List String :=
  p.body.foldl cfgRegister (insertEnd vt.1 p.head, vt.2)

/-- `CFG.__init__`: deduplicate the given sets, add the start symbol to
the variables, deduplicate the productions, then register every
production's head and body symbols. -/
def mkCFG (variables' terminals' : List String) (start : Option String)
    (productions : List Production) : CFG :=
  let vs := dedupL variables'
  let ts := dedupL terminals'
  let vs := match start with
    | some s => insertEnd vs s
    | none => vs
  let ps := dedupL productions
  let vts := ps.foldl cfgInit (vs, ts)
  ⟨vts.1, vts.2, start, ps⟩

/-- `get_productions_d` of `cfg/utils.py`: productions grouped by head,
in list order. -/
def getProductionsD (ps : List Production) : List (String × List Production) :=
  ps.foldl (fun d p => aupdate p.head ((alookup p.head d).getD [] ++ [p]) d) []

/-- The impact structure built by `_set_impacts_and_remaining_lists`:
heads of empty-body productions (`_added_impacts`), per-head lists of
per-production counters (`_remaining_lists`), and for each body symbol
the list of impacted `(head, index)` pairs (`_impacts`), one entry per
body occurrence. -/
structure Impacts : Type where
  addedImpacts : List String
  remainingLists : List (String × List Int)
  impacts : List (Sym × List (String × Nat))
deriving DecidableEq, Repr

/-- `_set_impacts_and_remaining_lists`. -/
def setImpacts (ps : List Production) : Impacts :=
  ps.foldl
    (fun acc p =>
      if p.body = [] then
        { acc with addedImpacts := insertEnd acc.addedImpacts p.head }
      else
        let temp := ((alookup p.head acc.remainingLists).getD []) ++
          [(p.body.length : Int)]
        let indexImpact := temp.length - 1
        let rem := aupdate p.head temp acc.remainingLists
        let imps := p.body.foldl
          (fun imps sym =>
            aupdate sym (((alookup sym imps).getD []) ++ [(p.head, indexImpact)])
              imps)
          acc.impacts
        ⟨acc.addedImpacts, rem, imps⟩)
    ⟨[], [], []⟩

/-- The loop body of `_set_impacts_and_remaining_lists`, named for the
invariant proofs: `setImpacts` is its fold. -/
def setImpactsF (acc : Impacts) (p : Production) : Impacts :=
  if p.body = [] then
    { acc with addedImpacts := insertEnd acc.addedImpacts p.head }
  else
    let temp := ((alookup p.head acc.remainingLists).getD []) ++
      [(p.body.length : Int)]
    let indexImpact := temp.length - 1
    let rem := aupdate p.head temp acc.remainingLists
    let imps := p.body.foldl
      (fun imps sym =>
        aupdate sym (((alookup sym imps).getD []) ++ [(p.head, indexImpact)])
          imps)
      acc.impacts
    ⟨acc.addedImpacts, rem, imps⟩

/-- State of the `_get_generating_or_nullable` worklist: the growing
symbol set, the pending stack (its head is the element Python's
`list.pop()` would return), and the mutable remaining counters. -/
structure GenState : Type where
  gsyms : List Sym
  toProcess : List Sym
  remaining : List (String × List Int)
deriving DecidableEq, Repr

/-- Processing of the impact entries of one popped symbol: skip heads
already in the set, otherwise decrement the counter; a counter reaching
zero adds the head to the set and pushes it. -/
def processImpactEntries : List (String × Nat) → GenState → GenState
  | [], st => st
  | (h, idx) :: rest, st =>
      if Sym.var h ∈ st.gsyms then processImpactEntries rest st
      else
        let lst := (alookup h st.remaining).getD []
        let cnt := lst.getD idx 0 - 1
        let rem := aupdate h (lst.set idx cnt) st.remaining
        if cnt = 0 then
          processImpactEntries rest
            ⟨insertEnd st.gsyms (Sym.var h), Sym.var h :: st.toProcess, rem⟩
        else
          processImpactEntries rest ⟨st.gsyms, st.toProcess, rem⟩

/-- The fuelled worklist loop of `_get_generating_or_nullable`. -/
def genLoop (impacts : List (Sym × List (String × Nat))) :
    Nat → GenState → GenState
  | 0, st => st
  | fuel + 1, st =>
      match st.toProcess with
      | [] => st
      | cur :: rest =>
          genLoop impacts fuel
            (processImpactEntries ((alookup cur impacts).getD [])
              ⟨st.gsyms, rest, st.remaining⟩)

/-- Sum of the positive parts of an integer list. -/
def sumNatI : List Int → Nat
  | [] => 0
  | x :: r => x.toNat + sumNatI r

/-- Total of all remaining counters. -/
def sumRem (rem : List (String × List Int)) : Nat :=
  (rem.map fun kv => sumNatI kv.2).sum

/-- Termination measure of the worklist. -/
def stMeasure (st : GenState) : Nat :=
  st.toProcess.length + sumRem st.remaining

/-- Default fuel, ample for the worklist to drain (proved sufficient
below). -/
def genFuel (st : GenState) : Nat := stMeasure st + 1

/-- `_get_generating_or_nullable(nullable)`: seeds are the `Epsilon`
sentinel, the heads of empty-body productions, and (in generating mode)
all terminals; then the reference-counted sweep; finally the sentinel is
removed. -/
def genOrNullable (g : CFG) (nullable : Bool) : List Sym :=
  let im := setImpacts g.productions
  let st0 : GenState := ⟨[Sym.eps], [Sym.eps], im.remainingLists⟩
  let st0 := im.addedImpacts.foldl
    (fun (st : GenState) h =>
      if Sym.var h ∈ st.gsyms then st
      else ⟨insertEnd st.gsyms (Sym.var h), Sym.var h :: st.toProcess, st.remaining⟩)
    st0
  let st0 :=
    if nullable then st0
    else g.terms.foldl
      (fun (st : GenState) t =>
        ⟨insertEnd st.gsyms (Sym.ter t), Sym.ter t :: st.toProcess, st.remaining⟩)
      st0
  let final := genLoop im.impacts (genFuel st0) st0
  final.gsyms.erase Sym.eps

/-- `get_generating_symbols`. -/
def getGeneratingSymbols (g : CFG) : List Sym := genOrNullable g false

/-- `get_nullable_symbols`. -/
def getNullableSymbols (g : CFG) : List Sym := genOrNullable g true

/-- `get_reachable_symbols`: forward reachability from the start symbol
along production bodies (`Epsilon` instances excluded). -/
def getReachableSymbols (g : CFG) : List Sym :=
  match g.start with
  | none => []
  | some s =>
      let transD : List (String × List Sym) := g.productions.foldl
        (fun d p =>
          aupdate p.head
            (((alookup p.head d).getD []) ++ p.body.filter fun x => x != Sym.eps)
            d)
        []
      let rec loop : Nat → List Sym → List Sym → List Sym
        | 0, rs, _ => rs
        | _ + 1, rs, [] => rs
        | fuel + 1, rs, cur :: rest =>
            let nexts := match cur with
              | Sym.var v => (alookup v transD).getD []
              | _ => []
            let st := nexts.foldl
              (fun (st : List Sym × List Sym) nxt =>
                if nxt ∈ st.1 then st else (insertEnd st.1 nxt, nxt :: st.2))
              (rs, rest)
            loop fuel st.1 st.2
      loop (g.productions.foldl (fun n p => n + 1 + p.body.length) 1 +
        g.vars.length + g.terms.length) [Sym.var s] [Sym.var s]

/-- `remove_useless_symbols`: keep generating productions and symbols,
then keep reachable ones. -/
def removeUselessSymbols (g : CFG) : CFG :=
  let generating := getGeneratingSymbols g
  let ps := g.productions.filter fun p =>
    Sym.var p.head ∈ generating ∧ ∀ y ∈ p.body, y ∈ generating
  let newVar := g.vars.filter fun v => Sym.var v ∈ generating
  let newTer := g.terms.filter fun t => Sym.ter t ∈ generating
  let cfgTemp := mkCFG newVar newTer g.start ps
  let reachables := getReachableSymbols cfgTemp
  let ps2 := ps.filter fun p => Sym.var p.head ∈ reachables
  let newVar2 := newVar.filter fun v => Sym.var v ∈ reachables
  let newTer2 := newTer.filter fun t => Sym.ter t ∈ reachables
  mkCFG newVar2 newTer2 g.start ps2

/-- `remove_nullable_production_sub` of `cfg/utils.py`. -/
def removeNullableProductionSub (body : List Sym) (nullables : List Sym) :
    List (List Sym) :=
  match body with
  | [] => [[]]
  | b0 :: rest =>
      let allNext := removeNullableProductionSub rest nullables
      allNext.foldl
        (fun res bodyTemp =>
          let res := if b0 ∈ nullables then res ++ [bodyTemp] else res
          if b0 != Sym.eps then res ++ [b0 :: bodyTemp] else res)
        []

/-- `remove_nullable_production` of `cfg/utils.py`: all variants of the
body with nullable occurrences optionally removed, the empty variant
dropped, rebuilt as filtering-mode productions. -/
def removeNullableProduction (p : Production) (nullables : List Sym) :
    List Production :=
  ((removeNullableProductionSub p.body nullables).filter fun b => b ≠ []).map
    fun b => mkProduction p.head b

/-- `remove_epsilon`. -/
def removeEpsilon (g : CFG) : CFG :=
  let nullables := getNullableSymbols g
  let newProductions := g.productions.foldl
    (fun acc p => acc ++ removeNullableProduction p nullables) []
  mkCFG g.vars g.terms g.start newProductions

/-- One step of the unit-pair saturation: record `(a, c)` for a unit body
`[c]`, pushing it when new. -/
def upStep (a : String)
    (st : List (String × String) × List (String × String))
    (p : Production) : List (String × String) × List (String × String) :=
  match p.body with
  | [Sym.var c] =>
      if (a, c) ∈ st.1 then st
      else (insertEnd st.1 (a, c), (a, c) :: st.2)
  | _ => st

/-- The fuelled saturation worklist of `get_unit_pairs`. -/
def upLoop (productionsD : List (String × List Production)) :
    Nat → List (String × String) → List (String × String) →
      List (String × String)
  | 0, pairs, _ => pairs
  | _ + 1, pairs, [] => pairs
  | fuel + 1, pairs, (a, b) :: rest =>
      let st := ((alookup b productionsD).getD []).foldl (upStep a)
        (pairs, rest)
      upLoop productionsD fuel st.1 st.2

/-- `get_unit_pairs`: the reflexive pairs, saturated through unit
productions by a worklist. -/
def getUnitPairs (g : CFG) : List (String × String) :=
  let unitPairs := g.vars.map fun v => (v, v)
  let ps := g.productions.filter fun p =>
    match p.body with
    | [Sym.var _] => true
    | _ => false
  let productionsD := getProductionsD ps
  upLoop productionsD ((g.vars.length + g.productions.length + 1) *
    (g.vars.length + g.productions.length + 1)) unitPairs unitPairs.reverse

/-- `eliminate_unit_productions`: drop unit productions, then for every
unit pair `(a, b)` copy `b`'s non-unit bodies to head `a` (raw mode). -/
def eliminateUnitProductions (g : CFG) : CFG :=
  let unitPairs := getUnitPairs g
  let ps := g.productions.filter fun p =>
    match p.body with
    | [Sym.var _] => false
    | _ => true
  let productionsD := getProductionsD ps
  let ps := unitPairs.foldl
    (fun acc (ab : String × String) =>
      ((alookup ab.2 productionsD).getD []).foldl
        (fun acc p => acc ++ [Production.mk ab.1 p.body]) acc)
    ps
  mkCFG g.vars g.terms g.start ps

/-- The body-symbol conversion step of
`_get_productions_with_only_single_terminals`: a registered terminal
becomes its `#CNF#` proxy variable and is recorded as used. -/
def buStep (terms : List String) (bu : List Sym × List String) (sym : Sym) :
    List Sym × List String :=
  match sym with
  | Sym.ter t =>
      if t ∈ terms then (bu.1 ++ [Sym.var (t ++ "#CNF#")], insertEnd bu.2 t)
      else (bu.1 ++ [sym], bu.2)
  | _ => (bu.1 ++ [sym], bu.2)

/-- The per-production step of
`_get_productions_with_only_single_terminals`. -/
def stStep (g : CFG) (acc : List Production × List String) (p : Production) :
    List Production × List String :=
  if p.body.length = 1 then (acc.1 ++ [p], acc.2)
  else
    let bu := p.body.foldl (buStep g.terms) ([], acc.2)
    (acc.1 ++ [mkProduction p.head bu.1], bu.2)

/-- `_get_productions_with_only_single_terminals`: length-one bodies are
kept; in longer bodies every terminal is replaced by its `#CNF#` proxy
variable, and a proxy unit production is added per used terminal. -/
def singleTerminals (g : CFG) : List Production :=
  let res := g.productions.foldl (stStep g) ([], [])
  res.2.foldl (fun acc t => acc ++ [mkProduction (t ++ "#CNF#") [Sym.ter t]])
    res.1

/-- `_get_next_free_variable`: the next `prefix ++ idx` name not already a
variable of the grammar (the scan is internally fuelled by the variable
count, which the pigeonhole principle makes sufficient). -/
def getNextFreeVariable (g : CFG) (idx : Nat) (pre : String) : Nat × String :=
  let rec findFree : Nat → Nat → Nat × String
    | 0, i => (i, pre ++ toString i)
    | fuel + 1, i =>
        let temp := pre ++ toString i
        if temp ∈ g.vars then findFree fuel (i + 1) else (i, temp)
  findFree (g.vars.length + 1) (idx + 1)

/-- Generate `n` fresh chain variables (`new_var` of
`_decompose_productions`). -/
def genVarsRec (g : CFG) : Nat → Nat → Nat × List String
  | 0, idx => (idx, [])
  | n + 1, idx =>
      let iv := getNextFreeVariable g idx "C#CNF#"
      let rest := genVarsRec g n iv.1
      (rest.1, iv.2 :: rest.2)

/-- The inner chaining loop of `_decompose_productions`: walk the body,
reusing a memoized chain variable when the remaining suffix was already
decomposed (`done`), otherwise linking in the next fresh variable. -/
def decompLoop : List Sym → List String → String →
    List (List Sym × String) → List Production →
    List (List Sym × String) × List Production
  | b0 :: b1 :: b2 :: brest, nvs, head, done, acc =>
      let temp := b1 :: b2 :: brest
      match alookup temp done with
      | some dv => (done, acc ++ [mkProduction head [b0, Sym.var dv]])
      | none =>
          match nvs with
          | nv :: nvrest =>
              decompLoop (b1 :: b2 :: brest) nvrest nv (aupdate temp nv done)
                (acc ++ [mkProduction head [b0, Sym.var nv]])
          | [] => (done, acc)
  | [bA, bB], _, head, done, acc => (done, acc ++ [mkProduction head [bA, bB]])
  | _, _, _, done, acc => (done, acc)

/-- The per-production step of `_decompose_productions`. -/
def dStep (g : CFG) (st : Nat × List (List Sym × String) × List Production)
    (p : Production) : Nat × List (List Sym × String) × List Production :=
  let (idx, done, acc) := st
  if p.body.length ≤ 2 then (idx, done, acc ++ [p])
  else
    let iv := genVarsRec g (p.body.length - 2) idx
    let da := decompLoop p.body iv.2 p.head done acc
    (iv.1, da.1, da.2)

/-- `_decompose_productions`: bodies of length at most two are kept,
longer ones are chained into two-symbol productions with suffix
memoization. -/
def decomposeProductions (g : CFG) (productions : List Production) :
    List Production :=
  (productions.foldl (dStep g) (0, [], [])).2.2

/-- `to_normal_form`, the cleanup recursion modelled with fuel: check the
four cheap conditions; on failure run the cleanup pipeline and recurse
(an empty-production grammar returns itself); once the conditions hold,
isolate terminals and decompose long bodies. -/
def toNormalFormFuel : Nat → CFG → Option CFG
  | 0, _ => none
  | n + 1, g =>
      let nullables := getNullableSymbols g
      let unitPairs := getUnitPairs g
      let generating := getGeneratingSymbols g
      let reachables := getReachableSymbols g
      if nullables.length ≠ 0 ∨ unitPairs.length ≠ g.vars.length ∨
          generating.length ≠ g.vars.length + g.terms.length ∨
          reachables.length ≠ g.vars.length + g.terms.length then
        if g.productions.length = 0 then some g
        else
          toNormalFormFuel n
            (removeUselessSymbols
              (eliminateUnitProductions
                (removeUselessSymbols (removeEpsilon (removeUselessSymbols g)))))
      else
        some (mkCFG [] [] g.start (decomposeProductions g (singleTerminals g)))

/-- The Python exceptions surfacing in the modelled code paths. -/
inductive PyErr : Type
  | keyError
  | derivationDoesNotExist
  | indexError
deriving DecidableEq, Repr

/-- A CYK node (`cyk_table.py`): a value with optional left/right sons
(a leaf holds a terminal, a unit node one son, a binary node two). -/
inductive CYKNode : Type
  | mk : Sym → Option CYKNode → Option CYKNode → CYKNode

/-- The node's value; `CYKNode.__eq__` and `__hash__` go by value only. -/
def CYKNode.value : CYKNode → Sym
  | .mk v _ _ => v

/-- `set.add` on a cell of CYK nodes: nodes compare by value, so a node
whose value is already present is not added. -/
def addNode (cell : List CYKNode) (n : CYKNode) : List CYKNode :=
  if cell.any fun m => m.value == n.value then cell else cell ++ [n]

/-- The CYK table: spans `(start_index, end_index)` to cells. -/
def CYKTableT : Type := List ((Nat × Nat) × List CYKNode)

/-- `_set_productions_by_body`: heads grouped by body tuple. -/
def setProductionsByBody (ps : List Production) :
    List (List Sym × List String) :=
  ps.foldl
    (fun d p => aupdate p.body (((alookup p.body d).getD []) ++ [p.head]) d) []

/-- `_generates_all_terminals`: every word symbol has a single-symbol
body entry. -/
def generatesAllTerminals (d : List (List Sym × List String))
    (word : List Sym) : Bool :=
  word.all fun t => (alookup [t] d).isSome

/-- `_initialize_cyk_table`: diagonal cells from the single-terminal
productions, then empty cells for every window of size at least two. -/
def initCykTable (d : List (List Sym × List String)) (word : List Sym) :
    CYKTableT :=
  let tb : CYKTableT := (word.enum.foldl
    (fun (tb : CYKTableT) it =>
      let cell := ((alookup [it.2] d).getD []).foldl
        (fun cell h =>
          addNode cell (CYKNode.mk (Sym.var h) (some (CYKNode.mk it.2 none none)) none))
        []
      aupdate (it.1, it.1 + 1) cell tb)
    [])
  (List.range' 2 (word.length - 1)).foldl
    (fun tb ws =>
      (List.range (word.length - ws + 1)).foldl
        (fun tb st => aupdate (st, st + ws) ([] : List CYKNode) tb) tb)
    tb

/-- `_propagate_in_cyk_table`: for every window by increasing size, every
split point and every node pair, add every head with that body pair. -/
def propagateCykTable (d : List (List Sym × List String))
    (word : List Sym) (tb : CYKTableT) : CYKTableT :=
  (List.range' 2 (word.length - 1)).foldl
    (fun tb ws =>
      (List.range (word.length - ws + 1)).foldl
        (fun tb st =>
          let en := st + ws
          (List.range' (st + 1) (en - st - 1)).foldl
            (fun tb mid =>
              ((alookup (st, mid) tb).getD []).foldl
                (fun tb nb =>
                  ((alookup (mid, en) tb).getD []).foldl
                    (fun tb nc =>
                      let cell := ((alookup [nb.value, nc.value] d).getD []).foldl
                        (fun cell a => addNode cell (CYKNode.mk (Sym.var a) (some nb) (some nc)))
                        ((alookup (st, en) tb).getD [])
                      aupdate (st, en) cell tb)
                    tb)
                tb)
            tb)
        tb)
    tb

/-- `CYKTable.__init__` after the normal form is available: index the
productions by body; if some word symbol has no single-terminal
production, only the top cell is created (empty); otherwise the table is
filled bottom-up. -/
def buildCykTable (nf : CFG) (word : List Sym) :
    List (List Sym × List String) × CYKTableT :=
  let d := setProductionsByBody nf.productions
  if ¬ generatesAllTerminals d word then
    (d, [((0, word.length), [])])
  else
    (d, propagateCykTable d word (initCykTable d word))

/-- `generate_word`: is the start symbol in the top cell?  A missing top
cell is a `KeyError`; a `None` start symbol never equals a node. -/
def generateWordQ (nf : CFG) (word : List Sym) (tb : CYKTableT) :
    Except PyErr Bool :=
  match alookup (0, word.length) tb with
  | none => .error .keyError
  | some cell =>
      .ok (match nf.start with
        | some s => cell.any fun nd => nd.value == Sym.var s
        | none => false)

/-- `get_parse_tree`: the empty word gives a single node valued the start
symbol (or `Epsilon` without one); a non-generated word raises
`DerivationDoesNotExist`; otherwise the first top-cell node matching the
start symbol is returned (`[...][0]`). -/
def getParseTree (nf : CFG) (word : List Sym) (tb : CYKTableT) :
    Except PyErr CYKNode :=
  if word = [] then
    .ok (CYKNode.mk (match nf.start with | some s => Sym.var s | none => Sym.eps)
      none none)
  else
    match generateWordQ nf word tb with
    | .error e => .error e
    | .ok false => .error .derivationDoesNotExist
    | .ok true =>
        match ((alookup (0, word.length) tb).getD []).find?
          (fun nd => match nf.start with
            | some s => nd.value == Sym.var s
            | none => false) with
        | some root => .ok root
        | none => .error .indexError

/-- The word preprocessing shared by `contains` and
`get_cnf_parse_tree`: drop every element comparing equal to `Epsilon()`,
convert the rest with `to_terminal`. -/
def preprocessWord (word : List String) : List Sym :=
  (word.filter fun x => !pyEq (PyV.str x) (PyV.obj Sym.eps)).map toTerminal

/-- `CFG.contains`, with fuel for the `to_normal_form` recursion
(`none` = fuel exhausted, not a Python behaviour). -/
def containsFuel (g : CFG) (fuel : Nat) (word : List String) :
    Option (Except PyErr Bool) :=
  let w := preprocessWord word
  match toNormalFormFuel fuel g with
  | none => none
  | some nf =>
      let dt := buildCykTable nf w
      some (generateWordQ nf w dt.2)

/-- `CFG.get_cnf_parse_tree`, fuelled like `containsFuel`. -/
def getCnfParseTreeFuel (g : CFG) (fuel : Nat) (word : List String) :
    Option (Except PyErr CYKNode) :=
  let w := preprocessWord word
  match toNormalFormFuel fuel g with
  | none => none
  | some nf =>
      let dt := buildCykTable nf w
      some (getParseTree nf w dt.2)

/-- `CFG.is_empty`: the start symbol is not generating (`None` is never a
member of the generating set). -/
def isEmptyCFG (g : CFG) : Bool :=
  match g.start with
  | some s => !((getGeneratingSymbols g).contains (Sym.var s))
  | none => true

/-- The deterministic-automaton collaborator, by the interface the spec
declares consumed (states, start state, final states, deterministic
transition query, `accepts`, `is_empty`); `accepts` is specialized to the
empty word, its only use in the modelled code. -/
structure DFA : Type where
  states : List String
  startState : Option String
  finalStates : List String
  nextState : String → String → Option String
  acceptsEmpty : Bool
  isEmpty : Bool

/-- The state of a `CFGVariableConverter`: the fresh-variable counter,
the state/symbol index allocators, and the `(state, symbol, state)` triple
memo (validity flag and allocated variable).  The Python object-embedded
`index_cfg_converter` caches are modelled by the plain index maps, which
the spec notes is behaviourally identical; the dense pre-sized 3D array is
modelled as a map defaulting to `(False, None)`. -/
structure CVConv : Type where
  counter : Nat
  counterState : Nat
  counterSymbol : Nat
  inverseStatesD : List (String × Nat)
  inverseSymbolD : List (Sym × Nat)
  conversions : List ((Nat × Nat × Nat) × (Bool × Option String))

/-- `CFGVariableConverter.__init__`: enumerate the given states and stack
symbols (the counters end one past the last enumerated index, or at one
for an empty collection, matching the Python `enumerate` epilogue). -/
def initConverter (states : List String) (symbols : List String) : CVConv :=
  { counter := 0
    counterState := if states.isEmpty then 1 else states.length
    counterSymbol := if symbols.isEmpty then 1 else symbols.length
    inverseStatesD := states.enum.map fun si => (si.2, si.1)
    inverseSymbolD := symbols.enum.map fun si => (Sym.var si.2, si.1)
    conversions := [] }

/-- `_get_state_index`, allocating a fresh index on first sight. -/
def getStateIndex (cv : CVConv) (s : String) : CVConv × Nat :=
  match alookup s cv.inverseStatesD with
  | some i => (cv, i)
  | none =>
      ({ cv with
          inverseStatesD := cv.inverseStatesD ++ [(s, cv.counterState)]
          counterState := cv.counterState + 1 },
        cv.counterState)

/-- `_get_symbol_index`. -/
def getSymbolIndex (cv : CVConv) (s : Sym) : CVConv × Nat :=
  match alookup s cv.inverseSymbolD with
  | some i => (cv, i)
  | none =>
      ({ cv with
          inverseSymbolD := cv.inverseSymbolD ++ [(s, cv.counterSymbol)]
          counterSymbol := cv.counterSymbol + 1 },
        cv.counterSymbol)

/-- `to_cfg_combined_variable`: memoized allocation of the synthetic
variable of a `(state, symbol, state)` triple; Python names it by the
integer counter, rendered here as its decimal string. -/
def toCfgCombinedVariable (cv : CVConv) (state0 : String) (symbol : Sym)
    (state1 : String) : CVConv × String :=
  let ci0 := getStateIndex cv state0
  let cis := getSymbolIndex ci0.1 symbol
  let ci1 := getStateIndex cis.1 state1
  let key := (ci0.2, cis.2, ci1.2)
  let prev := (alookup key ci1.1.conversions).getD (false, none)
  match prev.2 with
  | some v => (ci1.1, v)
  | none =>
      let name := toString ci1.1.counter
      ({ ci1.1 with
          counter := ci1.1.counter + 1
          conversions := aupdate key (prev.1, some name) ci1.1.conversions },
        name)

/-- `_intersection_when_two_non_terminals` together with
`_get_all_bodies`: for every state pair `(p, r)` and split state `q`,
the production `⟨p,A,r⟩ → ⟨p,B,q⟩ ⟨q,C,r⟩` (raw mode). -/
def intersectionWhenTwoNonTerminals (p : Production) (states : List String)
    (cv : CVConv) : CVConv × List Production :=
  states.foldl
    (fun acc sp =>
      states.foldl
        (fun (acc : CVConv × List Production) sr =>
          let bodies := states.foldl
            (fun (bc : CVConv × List (List Sym)) sq =>
              let cb0 := toCfgCombinedVariable bc.1 sp (p.body.getD 0 Sym.eps) sq
              let cb1 := toCfgCombinedVariable cb0.1 sq (p.body.getD 1 Sym.eps) sr
              (cb1.1, bc.2 ++ [[Sym.var cb0.2, Sym.var cb1.2]]))
            (acc.1, [])
          let ch := toCfgCombinedVariable bodies.1 sp (Sym.var p.head) sr
          (ch.1, acc.2 ++ bodies.2.map fun b => Production.mk ch.2 b))
        acc)
    (cv, [])

/-- `_intersection_when_terminal`: for every state with a transition on
the body terminal's value, the production `⟨p,A,q⟩ → a` (raw mode). -/
def intersectionWhenTerminal (other : DFA) (p : Production)
    (states : List String) (cv : CVConv) : CVConv × List Production :=
  states.foldl
    (fun (acc : CVConv × List Production) sp =>
      match other.nextState sp (p.body.getD 0 Sym.eps).value with
      | some nx =>
          let ch := toCfgCombinedVariable acc.1 sp (Sym.var p.head) nx
          (ch.1, acc.2 ++ [Production.mk ch.2 [p.body.getD 0 Sym.eps]])
      | none => acc)
    (cv, [])

/-- `_intersection_starting_rules`: one production
`Start → ⟨start_state, cfg.start, f⟩` per final state (filtering mode),
nothing when either start is missing. -/
def intersectionStartingRules (cfg : CFG) (startV : String) (other : DFA)
    (cv : CVConv) : CVConv × List Production :=
  match cfg.start, other.startState with
  | some cs, some ss =>
      other.finalStates.foldl
        (fun (acc : CVConv × List Production) f =>
          let cb := toCfgCombinedVariable acc.1 ss (Sym.var cs) f
          (cb.1, acc.2 ++ [mkProduction startV [Sym.var cb.2]]))
        (cv, [])
  | _, _ => (cv, [])

/-- `CFG.intersection`: empty operand short-circuit, the
`contains([]) and accepts([])` empty-word decision, CNF conversion, and
the Bar-Hillel production construction with a fresh `Start` variable. -/
def intersectionFuel (g : CFG) (other : DFA) (fuel : Nat) :
    Option (Except PyErr CFG) :=
  if isEmptyCFG g || other.isEmpty then some (.ok (mkCFG [] [] none []))
  else
    match containsFuel g fuel [] with
    | none => none
    | some (.error e) => some (.error e)
    | some (.ok ce) =>
        let generateEmpty := ce && other.acceptsEmpty
        match toNormalFormFuel fuel g with
        | none => none
        | some cfg =>
            let states := dedupL other.states
            let cv0 := initConverter states cfg.vars
            let acc := cfg.productions.foldl
              (fun (acc : CVConv × List Production) p =>
                if p.body.length = 2 then
                  let r := intersectionWhenTwoNonTerminals p states acc.1
                  (r.1, acc.2 ++ r.2)
                else
                  let r := intersectionWhenTerminal other p states acc.1
                  (r.1, acc.2 ++ r.2))
              (cv0, [])
            let startV := "Start"
            let sr := intersectionStartingRules cfg startV other acc.1
            let ps := acc.2 ++ sr.2
            let ps := if generateEmpty then ps ++ [Production.mk startV []] else ps
            some (.ok (mkCFG [] [] (some startV) ps))

/-! ### Indexed grammars (`pyformlang/indexed_grammar`) -/

/-- A reduced rule: duplication `A[σ]→B[σ]C[σ]`, production
`A[σ]→B[rσ]`, consumption `C[rσ]→B[σ]` (keyed by its consumed terminal
`f_parameter`), or end `A[σ]→a`. -/
inductive RRule : Type
  | dup : String → String → String → RRule
  | prodR : String → String → String → RRule
  | consR : String → String → String → RRule
  | endR : String → String → RRule
deriving DecidableEq, Repr

/-- The rule container (`rules.py`): consumption rules are separated out
and grouped by consumed terminal, both collections deduplicated in given
order.  The `optim` reordering of the non-consumption rules is a pure
convergence heuristic (the spec allows any fixed order); the given order
(`optim = 0`) is used. -/
structure RulesC : Type where
  rules : List RRule
  consumptionRules : List (String × List RRule)
deriving Repr

/-- `Rules.__init__` (with the order-preserving `optim`). -/
def mkRules (rs : List RRule) : RulesC :=
  rs.foldl
    (fun acc r =>
      match r with
      | .consR f _ _ =>
          let temp := (alookup f acc.consumptionRules).getD []
          let temp := if r ∈ temp then temp else temp ++ [r]
          { acc with consumptionRules := aupdate f temp acc.consumptionRules }
      | _ =>
          { acc with rules := if r ∈ acc.rules then acc.rules else acc.rules ++ [r] })
    ⟨[], []⟩

/-- The non-terminals of one rule (`non_terminals` of each rule class). -/
def ruleNonTerminals : RRule → List String
  | .dup l r0 r1 => [l, r0, r1]
  | .prodR l r _ => [l, r]
  | .consR _ l r => [l, r]
  | .endR l _ => [l]

/-- `Rules.non_terminals`: consumption rules first, then the main list. -/
def rulesNonTerminals (rc : RulesC) : List String :=
  let s := rc.consumptionRules.foldl
    (fun s kv => kv.2.foldl (fun s r => (ruleNonTerminals r).foldl insertEnd s) s)
    []
  rc.rules.foldl (fun s r => (ruleNonTerminals r).foldl insertEnd s) s

/-- `IndexedGrammar.non_terminals`: the start variable joined with the
rules' non-terminals. -/
def igNonTerminals (startV : String) (rc : RulesC) : List String :=
  dedupL (startV :: rulesNonTerminals rc)

/-- The marking map `marked : non-terminal → set of frozensets of
non-terminals`, total with default `[]`. -/
def Marked : Type := String → List (Finset String)

/-- Pointwise update of the marking map. -/
def mupdate (m : Marked) (k : String) (v : List (Finset String)) : Marked :=
  fun x => if x = k then v else m x

/-- Add to a marked set (Python `set.add`). -/
def msAdd (ms : List (Finset String)) (t : Finset String) :
    List (Finset String) :=
  if t ∈ ms then ms else ms ++ [t]

/-- `IndexedGrammar.__init__` marking initialization: the identity
singleton for every non-terminal, plus the empty set for every
non-terminal with an end rule. -/
def initMarked (startV : String) (rc : RulesC) : Marked :=
  let nts := igNonTerminals startV rc
  fun a =>
    if a ∈ nts then
      if rc.rules.any (fun r => match r with | .endR l _ => l == a | _ => false)
      then [({a} : Finset String), ∅]
      else [({a} : Finset String)]
    else []

/-- State threaded through `_duplication_processing`: the marking map,
the deferred additions for `right_terms[0]`, and the
`was_modified` / `need_stop` flags. -/
structure DupState : Type where
  marked : Marked
  buf0 : List (Finset String)
  wasModified : Bool
  needStop : Bool

/-- One inner step of `_duplication_processing` for a pair of marked
sets: merge them (preferring a superset), and if new for the left term
record it — deferred when the left term is one of the right terms
(Python buffers to avoid mutating a set under iteration), live
otherwise; reaching the empty set on the start symbol raises the stop
flag. -/
def dupStep (startV l r0 r1 : String) (m0 m1 : Finset String)
    (st : DupState) (buf1 : List (Finset String)) :
    DupState × List (Finset String) :=
  let temp := if m0 ⊆ m1 then m1 else if m1 ⊆ m0 then m0 else m0 ∪ m1
  if temp ∈ st.marked l then (st, buf1)
  else
    let st := { st with wasModified := true }
    let sb :=
      if l = r0 then ({ st with buf0 := st.buf0 ++ [temp] }, buf1)
      else if l = r1 then (st, buf1 ++ [temp])
      else ({ st with marked := mupdate st.marked l (msAdd (st.marked l) temp) }, buf1)
    if l = startV ∧ temp = ∅ then ({ sb.1 with needStop := true }, sb.2) else sb

/-- The inner loop of `_duplication_processing` over `marked[r1]`. -/
def dupInner (startV l r0 r1 : String) (m0 : Finset String) :
    List (Finset String) → DupState → List (Finset String) →
    DupState × List (Finset String)
  | [], st, buf1 => (st, buf1)
  | m1 :: rest, st, buf1 =>
      let sb := dupStep startV l r0 r1 m0 m1 st buf1
      dupInner startV l r0 r1 m0 rest sb.1 sb.2

/-- The outer loop of `_duplication_processing` over `marked[r0]`, each
iteration flushing the `right_term_marked1` buffer into `marked[r1]`. -/
def dupOuter (startV l r0 r1 : String) :
    List (Finset String) → DupState → DupState
  | [], st => st
  | m0 :: rest, st =>
      let sb := dupInner startV l r0 r1 m0 (st.marked r1) st []
      let st := { sb.1 with
        marked := mupdate sb.1.marked r1 (sb.2.foldl msAdd (sb.1.marked r1)) }
      dupOuter startV l r0 r1 rest st

/-- `_duplication_processing`: iterate over the (stable) snapshot of
`marked[r0]`, finally flushing the `right_term_marked0` buffer. -/
def dupProcessing (startV : String) (marked : Marked) (l r0 r1 : String) :
    Marked × Bool × Bool :=
  let st := dupOuter startV l r0 r1 (marked r0) ⟨marked, [], false, false⟩
  (mupdate st.marked r0 (st.buf0.foldl msAdd (st.marked r0)),
    st.wasModified, st.needStop)

/-- The stack exploration of `addrec_ter` (`indexed_grammar/utils.py`),
fuelled: entries `(index, temp_set)`, a `done` memo for the
consumption-combining branch, the growing `marked_left` and the
modification flag. -/
def addrecLoop (sorted : List (Bool × Bool × List (Finset String))) :
    Nat → List (Nat × Finset String) → List (Nat × Finset String) →
    List (Finset String) → Bool → List (Finset String) × Bool
  | 0, _, _, ml, res => (ml, res)
  | _ + 1, [], _, ml, res => (ml, res)
  | fuel + 1, (index, newTemp) :: stack, done, ml, res =>
      if index ≥ sorted.length then
        if newTemp ∈ ml then addrecLoop sorted fuel stack done ml res
        else addrecLoop sorted fuel stack done (ml ++ [newTemp]) true
      else
        let entry := sorted.getD index (false, false, [])
        let stack := if entry.2.1 || entry.1 then (index + 1, newTemp) :: stack
          else stack
        let sd :=
          if !entry.2.1 then
            entry.2.2.foldl
              (fun (sd : List (Nat × Finset String) × List (Nat × Finset String))
                  ms =>
                let toAppend :=
                  if ms ⊆ newTemp then (index + 1, newTemp)
                  else if newTemp ⊆ ms then (index + 1, ms)
                  else (index + 1, newTemp ∪ ms)
                if toAppend ∈ sd.2 then sd
                else (toAppend :: sd.1, sd.2 ++ [toAppend]))
              (stack, done)
          else (stack, done)
        addrecLoop sorted fuel sd.1 sd.2 ml res

/-- `addrec_ter`: compute the duplicate-occurrence flags, sort each
marked-set list and then the zipped triples by decreasing size (the
Python tie order inside a set is arbitrary; a stable sort of the stored
order is used here), then run the stack exploration from `(0, ∅)`. -/
def addrecTer (fuel : Nat) (lSets : List (String × List (Finset String)))
    (markedLeft : List (Finset String)) : List (Finset String) × Bool :=
  let tempIn := lSets.map Prod.fst
  let existsAfter := (List.range lSets.length).map fun i =>
    (lSets.drop (i + 1)).any fun x => x.1 == (lSets.getD i ("", [])).1
  let existsBefore := (List.range lSets.length).map fun i =>
    (tempIn.take i).contains (lSets.getD i ("", [])).1
  let markedSets := lSets.map fun x =>
    x.2.mergeSort fun a b => decide (b.card ≤ a.card)
  let zipped := existsAfter.zip (existsBefore.zip markedSets)
  let sorted := zipped.mergeSort fun a b => decide (b.2.2.length ≤ a.2.2.length)
  addrecLoop sorted fuel [(0, ∅)] [] markedLeft false

/-- `addrec_bis`: for every snapshot element of `marked[right]`, filter
the consumption pairs to those with left term inside it; when their left
terms reproduce it exactly (and it is non-empty) run `addrec_ter` into
`marked[left]`.  The Python list carries live references to the marked
sets, realized here by re-reading the map at each iteration. -/
def addrecBis (fuel : Nat) (fRules : List (String × String))
    (prodLeft : String) (marked : Marked)
    (markedRightSnapshot : List (Finset String)) : Marked × Bool :=
  markedRightSnapshot.foldl
    (fun (acc : Marked × Bool) m =>
      let lSets := fRules.map fun cr => (cr.1, acc.1 cr.2)
      let lTemp := lSets.filter fun x => x.1 ∈ m
      let sTemp := lTemp.map Prod.fst
      if sTemp.toFinset = m ∧ m ≠ ∅ then
        let r := addrecTer fuel lTemp (acc.1 prodLeft)
        (mupdate acc.1 prodLeft r.1, acc.2 || r.2)
      else acc)
    (marked, false)

/-- The consumption rules of one production terminal as
`(left_term, right_term)` pairs (the `f_rules` lookup of
`_production_process`). -/
def consPairs (rc : RulesC) (t : String) : List (String × String) :=
  ((alookup t rc.consumptionRules).getD []).filterMap
    fun rr => match rr with | .consR _ cl cr => some (cl, cr) | _ => none

/-- Inner step of `_production_process`'s propagation loop: mark one new
set for the production's left term, stopping on the empty set at the
start symbol. -/
def prodSecondaryStep (startV l : String) (st : Marked × Bool × Bool)
    (s : Finset String) : Marked × Bool × Bool :=
  if st.2.2 then st
  else
    let st := (mupdate st.1 l (msAdd (st.1 l) s), true, st.2.2)
    if l = startV ∧ s = ∅ then (st.1, st.2.1, true) else st

/-- Per consumption-rule propagation of `_production_process`: the new
sub-terms of `marked[right]` enter `marked[left]`. -/
def prodSecondaryRule (startV l : String) (st : Marked × Bool × Bool)
    (cr : String × String) : Marked × Bool × Bool :=
  if st.2.2 then st
  else
    let subs := (st.1 cr.2).filter fun s => s ∉ st.1 l
    subs.foldl (prodSecondaryStep startV l) st

/-- `_production_process` for `A[σ]→B[rσ]`: run `addrec_bis` over the
consumption rules of `r`; stop if the start symbol now carries the empty
set; propagate the marked sets of consumption left terms equal to `B`;
finally the direct edge case: if `∅ ∈ marked[B]` then `∅` enters
`marked[A]`. -/
def productionProcess (fuel : Nat) (startV : String) (rc : RulesC)
    (marked : Marked) (l r prodT : String) : Marked × Bool × Bool :=
  let fRules := consPairs rc prodT
  let markedSymbols := fRules.map Prod.fst
  let ab := addrecBis fuel fRules l marked (marked r)
  let marked := ab.1
  let wasModified := ab.2
  if ∅ ∈ marked startV then (marked, wasModified, true)
  else
    let st :=
      if r ∈ markedSymbols then
        (fRules.filter fun cr => r = cr.1).foldl (prodSecondaryRule startV l)
          (marked, wasModified, false)
      else (marked, wasModified, false)
    if st.2.2 then st
    else
      let (marked, wasModified, _) := st
      if ∅ ∈ marked r ∧ ∅ ∉ marked l then
        (mupdate marked l (msAdd (marked l) ∅), true, false)
      else (marked, wasModified, false)

/-- One pass of the `is_empty` fixed point over the non-consumption
rules, with the early non-emptiness stop. -/
def rulesPass (fuel : Nat) (startV : String) (rc : RulesC) :
    List RRule → Marked → Bool → Marked × Bool × Bool
  | [], marked, wm => (marked, wm, false)
  | rule :: rest, marked, wm =>
      match rule with
      | .dup l r0 r1 =>
          let r := dupProcessing startV marked l r0 r1
          if r.2.2 then (r.1, wm || r.2.1, true)
          else rulesPass fuel startV rc rest r.1 (wm || r.2.1)
      | .prodR l rr t =>
          let r := productionProcess fuel startV rc marked l rr t
          if r.2.2 then (r.1, wm, true)
          else rulesPass fuel startV rc rest r.1 (wm || r.2.1)
      | _ => rulesPass fuel startV rc rest marked wm

/-- The marking map after `k` passes of the `is_empty` loop (stopping
early passes leave the map as returned). -/
def markedAfterPasses (fuel : Nat) (startV : String) (rc : RulesC) :
    Nat → Marked
  | 0 => initMarked startV rc
  | k + 1 =>
      (rulesPass fuel startV rc rc.rules
        (markedAfterPasses fuel startV rc k) false).1

/-- `IndexedGrammar.is_empty`, fuelled over passes: iterate until a pass
makes no modification (or the early stop fires), then test
`∅ ∈ marked[start]`. -/
def isEmptyIG (fuel : Nat) (startV : String) (rc : RulesC) :
    Nat → Marked → Option Bool
  | 0, _ => none
  | passes + 1, marked =>
      let r := rulesPass fuel startV rc rc.rules marked false
      if r.2.2 then some false
      else if r.2.1 then isEmptyIG fuel startV rc passes r.1
      else some (!(∅ ∈ r.1 startV : Bool))

/-- The worklist of `get_generating_non_terminals`: propagate through
`generating_from` edges, and through the duplication pointers — the
Python code unpacks the `(left, 2)` tuple into a local `pointer`,
decrements the local and tests it for zero, so the stored count never
changes. -/
def genNTLoop (generatingFrom : List (String × List String))
    (dupPointer : List (String × List (String × Nat))) :
    Nat → List String → List String → List String
  | 0, gen, _ => gen
  | _ + 1, gen, [] => gen
  | fuel + 1, gen, cur :: rest =>
      let st := ((alookup cur generatingFrom).getD []).foldl
        (fun (st : List String × List String) sym =>
          if sym ∈ st.1 then st else (insertEnd st.1 sym, sym :: st.2))
        (gen, rest)
      let st := ((alookup cur dupPointer).getD []).foldl
        (fun (st : List String × List String) sp =>
          let pointer := sp.2 - 1
          if pointer = 0 then
            if sp.1 ∈ st.1 then st else (insertEnd st.1 sp.1, sp.1 :: st.2)
          else st)
        st
      genNTLoop generatingFrom dupPointer fuel st.1 st.2

/-- `get_generating_non_terminals` with its two preprocessing passes
(`_preprocess_rules_generating` registering `(left, 2)` duplication
pointers, production edges and end-rule seeds; then the consumption
edges), followed by the worklist; the method reads nothing from the
grammar besides its rules. -/
def getGeneratingNT (rc : RulesC) : List String :=
  let pre := rc.rules.foldl
    (fun (acc : List (String × List (String × Nat)) ×
        List (String × List String) × List String × List String) r =>
      match r with
      | .dup l r0 r1 =>
          let dp := aupdate r0 (((alookup r0 acc.1).getD []) ++ [(l, 2)]) acc.1
          let dp := aupdate r1 (((alookup r1 dp).getD []) ++ [(l, 2)]) dp
          (dp, acc.2)
      | .prodR l rr _ =>
          (acc.1, aupdate rr (insertEnd ((alookup rr acc.2.1).getD []) l) acc.2.1,
            acc.2.2)
      | .endR l _ =>
          if l ∈ acc.2.2.1 then acc
          else (acc.1, acc.2.1, insertEnd acc.2.2.1 l, l :: acc.2.2.2)
      | .consR _ _ _ => acc)
    ([], [], [], [])
  let generatingFrom := rc.consumptionRules.foldl
    (fun gf kv => kv.2.foldl
      (fun gf r =>
        match r with
        | .consR _ cl cr => aupdate cr (insertEnd ((alookup cr gf).getD []) cl) gf
        | _ => gf)
      gf)
    pre.2.1
  genNTLoop generatingFrom pre.1
    (pre.2.2.1.length + rc.rules.length * 4 +
      rc.consumptionRules.foldl (fun n kv => n + kv.2.length) 0 * 2 + 1 +
      (rulesNonTerminals rc).length * ((rulesNonTerminals rc).length + 2))
    pre.2.2.1 pre.2.2.2

/-- The claim's backward-reachability closure for generating
non-terminals: end-rule left terms; production/consumption left terms
with generating right term; duplication left terms with both right
terms generating. -/
inductive SpecGenerating (rc : RulesC) : String → Prop
  | ofEnd : ∀ l t, RRule.endR l t ∈ rc.rules → SpecGenerating rc l
  | ofProd : ∀ l r t, RRule.prodR l r t ∈ rc.rules → SpecGenerating rc r →
      SpecGenerating rc l
  | ofCons : ∀ f l r rs, (f, rs) ∈ rc.consumptionRules →
      RRule.consR f l r ∈ rs → SpecGenerating rc r → SpecGenerating rc l
  | ofDup : ∀ l r0 r1, RRule.dup l r0 r1 ∈ rc.rules →
      SpecGenerating rc r0 → SpecGenerating rc r1 → SpecGenerating rc l

/-! ### Derivation semantics of a CFG

The usual sentential-form rewriting: one step replaces a variable
occurrence by the body of one of its productions; the language is the
set of terminal words derivable from the start symbol. -/

/-- One rewriting step. -/
inductive StepRw (ps : List Production) : List Sym → List Sym → Prop
  | mk : ∀ (u v : List Sym) (A : String) (body : List Sym),
      Production.mk A body ∈ ps →
      StepRw ps (u ++ Sym.var A :: v) (u ++ body ++ v)

/-- Derivation in exactly `n` steps. -/
def DerivN (ps : List Production) : Nat → List Sym → List Sym → Prop
  | 0 => fun u w => u = w
  | n + 1 => fun u w => ∃ mid, StepRw ps u mid ∧ DerivN ps n mid w

/-- Derivation in any number of steps. -/
def Derives (ps : List Production) (u w : List Sym) : Prop :=
  ∃ n, DerivN ps n u w

/-- The language of a grammar over terminal values. -/
def Lang (g : CFG) (w : List String) : Prop :=
  ∃ s, g.start = some s ∧
    Derives g.productions [Sym.var s] (w.map Sym.ter)

/-- The closure characterizing nullable variables: a head is in the
closure when it has a production whose body consists of variables all in
the closure (an empty body vacuously). -/
inductive NullC (ps : List Production) : String → Prop
  | mk : ∀ (A : String) (body : List Sym), Production.mk A body ∈ ps →
      (∀ s ∈ body, ∃ B, s = Sym.var B) →
      (∀ B, Sym.var B ∈ body → NullC ps B) → NullC ps A

/-- All production bodies are free of literal `Epsilon` instances — the
invariant filtering-mode `Production` construction guarantees (raw mode
is used only on already-sanitized bodies). -/
def epsFreeProds (ps : List Production) : Prop :=
  ∀ p ∈ ps, Sym.eps ∉ p.body

/-- The choice relation underlying `remove_nullable_production_sub`:
every body variant obtained by keeping each symbol or dropping it when
it belongs to the nullable set. -/
inductive Choice (nullables : List Sym) : List Sym → List Sym → Prop
  | nil : Choice nullables [] []
  | keep : ∀ s b b', Choice nullables b b' →
      Choice nullables (s :: b) (s :: b')
  | drop : ∀ s b b', s ∈ nullables → Choice nullables b b' →
      Choice nullables (s :: b) b'

/-- The well-formedness `CFG.__init__` establishes: duplicate-free sets,
a registered start symbol, and every production symbol registered (with
`Epsilon`-free bodies). -/
def WFCFG (g : CFG) : Prop :=
  g.vars.Nodup ∧ g.terms.Nodup ∧ g.productions.Nodup ∧
  (match g.start with | some s => s ∈ g.vars | none => True) ∧
  ∀ p ∈ g.productions, p.head ∈ g.vars ∧
    ∀ s ∈ p.body,
      match s with
      | Sym.var v => v ∈ g.vars
      | Sym.ter t => t ∈ g.terms
      | Sym.eps => False

/-- The non-empty-body productions of one head, in order — the
productions whose counters `_set_impacts_and_remaining_lists` tracks for
that head. -/
def nonEmptyProds (h : String) (ps : List Production) : List Production :=
  ps.filter fun p => p.head == h && !p.body.isEmpty

/-- The number of body occurrences of symbols belonging to a set. -/
def occCount (P : List Sym) (body : List Sym) : Nat :=
  (body.filter fun s => s ∈ P).length

/-- The counter of head `h`, production index `i` in a worklist state. -/
def counterAt (st : GenState) (h : String) (i : Nat) : Int :=
  ((alookup h st.remaining).getD []).getD i 0

/-- The body of the `i`-th non-empty-body production with head `h`. -/
def bodyAt (ps : List Production) (h : String) (i : Nat) : List Sym :=
  ((nonEmptyProds h ps).getD i ⟨h, []⟩).body

/-- Every impact entry references a live per-head counter slot. -/
def EValid (ps : List Production) (E : List (String × Nat)) : Prop :=
  ∀ e ∈ E, e.2 < (nonEmptyProds e.1 ps).length

/-- The worklist invariant of `_get_generating_or_nullable` in nullable
mode, with the ghost list `P` of already-popped symbols and the list `E`
of impact entries of the current symbol still to be processed: the
growing set splits into popped and pending symbols, every member is the
sentinel or a nullable-closure variable, and each counter of a head not
yet in the set records how many of its body occurrences still await a
decrement. -/
structure PInv (ps : List Production) (st : GenState) (P : List Sym)
    (E : List (String × Nat)) : Prop where
  nodupG : st.gsyms.Nodup
  nodupT : st.toProcess.Nodup
  nodupP : P.Nodup
  disjPT : ∀ x ∈ P, x ∉ st.toProcess
  memG : ∀ x, x ∈ st.gsyms ↔ x ∈ P ∨ x ∈ st.toProcess
  sound : ∀ x ∈ st.gsyms, x = Sym.eps ∨ ∃ B, x = Sym.var B ∧ NullC ps B
  lenRem : ∀ h, ((alookup h st.remaining).getD []).length =
    (nonEmptyProds h ps).length
  cnt : ∀ h, Sym.var h ∉ st.gsyms → ∀ i, i < (nonEmptyProds h ps).length →
    counterAt st h i = ((bodyAt ps h i).length : Int) -
      (occCount P (bodyAt ps h i) : Int) + (E.count (h, i) : Int)
  pos : ∀ h, Sym.var h ∉ st.gsyms → ∀ i, i < (nonEmptyProds h ps).length →
    0 < counterAt st h i

/-- The seeding step of `_get_generating_or_nullable`, named for the
invariant proofs: push an empty-body head not yet in the set. -/
def seedF (st : GenState) (h : String) : GenState :=
  if Sym.var h ∈ st.gsyms then st
  else ⟨insertEnd st.gsyms (Sym.var h), Sym.var h :: st.toProcess,
    st.remaining⟩

/-- Invariant of the seeding fold: duplicate-free set and stack holding
the same symbols, all of them sound, the counters untouched. -/
def SeedInv (ps : List Production) (R : List (String × List Int))
    (st : GenState) : Prop :=
  st.gsyms.Nodup ∧ st.toProcess.Nodup ∧
  (∀ x, x ∈ st.gsyms ↔ x ∈ st.toProcess) ∧
  (∀ x ∈ st.gsyms, x = Sym.eps ∨ ∃ B, x = Sym.var B ∧ NullC ps B) ∧
  st.remaining = R

/-- The impact-structure characterization `_set_impacts_and_remaining_lists`
establishes: the empty-body heads, the per-head counter seeds (one body
length per non-empty-body production, in order), and one `(head, index)`
impact entry per body occurrence of each symbol. -/
def ImpSpec (ps : List Production) (im : Impacts) : Prop :=
  (∀ h, h ∈ im.addedImpacts ↔ Production.mk h [] ∈ ps) ∧
  (∀ h, (alookup h im.remainingLists).getD [] =
    (nonEmptyProds h ps).map fun p => (p.body.length : Int)) ∧
  (∀ s h i, ((alookup s im.impacts).getD []).count (h, i) =
    if i < (nonEmptyProds h ps).length then (bodyAt ps h i).count s else 0)

/-- The right-hand variables of the unit productions of a list. -/
def unitSeconds (ps : List Production) : List String :=
  ps.filterMap fun p =>
    match p.body with
    | [Sym.var c] => some c
    | _ => none

/-- The invariant of the unit-pair worklist over the filtered unit
productions `ps` and their head grouping `pd`: a duplicate-free pair
list containing every reflexive pair, every stacked pair, with first
components among the variables and second components among variables or
unit right-hand sides, and every pair either still stacked or already
saturated through `pd`. -/
def UPInv (vars : List String) (ps : List Production)
    (pd : List (String × List Production))
    (pairs stack : List (String × String)) : Prop :=
  pairs.Nodup ∧
  (∀ e ∈ stack, e ∈ pairs) ∧
  (∀ e ∈ pairs, e.1 ∈ vars ∧ (e.2 ∈ vars ∨ e.2 ∈ unitSeconds ps)) ∧
  (∀ v ∈ vars, (v, v) ∈ pairs) ∧
  (∀ e ∈ pairs, e ∈ stack ∨
    ∀ p ∈ (alookup e.2 pd).getD [], ∀ c, p.body = [Sym.var c] →
      (e.1, c) ∈ pairs)

/-- The per-symbol conversion of `_get_productions_with_only_single_terminals`
on bodies of length other than one: registered terminals become their
`#CNF#` proxy variables. -/
def convSym (terms : List String) (sym : Sym) : Sym :=
  match sym with
  | Sym.ter t => if t ∈ terms then Sym.var (t ++ "#CNF#") else Sym.ter t
  | _ => sym

/-! ### Concrete instances used by the claims -/

instance [DecidableEq ε] [DecidableEq α] : DecidableEq (Except ε α) := fun x y =>
  match x, y with
  | .ok a, .ok b => if h : a = b then .isTrue (by rw [h]) else .isFalse (by simp [h])
  | .error a, .error b =>
      if h : a = b then .isTrue (by rw [h]) else .isFalse (by simp [h])
  | .ok _, .error _ => .isFalse (by simp)
  | .error _, .ok _ => .isFalse (by simp)

/-- The spec's example grammar `S -> a S b | ε`. -/
def cfgABS : CFG := mkCFG [] [] (some "S")
  [mkProduction "S" [Sym.ter "a", Sym.var "S", Sym.ter "b"], mkProduction "S" []]

/-- The Chomsky normal form the engine computes for `cfgABS`. -/
def nfABS : CFG :=
  ⟨["S", "a#CNF#", "b#CNF#", "C#CNF#1"], ["a", "b"], some "S",
    [⟨"S", [Sym.var "a#CNF#", Sym.var "b#CNF#"]⟩,
      ⟨"S", [Sym.var "a#CNF#", Sym.var "C#CNF#1"]⟩,
      ⟨"C#CNF#1", [Sym.var "S", Sym.var "b#CNF#"]⟩,
      ⟨"a#CNF#", [Sym.ter "a"]⟩,
      ⟨"b#CNF#", [Sym.ter "b"]⟩]⟩

/-- A one-state automaton accepting `a*` (non-empty, accepts ε). -/
def dfaD1 : DFA :=
  { states := ["q0"], startState := some "q0", finalStates := ["q0"],
    nextState := fun _ s => if s = "a" then some "q0" else none,
    acceptsEmpty := true, isEmpty := false }

/-- The grammar `S -> a | S` whose self-loop unit production survives
`to_normal_form`. -/
def cfgSelfLoop : CFG := mkCFG [] [] (some "S")
  [mkProduction "S" [Sym.ter "a"], mkProduction "S" [Sym.var "S"]]

/-- Indexed-grammar rules with two end rules and one duplication
`A → B C` over them. -/
def rcC2 : RulesC :=
  mkRules [RRule.endR "B" "b", RRule.endR "C" "c", RRule.dup "A" "B" "C"]

/-- `contains([])` always raises for any grammar whose normal form is
reached: the empty word populates no cell, so `generate_word` hits a
`KeyError` at `(0, 0)`. -/
theorem containsFuel_nil_keyError (g : CFG) (fuel : Nat)
    (h : (toNormalFormFuel fuel g).isSome = true) :
    containsFuel g fuel [] = some (.error .keyError) := by
  obtain ⟨nf, hnf⟩ := Option.isSome_iff_exists.mp h
  unfold containsFuel
  rw [hnf]
  rfl

/-! ### Claim theorems -/

/-- C1: for the grammar `S -> a S b | ε`, membership of `["a","b"]` and
`["a","a","b","b"]` is `True` and of `["a","b","b"]` is `False`; but on
the empty word `contains` raises a `KeyError` instead of returning
`True`: the `CYKTable` never populates the cell `(0, 0)` and
`generate_word` indexes it, so the claim's empty-word case fails on the
code. -/
theorem c1_cyk_contains_results :
    containsFuel cfgABS 10 [] = some (.error .keyError) ∧
    containsFuel cfgABS 10 ["a", "b"] = some (.ok true) ∧
    containsFuel cfgABS 10 ["a", "a", "b", "b"] = some (.ok true) ∧
    containsFuel cfgABS 10 ["a", "b", "b"] = some (.ok false) :=
  ⟨by decide, by decide, by decide, by decide⟩

/-- C2: `get_generating_non_terminals` misses the duplication closure:
for the rules `{B → b, C → c, A → B C}` it returns exactly `{B, C}`
although both right-hand non-terminals of the duplication are
generating, so the claim's closure (under which `A` is generating, as
`SpecGenerating` shows) does not hold — the Python code decrements a
local copy of the `(left, 2)` counter, which therefore never reaches
zero. -/
theorem c2_generating_misses_duplication :
    getGeneratingNT rcC2 = ["B", "C"] ∧
    "A" ∉ getGeneratingNT rcC2 ∧
    SpecGenerating rcC2 "A" := by
  refine ⟨by decide, by decide, ?_⟩
  exact SpecGenerating.ofDup "A" "B" "C" (by decide)
    (SpecGenerating.ofEnd "B" "b" (by decide))
    (SpecGenerating.ofEnd "C" "c" (by decide))

/-- C3 (counterexample): for the grammar `S -> a | S`, all four cheap
conditions of `to_normal_form` hold (the unit pair `(S, S)` is
reflexive), so the self-loop unit production `S -> S` survives into the
returned "normal form": a production whose body has length one and is a
`Variable`, not a `Terminal` — `is_normal_form` itself rejects it. -/
theorem c3_counterexample_selfLoop :
    toNormalFormFuel 10 cfgSelfLoop =
      some ⟨["S"], ["a"], some "S",
        [⟨"S", [Sym.ter "a"]⟩, ⟨"S", [Sym.var "S"]⟩]⟩ ∧
    (Production.mk "S" [Sym.var "S"]).body.length = 1 ∧
    Production.isNormalForm ⟨"S", [Sym.var "S"]⟩ = false :=
  ⟨by decide, by decide, by decide⟩

/-- C4: when either operand is empty, `intersection` returns the empty
CFG (no productions); but in the "otherwise" case the code always
raises: `generate_empty = self.contains([]) and other.accepts([])`
evaluates `contains([])`, which raises `KeyError` for every grammar, so
the claimed ε-production construction is never reached. -/
theorem c4_intersection_empty_guard_and_keyerror :
    (∀ (g : CFG) (d : DFA) (fuel : Nat), isEmptyCFG g = true →
      intersectionFuel g d fuel = some (.ok (mkCFG [] [] none []))) ∧
    (∀ (g : CFG) (d : DFA) (fuel : Nat), d.isEmpty = true →
      intersectionFuel g d fuel = some (.ok (mkCFG [] [] none []))) ∧
    (∀ (g : CFG) (d : DFA) (fuel : Nat), isEmptyCFG g = false →
      d.isEmpty = false → (toNormalFormFuel fuel g).isSome = true →
      intersectionFuel g d fuel = some (.error .keyError)) := by
  refine ⟨?_, ?_, ?_⟩
  · intro g d fuel h
    unfold intersectionFuel
    rw [h]
    rfl
  · intro g d fuel h
    unfold intersectionFuel
    rw [h]
    simp
  · intro g d fuel h1 h2 h3
    unfold intersectionFuel
    rw [h1, h2, containsFuel_nil_keyError g fuel h3]
    rfl

/-- C4 (witness): the spec's example grammar and a non-empty automaton
take the `KeyError` path. -/
theorem c4_witness :
    isEmptyCFG cfgABS = false ∧ dfaD1.isEmpty = false ∧
    intersectionFuel cfgABS dfaD1 10 = some (.error .keyError) :=
  ⟨by decide, rfl,
    c4_intersection_empty_guard_and_keyerror.2.2 cfgABS dfaD1 10 (by decide) rfl
      (by decide)⟩

/-- C9 (counterexample): `Epsilon() == Variable("epsilon")` evaluates to
`True`: the membership test `other in EPSILON_SYMBOLS` compares the
`Variable` against the alias strings, and `Variable.__eq__` against a
raw string falls back to comparing the underlying value. -/
theorem c9_counterexample_epsilon_eq_variable :
    pyEq (PyV.obj Sym.eps) (PyV.obj (Sym.var "epsilon")) = true := by decide

/-- C9 (amended): `Epsilon` equals every `Epsilon` instance and each of
the five alias strings; it never equals a `Variable` whose value is
outside the alias list (and a `Variable` on the left never equals
`Epsilon`); but it does equal a `Variable` whose underlying value is an
epsilon alias. -/
theorem c9_epsilon_equality_amended :
    pyEq (PyV.obj Sym.eps) (PyV.obj Sym.eps) = true ∧
    (∀ s, s ∈ EPSILON_SYMBOLS → pyEq (PyV.obj Sym.eps) (PyV.str s) = true ∧
      pyEq (PyV.str s) (PyV.obj Sym.eps) = true) ∧
    (∀ v, v ∉ EPSILON_SYMBOLS →
      pyEq (PyV.obj Sym.eps) (PyV.obj (Sym.var v)) = false) ∧
    (∀ v, pyEq (PyV.obj (Sym.var v)) (PyV.obj Sym.eps) = false) ∧
    (∀ v, v ∈ EPSILON_SYMBOLS →
      pyEq (PyV.obj Sym.eps) (PyV.obj (Sym.var v)) = true) := by
  refine ⟨by decide, ?_, ?_, fun v => rfl, ?_⟩
  · intro s hs
    fin_cases hs <;> exact ⟨by decide, by decide⟩
  · intro v hv
    simp only [EPSILON_SYMBOLS, List.mem_cons, List.not_mem_nil, or_false,
      not_or] at hv
    simp [pyEq, eqObj, pyMem, eqObjStr, EPSILON_SYMBOLS, hv.1, hv.2.1,
      hv.2.2.1, hv.2.2.2.1, hv.2.2.2.2]
  · intro v hv
    fin_cases hv <;> decide

/-- C9 (witness): instantiation at `"$"` (an alias) and `"x"` (not
one). -/
theorem c9_witness :
    ("$" ∈ EPSILON_SYMBOLS ∧ pyEq (PyV.obj Sym.eps) (PyV.str "$") = true) ∧
    ("x" ∉ EPSILON_SYMBOLS ∧
      pyEq (PyV.obj Sym.eps) (PyV.obj (Sym.var "x")) = false) :=
  ⟨⟨by decide, (c9_epsilon_equality_amended.2.1 "$" (by decide)).1⟩,
    ⟨by decide, c9_epsilon_equality_amended.2.2.1 "x" (by decide)⟩⟩

/-- C10: `contains` and `get_cnf_parse_tree` first delete every word
element comparing equal to `Epsilon()`, so their result on any word
equals their result on the word with those elements already deleted. -/
theorem c10_epsilon_entries_filtered (g : CFG) (fuel : Nat)
    (w : List String) :
    containsFuel g fuel w =
      containsFuel g fuel (w.filter fun x => !pyEq (PyV.str x) (PyV.obj Sym.eps)) ∧
    getCnfParseTreeFuel g fuel w =
      getCnfParseTreeFuel g fuel
        (w.filter fun x => !pyEq (PyV.str x) (PyV.obj Sym.eps)) := by
  have h : preprocessWord (w.filter fun x => !pyEq (PyV.str x) (PyV.obj Sym.eps)) =
      preprocessWord w := by
    simp [preprocessWord, List.filter_filter]
  constructor <;> simp only [containsFuel, getCnfParseTreeFuel, h]

/-! ### Table-shape lemmas for the CYK claims -/

theorem alookup_aupdate [DecidableEq α] (k k' : α) (v : β)
    (l : List (α × β)) :
    alookup k (aupdate k' v l) = if k = k' then some v else alookup k l := by
  induction l with
  | nil => by_cases h : k = k' <;> simp [aupdate, alookup, h]
  | cons hd tl ih =>
      rcases hd with ⟨k₀, v₀⟩
      by_cases h1 : k' = k₀
      · subst h1
        by_cases h2 : k = k' <;> simp [aupdate, alookup, h2]
      · by_cases h2 : k = k₀
        · subst h2
          have h3 : ¬k = k' := fun h => h1 h.symm
          simp [aupdate, alookup, h1, h3]
        · simp [aupdate, alookup, h1, h2, ih]

theorem foldl_preserve {α σ : Type _} (P : σ → Prop) (f : σ → α → σ)
    (h : ∀ s a, P s → P (f s a)) :
    ∀ (l : List α) (s : σ), P s → P (l.foldl f s) := by
  intro l
  induction l with
  | nil => intro s hs; exact hs
  | cons a tl ih => intro s hs; exact ih (f s a) (h s a hs)

theorem aupdate_preserves_isSome (k k' : (Nat × Nat)) (v : List CYKNode)
    (tb : CYKTableT)
    (h : (alookup k tb).isSome = true) :
    (alookup k (aupdate k' v tb)).isSome = true := by
  rw [alookup_aupdate]
  by_cases hk : k = k' <;> simp [hk, h]

theorem propagateCykTable_preserves_isSome (d : List (List Sym × List String))
    (word : List Sym) (k : Nat × Nat) (tb : CYKTableT)
    (h : (alookup k tb).isSome = true) :
    (alookup k (propagateCykTable d word tb)).isSome = true := by
  unfold propagateCykTable
  refine foldl_preserve (fun tb => (alookup k tb).isSome = true) _ ?_ _ tb h
  intro tb ws h1
  refine foldl_preserve (fun tb => (alookup k tb).isSome = true) _ ?_ _ tb h1
  intro tb st h2
  refine foldl_preserve (fun tb => (alookup k tb).isSome = true) _ ?_ _ tb h2
  intro tb mid h3
  refine foldl_preserve (fun tb => (alookup k tb).isSome = true) _ ?_ _ tb h3
  intro tb nb h4
  refine foldl_preserve (fun tb => (alookup k tb).isSome = true) _ ?_ _ tb h4
  intro tb nc h5
  exact aupdate_preserves_isSome _ _ _ _ h5

theorem initCykTable_top_isSome (d : List (List Sym × List String))
    (word : List Sym) (hw : word ≠ []) :
    (alookup (0, word.length) (initCykTable d word)).isSome = true := by
  unfold initCykTable
  rcases word with _ | ⟨x, xs⟩
  · exact absurd rfl hw
  rcases xs with _ | ⟨y, ys⟩
  · -- length one: the diagonal cell (0, 1) is created, no windows exist
    simp [List.enum, alookup_aupdate]
  · -- length at least two: the last window pass writes `(0, n)`
    have hlen : (x :: y :: ys).length - 1 = ys.length + 1 := by simp
    rw [hlen, List.range'_concat]
    rw [List.foldl_append]
    have hn : 2 + 1 * ys.length = (x :: y :: ys).length := by
      simp; omega
    rw [hn]
    simp only [List.foldl_cons, List.foldl_nil]
    have hr : (x :: y :: ys).length - (x :: y :: ys).length + 1 = 1 := by omega
    rw [hr]
    have hr1 : List.range 1 = [0] := rfl
    simp only [hr1, List.foldl_cons, List.foldl_nil]
    rw [alookup_aupdate]
    simp

theorem buildCykTable_top_isSome (nf : CFG) (word : List Sym)
    (hw : word ≠ []) :
    (alookup (0, word.length) (buildCykTable nf word).2).isSome = true := by
  unfold buildCykTable
  by_cases hg : generatesAllTerminals (setProductionsByBody nf.productions) word
  · simp only [hg, not_true_eq_false, if_false]
    exact propagateCykTable_preserves_isSome _ _ _ _
      (initCykTable_top_isSome _ _ hw)
  · simp only [hg, not_false_eq_true, if_true]
    simp [alookup]

/-- For a non-empty word, `generate_word` returns a boolean (the top
cell exists in both construction branches). -/
theorem generateWordQ_ok (nf : CFG) (word : List Sym) (hw : word ≠ []) :
    ∃ b, generateWordQ nf word (buildCykTable nf word).2 = .ok b := by
  have h := buildCykTable_top_isSome nf word hw
  obtain ⟨cell, hc⟩ := Option.isSome_iff_exists.mp h
  unfold generateWordQ
  rw [hc]
  exact ⟨_, rfl⟩

/-- C8: when the (preprocessed) queried word contains a symbol with no
matching single-terminal production in the grammar's normal form,
`contains` returns `False` without raising, and the table consists of
the single empty top cell `(0, len(word))` — nothing else is filled. -/
theorem c8_unknown_symbol_short_circuit (g : CFG) (fuel : Nat) (nf : CFG)
    (w : List String) (hnf : toNormalFormFuel fuel g = some nf)
    (hbad : ∃ s ∈ preprocessWord w,
      alookup [s] (setProductionsByBody nf.productions) = none) :
    containsFuel g fuel w = some (.ok false) ∧
    buildCykTable nf (preprocessWord w) =
      (setProductionsByBody nf.productions,
        [((0, (preprocessWord w).length), [])]) := by
  have hgen : generatesAllTerminals (setProductionsByBody nf.productions)
      (preprocessWord w) = false := by
    obtain ⟨s, hs, hnone⟩ := hbad
    rw [generatesAllTerminals, List.all_eq_false]
    exact ⟨s, hs, by simp [hnone]⟩
  have htb : buildCykTable nf (preprocessWord w) =
      (setProductionsByBody nf.productions,
        [((0, (preprocessWord w).length), [])]) := by
    unfold buildCykTable
    simp [hgen]
  refine ⟨?_, htb⟩
  unfold containsFuel
  rw [hnf]
  simp only [htb]
  unfold generateWordQ
  cases h : nf.start <;> simp [alookup]

/-- C8 (witness): querying `["a","c"]` against `S -> a S b | ε`, whose
normal form has no production for `c`. -/
theorem c8_witness :
    containsFuel cfgABS 10 ["a", "c"] = some (.ok false) ∧
    buildCykTable nfABS (preprocessWord ["a", "c"]) =
      (setProductionsByBody nfABS.productions,
        [((0, (preprocessWord ["a", "c"]).length), [])]) :=
  c8_unknown_symbol_short_circuit cfgABS 10 nfABS ["a", "c"] (by decide)
    ⟨Sym.ter "c", by decide, by decide⟩

/-- C5: `get_cnf_parse_tree` on an (after preprocessing) empty word
returns the single node valued the normalized grammar's start symbol
(or `Epsilon` when there is none) without raising; on a non-empty word
it raises `DerivationDoesNotExist` exactly when the word is not
generated (start symbol absent from the top CYK cell), and otherwise
returns a member of the top cell whose value is the start symbol. -/
theorem c5_parse_tree_behaviour (g : CFG) (fuel : Nat) (nf : CFG)
    (w : List String) (hnf : toNormalFormFuel fuel g = some nf) :
    (preprocessWord w = [] →
      getCnfParseTreeFuel g fuel w =
        some (.ok (CYKNode.mk
          (match nf.start with | some s => Sym.var s | none => Sym.eps)
          none none))) ∧
    (preprocessWord w ≠ [] →
      (getCnfParseTreeFuel g fuel w = some (.error .derivationDoesNotExist) ↔
        ¬ generateWordQ nf (preprocessWord w)
          (buildCykTable nf (preprocessWord w)).2 = .ok true)) ∧
    (preprocessWord w ≠ [] →
      generateWordQ nf (preprocessWord w)
        (buildCykTable nf (preprocessWord w)).2 = .ok true →
      ∃ root, getCnfParseTreeFuel g fuel w = some (.ok root) ∧
        root ∈ (alookup (0, (preprocessWord w).length)
          (buildCykTable nf (preprocessWord w)).2).getD [] ∧
        ∃ s, nf.start = some s ∧ root.value = Sym.var s) := by
  refine ⟨?_, ?_, ?_⟩
  · intro hpw
    unfold getCnfParseTreeFuel
    rw [hnf]
    unfold getParseTree
    rw [hpw]
    rfl
  · intro hpw
    obtain ⟨b, hb⟩ := generateWordQ_ok nf (preprocessWord w) hpw
    have hred : getCnfParseTreeFuel g fuel w =
        some (getParseTree nf (preprocessWord w)
          (buildCykTable nf (preprocessWord w)).2) := by
      unfold getCnfParseTreeFuel
      rw [hnf]
    rw [hred]
    unfold getParseTree
    rw [if_neg hpw, hb]
    cases b with
    | false => simp [hb]
    | true =>
        simp only [hb, not_true_eq_false, iff_false]
        -- the find succeeds, so the result is `ok`, never the error
        have hstart : ∃ s, nf.start = some s := by
          unfold generateWordQ at hb
          rcases hal : alookup (0, (preprocessWord w).length)
              (buildCykTable nf (preprocessWord w)).2 with _ | cell
          · rw [hal] at hb; exact absurd hb (by simp)
          · rw [hal] at hb
            rcases hst : nf.start with _ | s
            · rw [hst] at hb; simp at hb
            · exact ⟨s, rfl⟩
        obtain ⟨s, hs⟩ := hstart
        have hany : ((alookup (0, (preprocessWord w).length)
            (buildCykTable nf (preprocessWord w)).2).getD []).any
            (fun nd => nd.value == Sym.var s) = true := by
          unfold generateWordQ at hb
          rcases hal : alookup (0, (preprocessWord w).length)
              (buildCykTable nf (preprocessWord w)).2 with _ | cell
          · rw [hal] at hb; exact absurd hb (by simp)
          · rw [hal] at hb
            rw [hs] at hb
            simp only [Except.ok.injEq] at hb
            simp [hal, hb]
        have hfind : (((alookup (0, (preprocessWord w).length)
            (buildCykTable nf (preprocessWord w)).2).getD []).find?
            (fun nd => match nf.start with
              | some s => nd.value == Sym.var s
              | none => false)).isSome = true := by
          rw [List.find?_isSome]
          rw [List.any_eq_true] at hany
          obtain ⟨nd, hmem, hval⟩ := hany
          exact ⟨nd, hmem, by rw [hs]; exact hval⟩
        obtain ⟨root, hroot⟩ := Option.isSome_iff_exists.mp hfind
        rw [hroot]
        simp
  · intro hpw hb
    have hred : getCnfParseTreeFuel g fuel w =
        some (getParseTree nf (preprocessWord w)
          (buildCykTable nf (preprocessWord w)).2) := by
      unfold getCnfParseTreeFuel
      rw [hnf]
    rw [hred]
    unfold getParseTree
    rw [if_neg hpw, hb]
    have hstart : ∃ s, nf.start = some s := by
      unfold generateWordQ at hb
      rcases hal : alookup (0, (preprocessWord w).length)
          (buildCykTable nf (preprocessWord w)).2 with _ | cell
      · rw [hal] at hb; exact absurd hb (by simp)
      · rw [hal] at hb
        rcases hst : nf.start with _ | s
        · rw [hst] at hb; simp at hb
        · exact ⟨s, rfl⟩
    obtain ⟨s, hs⟩ := hstart
    have hany : ((alookup (0, (preprocessWord w).length)
        (buildCykTable nf (preprocessWord w)).2).getD []).any
        (fun nd => nd.value == Sym.var s) = true := by
      unfold generateWordQ at hb
      rcases hal : alookup (0, (preprocessWord w).length)
          (buildCykTable nf (preprocessWord w)).2 with _ | cell
      · rw [hal] at hb; exact absurd hb (by simp)
      · rw [hal] at hb
        rw [hs] at hb
        simp only [Except.ok.injEq] at hb
        simp [hal, hb]
    have hfind : (((alookup (0, (preprocessWord w).length)
        (buildCykTable nf (preprocessWord w)).2).getD []).find?
        (fun nd => match nf.start with
          | some s => nd.value == Sym.var s
          | none => false)).isSome = true := by
      rw [List.find?_isSome]
      rw [List.any_eq_true] at hany
      obtain ⟨nd, hmem, hval⟩ := hany
      exact ⟨nd, hmem, by rw [hs]; exact hval⟩
    obtain ⟨root, hroot⟩ := Option.isSome_iff_exists.mp hfind
    rw [hroot]
    refine ⟨root, rfl, List.mem_of_find?_eq_some hroot, s, hs, ?_⟩
    have := List.find?_some hroot
    rw [hs] at this
    exact eq_of_beq this

/-- C5 (witness): a parse tree for `["a","b"]` in `S -> a S b | ε`. -/
theorem c5_witness :
    ∃ root, getCnfParseTreeFuel cfgABS 10 ["a", "b"] = some (.ok root) ∧
      root ∈ (alookup (0, (preprocessWord ["a", "b"]).length)
        (buildCykTable nfABS (preprocessWord ["a", "b"])).2).getD [] ∧
      ∃ s, nfABS.start = some s ∧ root.value = Sym.var s :=
  (c5_parse_tree_behaviour cfgABS 10 nfABS ["a", "b"] (by decide)).2.2
    (by decide) (by decide)

/-! ### Monotonicity of the indexed-grammar marking -/

theorem foldl_rel {α σ : Type _} (R : σ → σ → Prop)
    (htrans : ∀ a b c, R a b → R b c → R a c) (f : σ → α → σ)
    (hrefl : ∀ s, R s s) (h : ∀ s a, R s (f s a)) :
    ∀ (l : List α) (s : σ), R s (l.foldl f s) := by
  intro l
  induction l with
  | nil => intro s; exact hrefl s
  | cons a tl ih =>
      intro s
      exact htrans _ _ _ (h s a) (ih (f s a))

theorem msAdd_subset (ms : List (Finset String)) (t : Finset String) :
    ms ⊆ msAdd ms t := by
  unfold msAdd
  split
  · exact fun a ha => ha
  · exact List.subset_append_left _ _

theorem foldl_msAdd_subset (l : List (Finset String))
    (ms : List (Finset String)) : ms ⊆ l.foldl msAdd ms := by
  induction l generalizing ms with
  | nil => exact fun a ha => ha
  | cons a tl ih => exact (msAdd_subset ms a).trans (ih (msAdd ms a))

theorem mupdate_subset (m : Marked) (k : String) (v : List (Finset String))
    (h : m k ⊆ v) (A : String) : m A ⊆ mupdate m k v A := by
  unfold mupdate
  split
  · rename_i h2
    rw [h2]
    exact h
  · exact fun a ha => ha

theorem dupStep_marked_subset (startV l r0 r1 : String)
    (m0 m1 : Finset String) (st : DupState) (buf1 : List (Finset String))
    (A : String) :
    st.marked A ⊆ (dupStep startV l r0 r1 m0 m1 st buf1).1.marked A := by
  unfold dupStep
  dsimp only
  split_ifs <;>
    first
      | exact fun a ha => ha
      | exact mupdate_subset _ _ _ (msAdd_subset _ _) A

theorem dupInner_marked_subset (startV l r0 r1 : String) (m0 : Finset String) :
    ∀ (m1s : List (Finset String)) (st : DupState)
      (buf1 : List (Finset String)) (A : String),
      st.marked A ⊆ (dupInner startV l r0 r1 m0 m1s st buf1).1.marked A := by
  intro m1s
  induction m1s with
  | nil => intro st buf1 A; exact fun a ha => ha
  | cons m1 rest ih =>
      intro st buf1 A
      exact (dupStep_marked_subset startV l r0 r1 m0 m1 st buf1 A).trans
        (ih _ _ A)

theorem dupOuter_marked_subset (startV l r0 r1 : String) :
    ∀ (m0s : List (Finset String)) (st : DupState) (A : String),
      st.marked A ⊆ (dupOuter startV l r0 r1 m0s st).marked A := by
  intro m0s
  induction m0s with
  | nil => intro st A; exact fun a ha => ha
  | cons m0 rest ih =>
      intro st A
      refine ((dupInner_marked_subset startV l r0 r1 m0 (st.marked r1) st [] A).trans
        ?_).trans (ih _ A)
      exact mupdate_subset _ _ _ (foldl_msAdd_subset _ _) A

theorem dupProcessing_marked_subset (startV : String) (marked : Marked)
    (l r0 r1 A : String) :
    marked A ⊆ (dupProcessing startV marked l r0 r1).1 A := by
  unfold dupProcessing
  dsimp only
  exact (dupOuter_marked_subset startV l r0 r1 (marked r0)
    ⟨marked, [], false, false⟩ A).trans
    (mupdate_subset _ _ _ (foldl_msAdd_subset _ _) A)

theorem addrecLoop_ml_subset (sorted : List (Bool × Bool × List (Finset String))) :
    ∀ (fuel : Nat) (stack done : List (Nat × Finset String))
      (ml : List (Finset String)) (res : Bool),
      ml ⊆ (addrecLoop sorted fuel stack done ml res).1 := by
  intro fuel
  induction fuel with
  | zero => intro stack done ml res; exact fun a ha => ha
  | succ fuel ih =>
      intro stack done ml res
      match stack with
      | [] => exact fun a ha => ha
      | (index, newTemp) :: stack =>
          unfold addrecLoop
          dsimp only
          split
          · split
            · exact ih _ _ _ _
            · exact (List.subset_append_left _ _).trans (ih _ _ _ _)
          · exact ih _ _ _ _

theorem addrecTer_subset (fuel : Nat)
    (lSets : List (String × List (Finset String)))
    (ml : List (Finset String)) : ml ⊆ (addrecTer fuel lSets ml).1 :=
  addrecLoop_ml_subset _ fuel _ _ ml false

theorem addrecBis_marked_subset (fuel : Nat)
    (fRules : List (String × String)) (prodLeft : String) (marked : Marked)
    (snapshot : List (Finset String)) (A : String) :
    marked A ⊆ (addrecBis fuel fRules prodLeft marked snapshot).1 A := by
  unfold addrecBis
  refine foldl_rel (fun (s s' : Marked × Bool) => ∀ B, s.1 B ⊆ s'.1 B)
    (fun a b c hab hbc B => (hab B).trans (hbc B)) _
    (fun s B => fun a ha => ha) ?_ snapshot (marked, false) A
  intro s m
  dsimp only
  split
  · intro B
    exact mupdate_subset _ _ _ (addrecTer_subset _ _ _) B
  · intro B; exact fun a ha => ha

theorem prodSecondaryStep_subset (startV l : String)
    (st : Marked × Bool × Bool) (x : Finset String) (A : String) :
    st.1 A ⊆ (prodSecondaryStep startV l st x).1 A := by
  unfold prodSecondaryStep
  dsimp only
  split_ifs <;>
    first
      | exact fun a ha => ha
      | exact mupdate_subset _ _ _ (msAdd_subset _ _) A

theorem prodSecondaryRule_subset (startV l : String)
    (st : Marked × Bool × Bool) (cr : String × String) (A : String) :
    st.1 A ⊆ (prodSecondaryRule startV l st cr).1 A := by
  unfold prodSecondaryRule
  dsimp only
  split
  · exact fun a ha => ha
  · refine foldl_rel (fun (s s' : Marked × Bool × Bool) => ∀ B, s.1 B ⊆ s'.1 B)
      (fun a b c hab hbc B => (hab B).trans (hbc B)) _
      (fun s B => fun a ha => ha)
      (fun s x B => prodSecondaryStep_subset startV l s x B) _ _ A

theorem productionProcess_marked_subset (fuel : Nat) (startV : String)
    (rc : RulesC) (marked : Marked) (l r t A : String) :
    marked A ⊆ (productionProcess fuel startV rc marked l r t).1 A := by
  unfold productionProcess
  dsimp only
  refine (addrecBis_marked_subset fuel (consPairs rc t) l marked (marked r) A).trans ?_
  generalize addrecBis fuel (consPairs rc t) l marked (marked r) = ab
  obtain ⟨m1, wm⟩ := ab
  dsimp only
  split
  · exact fun a ha => ha
  · have hst : ∀ (st0 : Marked × Bool × Bool) (B : String),
        st0.1 B ⊆ (((consPairs rc t).filter fun cr => r = cr.1).foldl
          (prodSecondaryRule startV l) st0).1 B := by
      intro st0 B
      exact foldl_rel (fun (s s' : Marked × Bool × Bool) => ∀ C, s.1 C ⊆ s'.1 C)
        (fun a b c hab hbc C => (hab C).trans (hbc C)) _
        (fun s C => fun a ha => ha)
        (fun s x C => prodSecondaryRule_subset startV l s x C) _ _ B
    generalize hS : (if r ∈ (consPairs rc t).map Prod.fst then
        ((consPairs rc t).filter fun cr => r = cr.1).foldl
          (prodSecondaryRule startV l) (m1, wm, false)
      else (m1, wm, false)) = st
    have h1 : m1 A ⊆ st.1 A := by
      rw [← hS]
      split
      · exact hst (m1, wm, false) A
      · exact fun a ha => ha
    obtain ⟨m2, wm2, stop2⟩ := st
    dsimp only at h1 ⊢
    split
    · exact h1
    · split
      · exact h1.trans (mupdate_subset _ _ _ (msAdd_subset _ _) A)
      · exact h1

theorem rulesPass_marked_subset (fuel : Nat) (startV : String) (rc : RulesC) :
    ∀ (rules : List RRule) (marked : Marked) (wm : Bool) (A : String),
      marked A ⊆ (rulesPass fuel startV rc rules marked wm).1 A := by
  intro rules
  induction rules with
  | nil => intro marked wm A; exact fun a ha => ha
  | cons rule rest ih =>
      intro marked wm A
      match rule with
      | .dup l r0 r1 =>
          unfold rulesPass
          dsimp only
          split
          · exact dupProcessing_marked_subset startV marked l r0 r1 A
          · exact (dupProcessing_marked_subset startV marked l r0 r1 A).trans
              (ih _ _ A)
      | .prodR l rr t =>
          unfold rulesPass
          dsimp only
          split
          · exact productionProcess_marked_subset fuel startV rc marked l rr t A
          · exact (productionProcess_marked_subset fuel startV rc marked l rr t A).trans
              (ih _ _ A)
      | .consR f cl cr =>
          unfold rulesPass
          exact ih _ _ A
      | .endR l t =>
          unfold rulesPass
          exact ih _ _ A

/-- C7: during `IndexedGrammar.is_empty()` the marking map only grows —
after processing any duplication rule, any production rule (including
the `addrec_bis` / `addrec_ter` combination helpers it calls), or any
full pass over the rules, every non-terminal's marked set is a superset
of what it was before, and hence the map after pass `k+1` contains the
map after pass `k` for every `k` until stabilization. -/
theorem c7_marking_monotone :
    (∀ (startV : String) (marked : Marked) (l r0 r1 A : String),
      marked A ⊆ (dupProcessing startV marked l r0 r1).1 A) ∧
    (∀ (fuel : Nat) (startV : String) (rc : RulesC) (marked : Marked)
      (l r t A : String),
      marked A ⊆ (productionProcess fuel startV rc marked l r t).1 A) ∧
    (∀ (fuel : Nat) (startV : String) (rc : RulesC) (rules : List RRule)
      (marked : Marked) (wm : Bool) (A : String),
      marked A ⊆ (rulesPass fuel startV rc rules marked wm).1 A) ∧
    (∀ (fuel : Nat) (startV : String) (rc : RulesC) (k : Nat) (A : String),
      markedAfterPasses fuel startV rc k A ⊆
        markedAfterPasses fuel startV rc (k + 1) A) :=
  ⟨dupProcessing_marked_subset,
    productionProcess_marked_subset,
    fun fuel startV rc => rulesPass_marked_subset fuel startV rc,
    fun fuel startV rc k A =>
      rulesPass_marked_subset fuel startV rc rc.rules
        (markedAfterPasses fuel startV rc k) false A⟩

/-! ### Derivation lemmas -/

theorem stepRw_append_right {ps : List Production} {u u' : List Sym}
    (v : List Sym) (h : StepRw ps u u') : StepRw ps (u ++ v) (u' ++ v) := by
  rcases h with ⟨u0, v0, A, body, hp⟩
  have h2 := @StepRw.mk ps u0 (v0 ++ v) A body hp
  simpa [List.append_assoc] using h2

theorem stepRw_append_left {ps : List Production} {u u' : List Sym}
    (w : List Sym) (h : StepRw ps u u') : StepRw ps (w ++ u) (w ++ u') := by
  rcases h with ⟨u0, v0, A, body, hp⟩
  have h2 := @StepRw.mk ps (w ++ u0) v0 A body hp
  simpa [List.append_assoc] using h2

theorem derivN_append_right {ps : List Production} {n : Nat} :
    ∀ {u u' : List Sym} (v : List Sym), DerivN ps n u u' →
      DerivN ps n (u ++ v) (u' ++ v) := by
  induction n with
  | zero => intro u u' v h; rw [show u = u' from h]; rfl
  | succ n ih =>
      rintro u u' v ⟨mid, hstep, hrest⟩
      exact ⟨mid ++ v, stepRw_append_right v hstep, ih v hrest⟩

theorem derivN_append_left {ps : List Production} {n : Nat} :
    ∀ {u u' : List Sym} (w : List Sym), DerivN ps n u u' →
      DerivN ps n (w ++ u) (w ++ u') := by
  induction n with
  | zero => intro u u' w h; rw [show u = u' from h]; rfl
  | succ n ih =>
      rintro u u' w ⟨mid, hstep, hrest⟩
      exact ⟨w ++ mid, stepRw_append_left w hstep, ih w hrest⟩

theorem derivN_trans {ps : List Production} :
    ∀ {n m : Nat} {a b c : List Sym}, DerivN ps n a b → DerivN ps m b c →
      DerivN ps (n + m) a c := by
  intro n
  induction n with
  | zero =>
      intro m a b c h1 h2
      rw [show a = b from h1, Nat.zero_add]
      exact h2
  | succ n ih =>
      rintro m a b c ⟨mid, hstep, hrest⟩ h2
      have h3 : DerivN ps (n + m) mid c := ih hrest h2
      have heq : n + 1 + m = n + m + 1 := by omega
      rw [heq]
      exact ⟨mid, hstep, h3⟩

theorem derivN_append {ps : List Production} {n m : Nat} {u u' v v' : List Sym}
    (h1 : DerivN ps n u u') (h2 : DerivN ps m v v') :
    DerivN ps (n + m) (u ++ v) (u' ++ v') :=
  derivN_trans (derivN_append_right v h1) (derivN_append_left u' h2)

theorem stepRw_cases {ps : List Production} {x α : List Sym}
    (h : StepRw ps x α) :
    ∃ u0 v0 A body, Production.mk A body ∈ ps ∧
      x = u0 ++ Sym.var A :: v0 ∧ α = u0 ++ body ++ v0 := by
  cases h with
  | mk u0 v0 A body hp => exact ⟨u0, v0, A, body, hp, rfl, rfl⟩

theorem stepRw_split {ps : List Production} {u v α : List Sym}
    (h : StepRw ps (u ++ v) α) :
    (∃ u', StepRw ps u u' ∧ α = u' ++ v) ∨
    (∃ v', StepRw ps v v' ∧ α = u ++ v') := by
  induction u generalizing α with
  | nil =>
      right
      exact ⟨α, by simpa using h, by simp⟩
  | cons x u' ih =>
      obtain ⟨u0, v0, A, body, hp, hx, ha⟩ := stepRw_cases h
      rcases u0 with _ | ⟨y, u0'⟩
      · left
        simp only [List.nil_append, List.cons_append, List.cons.injEq] at hx ha
        refine ⟨body ++ u', ?_, ?_⟩
        · rw [hx.1]
          have h2 := @StepRw.mk ps [] u' A body hp
          simpa using h2
        · rw [ha, ← hx.2]
          simp [List.append_assoc]
      · simp only [List.cons_append, List.cons.injEq] at hx
        have hstep2 : StepRw ps (u' ++ v) (u0' ++ body ++ v0) := by
          rw [hx.2]
          exact StepRw.mk u0' v0 A body hp
        rcases ih hstep2 with ⟨u'', hsu, heq⟩ | ⟨v', hsv, heq⟩
        · left
          refine ⟨x :: u'', ?_, ?_⟩
          · have h2 := stepRw_append_left [x] hsu
            simpa using h2
          · rw [ha, hx.1]
            simp only [List.cons_append, List.append_assoc]
            rw [← List.append_assoc, heq]
        · right
          refine ⟨v', hsv, ?_⟩
          rw [ha, hx.1]
          simp only [List.cons_append, List.append_assoc]
          rw [← List.append_assoc, heq]

theorem derivN_split {ps : List Production} :
    ∀ {n : Nat} {u v w : List Sym}, DerivN ps n (u ++ v) w →
      ∃ n1 n2 w1 w2, n1 + n2 = n ∧ w = w1 ++ w2 ∧ DerivN ps n1 u w1 ∧
        DerivN ps n2 v w2 := by
  intro n
  induction n with
  | zero =>
      intro u v w h
      exact ⟨0, 0, u, v, rfl, (show u ++ v = w from h).symm, rfl, rfl⟩
  | succ n ih =>
      rintro u v w ⟨mid, hstep, hrest⟩
      rcases stepRw_split hstep with ⟨u', hsu, rfl⟩ | ⟨v', hsv, rfl⟩
      · obtain ⟨n1, n2, w1, w2, hn, hw, h1, h2⟩ := ih hrest
        exact ⟨n1 + 1, n2, w1, w2, by omega, hw, ⟨u', hsu, h1⟩, h2⟩
      · obtain ⟨n1, n2, w1, w2, hn, hw, h1, h2⟩ := ih hrest
        exact ⟨n1, n2 + 1, w1, w2, by omega, hw, h1, ⟨v', hsv, h2⟩⟩

theorem stepRw_has_var {ps : List Production} {u α : List Sym}
    (h : StepRw ps u α) : ∃ A, Sym.var A ∈ u := by
  obtain ⟨u0, v0, A, _, _, hx, _⟩ := stepRw_cases h
  exact ⟨A, by rw [hx]; simp⟩

theorem derivN_var_free {ps : List Production} {n : Nat} {u w : List Sym}
    (hu : ∀ A, Sym.var A ∉ u) (h : DerivN ps n u w) : w = u := by
  cases n with
  | zero => exact (show u = w from h).symm
  | succ n =>
      obtain ⟨mid, hstep, _⟩ := h
      obtain ⟨A, hA⟩ := stepRw_has_var hstep
      exact absurd hA (hu A)

theorem derivN_single_var {ps : List Production} {n : Nat} {A : String}
    {w : List Sym} (h : DerivN ps (n + 1) [Sym.var A] w) :
    ∃ body, Production.mk A body ∈ ps ∧ DerivN ps n body w := by
  obtain ⟨mid, hstep, hrest⟩ := h
  obtain ⟨u0, v0, A', body, hp, hx, ha⟩ := stepRw_cases hstep
  rcases u0 with _ | ⟨x, u0'⟩
  · simp only [List.nil_append] at hx ha
    have hx' : Sym.var A = Sym.var A' ∧ ([] : List Sym) = v0 := by
      have h2 : Sym.var A :: ([] : List Sym) = Sym.var A' :: v0 := by
        simpa using hx
      simpa [List.cons.injEq] using h2
    have hA : A = A' := by
      have h3 := hx'.1
      simpa using h3
    subst hA
    rw [ha, ← hx'.2] at hrest
    simp only [List.append_nil] at hrest
    exact ⟨body, hp, hrest⟩
  · exfalso
    have h4 := congrArg List.length hx
    simp at h4
  
theorem derives_body_nil {ps : List Production} :
    ∀ (body : List Sym), (∀ s ∈ body, ∃ B, s = Sym.var B) →
      (∀ B, Sym.var B ∈ body → Derives ps [Sym.var B] []) →
      Derives ps body [] := by
  intro body
  induction body with
  | nil => intro _ _; exact ⟨0, rfl⟩
  | cons s rest ih =>
      intro h1 h2
      obtain ⟨B, rfl⟩ := h1 s (by simp)
      obtain ⟨n1, hd1⟩ := h2 B (by simp)
      obtain ⟨n2, hd2⟩ := ih (fun x hx => h1 x (by simp [hx]))
        (fun C hC => h2 C (by simp [hC]))
      exact ⟨n1 + n2, by simpa using derivN_append hd1 hd2⟩

theorem nullC_derives_nil {ps : List Production} {A : String}
    (h : NullC ps A) : Derives ps [Sym.var A] [] := by
  induction h with
  | mk A body hp hvars _ ih =>
      obtain ⟨n, hbody⟩ := derives_body_nil body hvars ih
      have hstep : StepRw ps [Sym.var A] body := by
        have h2 := @StepRw.mk ps [] [] A body hp
        simpa using h2
      have hone : DerivN ps 1 [Sym.var A] body := ⟨body, hstep, rfl⟩
      exact ⟨1 + n, derivN_trans hone hbody⟩

theorem derivN_nil_elements {ps : List Production} :
    ∀ (body : List Sym) (n : Nat), DerivN ps n body [] →
      ∀ s ∈ body, ∃ k, k ≤ n ∧ DerivN ps k [s] [] := by
  intro body
  induction body with
  | nil => intro n _ s hs; exact absurd hs (List.not_mem_nil s)
  | cons s0 rest ih =>
      intro n h s hs
      have h2 : DerivN ps n ([s0] ++ rest) [] := by simpa using h
      obtain ⟨n1, n2, w1, w2, hn, hw, hd1, hd2⟩ := derivN_split h2
      obtain ⟨hw1, hw2⟩ := List.append_eq_nil.mp hw.symm
      rcases List.mem_cons.mp hs with rfl | hs2
      · exact ⟨n1, by omega, hw1 ▸ hd1⟩
      · obtain ⟨k, hk, hd⟩ := ih n2 (hw2 ▸ hd2) s hs2
        exact ⟨k, by omega, hd⟩

theorem derives_nil_nullC {ps : List Production} :
    ∀ (n : Nat) (A : String), DerivN ps n [Sym.var A] [] → NullC ps A := by
  intro n
  induction n using Nat.strong_induction_on with
  | _ n ih =>
      intro A h
      match n, h with
      | 0, h => exact absurd (show [Sym.var A] = [] from h) (by simp)
      | n + 1, h =>
          obtain ⟨body, hp, hbody⟩ := derivN_single_var h
          have helems := derivN_nil_elements body n hbody
          refine NullC.mk A body hp ?_ ?_
          · intro s hs
            obtain ⟨k, hk, hd⟩ := helems s hs
            rcases s with v | t | _
            · exact ⟨v, rfl⟩
            · exfalso
              have := derivN_var_free (by intro A h; simp at h) hd
              simp at this
            · exfalso
              have := derivN_var_free (by intro A h; simp at h) hd
              simp at this
          · intro B hB
            obtain ⟨k, hk, hd⟩ := helems (Sym.var B) hB
            exact ih k (by omega) B hd

/-! ### The `remove_epsilon` transformation -/

theorem choice_nil_inv {N b' : List Sym} (h : Choice N [] b') : b' = [] := by
  cases h
  rfl

theorem choice_mem {N body b' : List Sym} (h : Choice N body b') :
    ∀ s ∈ b', s ∈ body := by
  induction h with
  | nil => intro s hs; exact hs
  | keep s0 b bb ih hih =>
      intro s hs
      rcases List.mem_cons.mp hs with rfl | hs2
      · simp
      · simp [hih s hs2]
  | drop s0 b bb _ ih hih =>
      intro s hs
      simp [hih s hs]

theorem foldl_append_g_mem {α β : Type _} (g : β → List α) :
    ∀ (l : List β) (acc : List α) (x : α),
      x ∈ l.foldl (fun res bt => res ++ g bt) acc ↔
        x ∈ acc ∨ ∃ bt ∈ l, x ∈ g bt := by
  intro l
  induction l with
  | nil => intro acc x; simp
  | cons b tl ih =>
      intro acc x
      rw [List.foldl_cons, ih]
      simp only [List.mem_append, List.mem_cons]
      constructor
      · rintro (⟨h | h⟩ | ⟨bt, hbt, hx⟩)
        · exact Or.inl h
        · exact Or.inr ⟨b, Or.inl rfl, h⟩
        · exact Or.inr ⟨bt, Or.inr hbt, hx⟩
      · rintro (h | ⟨bt, rfl | hbt, hx⟩)
        · exact Or.inl (Or.inl h)
        · exact Or.inl (Or.inr hx)
        · exact Or.inr ⟨bt, hbt, hx⟩

theorem mem_insertEnd [DecidableEq α] (l : List α) (y x : α) :
    x ∈ insertEnd l y ↔ x ∈ l ∨ x = y := by
  unfold insertEnd
  split
  · rename_i h
    constructor
    · exact Or.inl
    · rintro (h2 | rfl)
      · exact h2
      · exact h
  · simp

theorem mem_dedupL [DecidableEq α] (l : List α) (x : α) :
    x ∈ dedupL l ↔ x ∈ l := by
  have hgen : ∀ (l : List α) (acc : List α),
      x ∈ l.foldl insertEnd acc ↔ x ∈ acc ∨ x ∈ l := by
    intro l
    induction l with
    | nil => intro acc; simp
    | cons a tl ih =>
        intro acc
        rw [List.foldl_cons, ih, mem_insertEnd]
        simp only [List.mem_cons]
        tauto
  unfold dedupL
  rw [hgen]
  simp

theorem mkCFG_productions (vs ts : List String) (st : Option String)
    (ps : List Production) : (mkCFG vs ts st ps).productions = dedupL ps := rfl

theorem mkCFG_start (vs ts : List String) (st : Option String)
    (ps : List Production) : (mkCFG vs ts st ps).start = st := rfl

theorem mem_removeNullableProductionSub {N : List Sym} :
    ∀ {body b' : List Sym}, Sym.eps ∉ body →
      (b' ∈ removeNullableProductionSub body N ↔ Choice N body b') := by
  intro body
  induction body with
  | nil =>
      intro b' _
      unfold removeNullableProductionSub
      constructor
      · intro h
        rw [show b' = [] by simpa using h]
        exact Choice.nil
      · intro h
        rw [choice_nil_inv h]
        simp
  | cons b0 rest ih =>
      intro b' heps
      have hb0 : b0 ≠ Sym.eps := fun h => heps (by simp [h])
      have hrest : Sym.eps ∉ rest := fun h => heps (by simp [h])
      unfold removeNullableProductionSub
      have hfun : (fun (res : List (List Sym)) bodyTemp =>
          let res' := if b0 ∈ N then res ++ [bodyTemp] else res
          if b0 != Sym.eps then res' ++ [b0 :: bodyTemp] else res') =
          fun res bodyTemp => res ++
            ((if b0 ∈ N then [bodyTemp] else []) ++ [b0 :: bodyTemp]) := by
        funext res bodyTemp
        by_cases h1 : b0 ∈ N <;> simp [h1, hb0]
      rw [hfun, foldl_append_g_mem]
      simp only [List.not_mem_nil, false_or, List.mem_append]
      constructor
      · rintro ⟨bt, hbt, hx⟩
        have hcbt : Choice N rest bt := (ih hrest).mp hbt
        rcases hx with hx | hx
        · by_cases h1 : b0 ∈ N
          · rw [show b' = bt by simpa [h1] using hx]
            exact Choice.drop b0 rest bt h1 hcbt
          · simp [h1] at hx
        · rw [show b' = b0 :: bt by simpa using hx]
          exact Choice.keep b0 rest bt hcbt
      · intro hc
        cases hc with
        | keep =>
            rename_i bb hc2
            exact ⟨bb, (ih hrest).mpr hc2, Or.inr (by simp)⟩
        | drop =>
            rename_i hmem hc2
            exact ⟨b', (ih hrest).mpr hc2, Or.inl (by simp [hmem])⟩

theorem choice_derives {ps : List Production} {N : List Sym}
    (hNsound : ∀ x ∈ N, ∃ B, x = Sym.var B ∧ NullC ps B) :
    ∀ {body b' : List Sym}, Choice N body b' → Derives ps body b' := by
  intro body b' h
  induction h with
  | nil => exact ⟨0, rfl⟩
  | keep s b bb _ hih =>
      obtain ⟨n, hd⟩ := hih
      exact ⟨n, derivN_append_left [s] hd⟩
  | drop s b bb hmem _ hih =>
      obtain ⟨B, rfl, hnull⟩ := hNsound s hmem
      obtain ⟨n1, hd1⟩ := nullC_derives_nil hnull
      obtain ⟨n2, hd2⟩ := hih
      exact ⟨n1 + n2, by simpa using derivN_append hd1 hd2⟩

theorem mem_removeEpsilon_productions (g : CFG) (q : Production) :
    q ∈ (removeEpsilon g).productions ↔
      ∃ p ∈ g.productions, ∃ b',
        b' ∈ removeNullableProductionSub p.body (getNullableSymbols g) ∧
        b' ≠ [] ∧ q = mkProduction p.head b' := by
  unfold removeEpsilon
  rw [mkCFG_productions, mem_dedupL]
  have hfun : (fun (acc : List Production) p =>
      acc ++ removeNullableProduction p (getNullableSymbols g)) =
      fun acc p => acc ++ removeNullableProduction p (getNullableSymbols g) := rfl
  rw [foldl_append_g_mem (fun p =>
    removeNullableProduction p (getNullableSymbols g))]
  simp only [List.not_mem_nil, false_or]
  constructor
  · rintro ⟨p, hp, hq⟩
    unfold removeNullableProduction at hq
    obtain ⟨b', hb1, hq2⟩ := List.mem_map.mp hq
    obtain ⟨hmem, hne⟩ := List.mem_filter.mp hb1
    exact ⟨p, hp, b', hmem, by simpa using hne, hq2.symm⟩
  · rintro ⟨p, hp, b', hmem, hne, rfl⟩
    refine ⟨p, hp, ?_⟩
    unfold removeNullableProduction
    exact List.mem_map.mpr ⟨b', List.mem_filter.mpr ⟨hmem, by simpa using hne⟩,
      rfl⟩

theorem removeEpsilon_start (g : CFG) : (removeEpsilon g).start = g.start := rfl

theorem eps_not_mem_of_choice {N body b' : List Sym} (h : Choice N body b')
    (heps : Sym.eps ∉ body) : Sym.eps ∉ b' :=
  fun hx => heps (choice_mem h Sym.eps hx)

theorem mkProduction_eps_free (h : String) {b : List Sym}
    (hb : Sym.eps ∉ b) : mkProduction h b = ⟨h, b⟩ := by
  unfold mkProduction
  congr 1
  refine List.filter_eq_self.mpr ?_
  intro s hs
  have : s ≠ Sym.eps := fun he => hb (he ▸ hs)
  simpa using this

/-- Every production of `remove_epsilon`'s result has a non-empty body
(for `Epsilon`-free input bodies). -/
theorem removeEpsilon_no_empty_body (g : CFG)
    (hef : ∀ p ∈ g.productions, Sym.eps ∉ p.body) :
    ∀ q ∈ (removeEpsilon g).productions, q.body ≠ [] := by
  intro q hq
  obtain ⟨p, hp, b', hmem, hne, rfl⟩ :=
    (mem_removeEpsilon_productions g q).mp hq
  have hch : Choice (getNullableSymbols g) p.body b' :=
    (mem_removeNullableProductionSub (hef p hp)).mp hmem
  have hb'eps : Sym.eps ∉ b' := eps_not_mem_of_choice hch (hef p hp)
  rw [mkProduction_eps_free _ hb'eps]
  exact hne

theorem stepRw_length_mono {ps : List Production}
    (hne : ∀ p ∈ ps, p.body ≠ []) {u w : List Sym} (h : StepRw ps u w) :
    u.length ≤ w.length := by
  obtain ⟨u0, v0, A, body, hp, rfl, rfl⟩ := stepRw_cases h
  have : body ≠ [] := hne ⟨A, body⟩ hp
  have : 1 ≤ body.length := by
    cases body with
    | nil => exact absurd rfl this
    | cons _ _ => simp
  simp
  omega

theorem derivN_length_mono {ps : List Production}
    (hne : ∀ p ∈ ps, p.body ≠ []) :
    ∀ {n : Nat} {u w : List Sym}, DerivN ps n u w → u.length ≤ w.length := by
  intro n
  induction n with
  | zero => intro u w h; rw [show u = w from h]
  | succ n ih =>
      rintro u w ⟨mid, hstep, hrest⟩
      exact (stepRw_length_mono hne hstep).trans (ih hrest)

/-- Soundness: every step of the transformed grammar is simulable in the
original one, given that the nullable set is sound. -/
theorem removeEpsilon_step_sound {g : CFG}
    (hef : ∀ p ∈ g.productions, Sym.eps ∉ p.body)
    (hNsound : ∀ x ∈ getNullableSymbols g,
      ∃ B, x = Sym.var B ∧ NullC g.productions B)
    {u w : List Sym} (h : StepRw (removeEpsilon g).productions u w) :
    Derives g.productions u w := by
  obtain ⟨u0, v0, A, body', hq, rfl, rfl⟩ := stepRw_cases h
  obtain ⟨p, hp, b', hmem, hne, heq⟩ :=
    (mem_removeEpsilon_productions g ⟨A, body'⟩).mp hq
  have hch : Choice (getNullableSymbols g) p.body b' :=
    (mem_removeNullableProductionSub (hef p hp)).mp hmem
  have hb'eps : Sym.eps ∉ b' := eps_not_mem_of_choice hch (hef p hp)
  rw [mkProduction_eps_free _ hb'eps] at heq
  have hA : p.head = A := (congrArg Production.head heq).symm
  have hbody : body' = b' := congrArg Production.body heq
  subst hbody
  -- one step with the original production, then erase the dropped nullables
  have hstep1 : StepRw g.productions (u0 ++ Sym.var A :: v0)
      (u0 ++ p.body ++ v0) := by
    have h2 := @StepRw.mk g.productions u0 v0 A p.body
      (by rw [← hA]; exact hp)
    exact h2
  obtain ⟨n2, hd2⟩ := choice_derives hNsound hch
  have hderiv : DerivN g.productions n2 (u0 ++ p.body ++ v0)
      (u0 ++ body' ++ v0) := by
    have h3 := derivN_append_left u0 (derivN_append_right v0 hd2)
    simpa [List.append_assoc] using h3
  exact ⟨1 + n2, derivN_trans ⟨_, hstep1, rfl⟩ hderiv⟩

theorem removeEpsilon_derivN_sound {g : CFG}
    (hef : ∀ p ∈ g.productions, Sym.eps ∉ p.body)
    (hNsound : ∀ x ∈ getNullableSymbols g,
      ∃ B, x = Sym.var B ∧ NullC g.productions B) :
    ∀ {n : Nat} {u w : List Sym},
      DerivN (removeEpsilon g).productions n u w → Derives g.productions u w := by
  intro n
  induction n with
  | zero => intro u w h; exact ⟨0, h⟩
  | succ n ih =>
      rintro u w ⟨mid, hstep, hrest⟩
      obtain ⟨n1, h1⟩ := removeEpsilon_step_sound hef hNsound hstep
      obtain ⟨n2, h2⟩ := ih hrest
      exact ⟨n1 + n2, derivN_trans h1 h2⟩

theorem derivN_nil_source {ps : List Production} {n : Nat} {w : List Sym}
    (h : DerivN ps n [] w) : w = [] :=
  derivN_var_free (by intro A hA; simp at hA) h

theorem derivN_flatten {ps : List Production} :
    ∀ (body : List Sym) (n : Nat) (w : List Sym), DerivN ps n body w →
      ∃ parts : List (Nat × List Sym),
        List.Forall₂ (fun s (pr : Nat × List Sym) => DerivN ps pr.1 [s] pr.2)
          body parts ∧
        w = (parts.map Prod.snd).flatten ∧ (parts.map Prod.fst).sum = n := by
  intro body
  induction body with
  | nil =>
      intro n w h
      have hw : w = [] := derivN_nil_source h
      have hn : n = 0 := by
        cases n with
        | zero => rfl
        | succ n =>
            obtain ⟨mid, hstep, _⟩ := h
            obtain ⟨A, hA⟩ := stepRw_has_var hstep
            simp at hA
      exact ⟨[], List.Forall₂.nil, by simp [hw], by simp [hn]⟩
  | cons s rest ih =>
      intro n w h
      have h2 : DerivN ps n ([s] ++ rest) w := by simpa using h
      obtain ⟨n1, n2, w1, w2, hn, rfl, hd1, hd2⟩ := derivN_split h2
      obtain ⟨parts, hfa, hw2, hsum⟩ := ih n2 w2 hd2
      exact ⟨(n1, w1) :: parts, List.Forall₂.cons hd1 hfa,
        by simp [hw2], by simp [hsum]; omega⟩

theorem forall₂_mem_imp {α β : Type} {R S : α → β → Prop} :
    ∀ {l1 : List α} {l2 : List β}, List.Forall₂ R l1 l2 →
      (∀ a b, a ∈ l1 → b ∈ l2 → R a b → S a b) → List.Forall₂ S l1 l2 := by
  intro l1 l2 h
  induction h with
  | nil => intro _; exact List.Forall₂.nil
  | cons h1 _ hih =>
      intro hf
      rename_i a b t1 t2 _
      refine List.Forall₂.cons (hf a b (by simp) (by simp) h1) ?_
      exact hih fun x y hx hy => hf x y (by simp [hx]) (by simp [hy])

theorem choice_build {ps' : List Production} {N : List Sym} :
    ∀ {body : List Sym} {parts : List (Nat × List Sym)},
      List.Forall₂ (fun s (pr : Nat × List Sym) =>
        (pr.2 = [] → s ∈ N) ∧
        (pr.2 ≠ [] → Derives ps' [s] pr.2)) body parts →
      ∃ b', Choice N body b' ∧
        Derives ps' b' (parts.map Prod.snd).flatten ∧
        (b' = [] → (parts.map Prod.snd).flatten = []) := by
  intro body parts h
  induction h with
  | nil => exact ⟨[], Choice.nil, ⟨0, rfl⟩, fun _ => rfl⟩
  | cons h1 _ hih =>
      rename_i s pr t1 t2 _
      obtain ⟨b', hc, hd, he⟩ := hih
      by_cases hnil : pr.2 = []
      · refine ⟨b', Choice.drop s t1 b' (h1.1 hnil) hc, ?_, ?_⟩
        · simpa [hnil] using hd
        · intro hb; simp [hnil, he hb]
      · obtain ⟨n1, hd1⟩ := h1.2 hnil
        obtain ⟨n2, hd2⟩ := hd
        refine ⟨s :: b', Choice.keep s t1 b' hc, ?_, by simp⟩
        exact ⟨n1 + n2, by simpa using derivN_append hd1 hd2⟩

/-- Completeness: every non-empty derivation of the original grammar from
a single variable is reproducible in the transformed grammar, given that
the nullable set is complete for the closure. -/
theorem removeEpsilon_derivN_complete {g : CFG}
    (hef : ∀ p ∈ g.productions, Sym.eps ∉ p.body)
    (hNcomp : ∀ B, NullC g.productions B →
      Sym.var B ∈ getNullableSymbols g) :
    ∀ (n : Nat) (A : String) (w : List Sym),
      DerivN g.productions n [Sym.var A] w → w ≠ [] →
      Derives (removeEpsilon g).productions [Sym.var A] w := by
  intro n
  induction n using Nat.strong_induction_on with
  | _ n ih =>
      intro A w h hw
      match n, h with
      | 0, h => exact ⟨0, h⟩
      | n + 1, h =>
          obtain ⟨body, hp, hbody⟩ := derivN_single_var h
          obtain ⟨parts, hfa, hwflat, hsum⟩ := derivN_flatten body n w hbody
          have hble : ∀ pr ∈ parts, pr.1 ≤ n := by
            intro pr hpr
            have : pr.1 ∈ parts.map Prod.fst := List.mem_map_of_mem _ hpr
            calc pr.1 ≤ (parts.map Prod.fst).sum :=
                  List.single_le_sum (fun x _ => Nat.zero_le x) _ this
              _ = n := hsum
          have hfa2 : List.Forall₂ (fun s (pr : Nat × List Sym) =>
              (pr.2 = [] → s ∈ getNullableSymbols g) ∧
              (pr.2 ≠ [] → Derives (removeEpsilon g).productions [s] pr.2))
              body parts := by
            refine forall₂_mem_imp hfa ?_
            intro s pr hs hpr hder
            match s with
            | Sym.eps => exact absurd hs (hef ⟨A, body⟩ hp)
            | Sym.ter t =>
                have hterm : pr.2 = [Sym.ter t] :=
                  derivN_var_free (by intro B hB; simp at hB) hder
                constructor
                · intro hnil; rw [hterm] at hnil; simp at hnil
                · intro _; exact ⟨0, hterm.symm⟩
            | Sym.var B =>
                constructor
                · intro hnil
                  rw [hnil] at hder
                  exact hNcomp B (derives_nil_nullC pr.1 B hder)
                · intro hne
                  exact ih pr.1 (Nat.lt_succ_of_le (hble pr hpr)) B pr.2
                    hder hne
          obtain ⟨b', hc, hd, he⟩ := choice_build hfa2
          have hbne : b' ≠ [] := by
            intro hb
            exact hw (hwflat.trans (he hb) ▸ rfl)
          have hb'eps : Sym.eps ∉ b' :=
            eps_not_mem_of_choice hc (hef ⟨A, body⟩ hp)
          have hqmem : Production.mk A b' ∈ (removeEpsilon g).productions := by
            refine (mem_removeEpsilon_productions g ⟨A, b'⟩).mpr
              ⟨⟨A, body⟩, hp, b', ?_, hbne, ?_⟩
            · exact (mem_removeNullableProductionSub
                (hef ⟨A, body⟩ hp)).mpr hc
            · exact (mkProduction_eps_free A hb'eps).symm
          have hstep : StepRw (removeEpsilon g).productions [Sym.var A] b' := by
            have h2 := @StepRw.mk (removeEpsilon g).productions
              [] [] A b' hqmem
            simpa using h2
          obtain ⟨n2, hd2⟩ := hd
          rw [hwflat]
          exact ⟨1 + n2, derivN_trans ⟨b', hstep, rfl⟩ hd2⟩

/-! ### Worklist characterization: helper lemmas -/

theorem occCount_nil (b : List Sym) : occCount [] b = 0 := by
  simp [occCount]

theorem occCount_cons (P : List Sym) (s : Sym) (b : List Sym) :
    occCount P (s :: b) = occCount P b + (if s ∈ P then 1 else 0) := by
  unfold occCount
  by_cases h : s ∈ P
  · simp [List.filter_cons, h]
  · simp [List.filter_cons, h]

theorem occCount_le (P b : List Sym) : occCount P b ≤ b.length :=
  List.length_filter_le _ b

theorem occCount_eq_length_iff (P b : List Sym) :
    occCount P b = b.length ↔ ∀ s ∈ b, s ∈ P := by
  unfold occCount
  constructor
  · intro h
    have hsub : List.Sublist (List.filter (fun s => decide (s ∈ P)) b) b :=
      List.filter_sublist b
    have heq := hsub.eq_of_length h
    intro s hs
    have := List.filter_eq_self.mp heq s hs
    simpa using this
  · intro h
    rw [List.filter_eq_self.mpr (by intro a ha; simpa using h a ha)]

theorem occCount_append_singleton (P : List Sym) (x : Sym) (hx : x ∉ P)
    (b : List Sym) :
    occCount (P ++ [x]) b = occCount P b + b.count x := by
  induction b with
  | nil => simp [occCount]
  | cons s t ih =>
      rw [occCount_cons, occCount_cons, List.count_cons, ih]
      by_cases hs : s = x
      · subst hs
        simp [hx, List.mem_append]
        omega
      · have : s ∈ P ++ [x] ↔ s ∈ P := by simp [hs]
        rw [if_congr this rfl rfl]
        simp [hs]
        omega

theorem getD_set_eq {α : Type} (d v : α) :
    ∀ (l : List α) (i : Nat), i < l.length → (l.set i v).getD i d = v := by
  intro l
  induction l with
  | nil => intro i h; simp at h
  | cons a t ih =>
      intro i h
      cases i with
      | zero => simp
      | succ n =>
          simp only [List.set_cons_succ, List.getD_cons_succ]
          exact ih n (by simpa using h)

theorem getD_set_ne {α : Type} (d v : α) :
    ∀ (l : List α) (i j : Nat), j ≠ i → (l.set i v).getD j d = l.getD j d := by
  intro l
  induction l with
  | nil => intro i j _; simp
  | cons a t ih =>
      intro i j hne
      cases i with
      | zero =>
          cases j with
          | zero => exact absurd rfl hne
          | succ m => simp
      | succ n =>
          cases j with
          | zero => simp
          | succ m =>
              simp only [List.set_cons_succ, List.getD_cons_succ]
              exact ih n m (by omega)

theorem getD_append_left {α : Type} (d : α) :
    ∀ (l l' : List α) (i : Nat), i < l.length →
      (l ++ l').getD i d = l.getD i d := by
  intro l
  induction l with
  | nil => intro l' i h; simp at h
  | cons a t ih =>
      intro l' i h
      cases i with
      | zero => simp
      | succ n =>
          simp only [List.cons_append, List.getD_cons_succ]
          exact ih l' n (by simpa using h)

theorem getD_append_length {α : Type} (d x : α) :
    ∀ (l : List α), (l ++ [x]).getD l.length d = x := by
  intro l
  induction l with
  | nil => simp
  | cons a t ih => simp [ih]

theorem getD_map_length :
    ∀ (l : List Production) (i : Nat), i < l.length →
      ((l.map fun p => (p.body.length : Int)).getD i 0) =
        ((l.getD i ⟨"", []⟩).body.length : Int) := by
  intro l
  induction l with
  | nil => intro i h; simp at h
  | cons a t ih =>
      intro i h
      cases i with
      | zero => simp
      | succ n =>
          simp only [List.map_cons, List.getD_cons_succ]
          exact ih n (by simpa using h)

theorem sumNatI_set :
    ∀ (l : List Int) (i : Nat) (v : Int), i < l.length →
      sumNatI (l.set i v) + (l.getD i 0).toNat = sumNatI l + v.toNat := by
  intro l
  induction l with
  | nil => intro i v h; simp at h
  | cons a t ih =>
      intro i v h
      cases i with
      | zero => simp [sumNatI]; omega
      | succ n =>
          simp only [List.set_cons_succ, List.getD_cons_succ, sumNatI]
          have := ih n v (by simpa using h)
          omega

theorem sumRem_aupdate (h : String) (l' : List Int) :
    ∀ (rem : List (String × List Int)) (lst : List Int),
      alookup h rem = some lst →
      sumRem (aupdate h l' rem) + sumNatI lst = sumRem rem + sumNatI l' := by
  intro rem
  induction rem with
  | nil => intro lst hl; simp [alookup] at hl
  | cons kv rest ih =>
      intro lst hl
      rcases kv with ⟨k, v⟩
      by_cases hk : h = k
      · subst hk
        simp [alookup] at hl
        subst hl
        simp [aupdate, sumRem]
        omega
      · simp [alookup, hk] at hl
        have := ih lst hl
        simp [aupdate, hk, sumRem] at this ⊢
        omega

theorem insertEnd_nodup [DecidableEq α] (l : List α) (x : α)
    (h : l.Nodup) : (insertEnd l x).Nodup := by
  unfold insertEnd
  split
  · exact h
  · rename_i hx
    simp [List.nodup_append, h, hx]

theorem bodyAt_mem {ps : List Production} {h : String} {i : Nat}
    (hi : i < (nonEmptyProds h ps).length) :
    Production.mk h (bodyAt ps h i) ∈ ps ∧ bodyAt ps h i ≠ [] := by
  set q := (nonEmptyProds h ps).getD i ⟨h, []⟩ with hq
  have hmemq : q ∈ nonEmptyProds h ps := by
    rw [hq, List.getD_eq_getElem _ _ hi]
    exact List.getElem_mem hi
  have hfil := List.mem_filter.mp hmemq
  have hpred := hfil.2
  have hand := (Bool.and_eq_true _ _).mp hpred
  have hhead : q.head = h := by simpa using hand.1
  have hne : q.body ≠ [] := by
    intro hb
    have := hand.2
    rw [hb] at this
    simp at this
  have hbody : bodyAt ps h i = q.body := rfl
  refine ⟨?_, by rw [hbody]; exact hne⟩
  have hqeq : Production.mk h (bodyAt ps h i) = q := by
    rw [hbody, ← hhead]
  rw [hqeq]
  exact hfil.1

theorem pie_cons_red (h : String) (idx : Nat) (rest : List (String × Nat))
    (st : GenState) :
    processImpactEntries ((h, idx) :: rest) st =
      if Sym.var h ∈ st.gsyms then processImpactEntries rest st
      else
        (let lst := (alookup h st.remaining).getD []
         let cnt := lst.getD idx 0 - 1
         let rem := aupdate h (lst.set idx cnt) st.remaining
         if cnt = 0 then
           processImpactEntries rest
             ⟨insertEnd st.gsyms (Sym.var h), Sym.var h :: st.toProcess, rem⟩
         else
           processImpactEntries rest ⟨st.gsyms, st.toProcess, rem⟩) := rfl

theorem count_cons_ne (a b : String × Nat) (l : List (String × Nat))
    (h : a ≠ b) : (a :: l).count b = l.count b := by
  rw [List.count_cons]
  simp [h]

theorem count_cons_self (a : String × Nat) (l : List (String × Nat)) :
    (a :: l).count a = l.count a + 1 := by
  rw [List.count_cons]
  simp

/-- One full run of `__process_impacts`' inner entry loop preserves the
worklist invariant, consumes the pending entries, never increases the
termination measure, and only grows the symbol set. -/
theorem pie_spec {ps : List Production} (hef : epsFreeProds ps) :
    ∀ (E : List (String × Nat)) (st : GenState) (P : List Sym),
      PInv ps st P E → EValid ps E →
      PInv ps (processImpactEntries E st) P [] ∧
      stMeasure (processImpactEntries E st) ≤ stMeasure st ∧
      ∀ x ∈ st.gsyms, x ∈ (processImpactEntries E st).gsyms := by
  intro E
  induction E with
  | nil =>
      intro st P hinv _
      exact ⟨hinv, le_refl _, fun x hx => hx⟩
  | cons e rest ih =>
      rcases e with ⟨h, idx⟩
      intro st P hinv hval
      have hvalrest : EValid ps rest := fun e he => hval e (by simp [he])
      have hidx : idx < (nonEmptyProds h ps).length := hval (h, idx) (by simp)
      by_cases hg : Sym.var h ∈ st.gsyms
      · -- the head is already in the set: the entry is skipped
        have hred : processImpactEntries ((h, idx) :: rest) st =
            processImpactEntries rest st := by
          rw [pie_cons_red, if_pos hg]
        rw [hred]
        refine ih st P ?_ hvalrest
        refine ⟨hinv.nodupG, hinv.nodupT, hinv.nodupP, hinv.disjPT, hinv.memG,
          hinv.sound, hinv.lenRem, ?_, hinv.pos⟩
        intro h' hh' i hi
        have hpne : (h, idx) ≠ (h', i) := by
          intro he
          have hfst : h = h' := congrArg Prod.fst he
          exact hh' (hfst ▸ hg)
        rw [hinv.cnt h' hh' i hi, count_cons_ne _ _ _ hpne]
      · set lst := (alookup h st.remaining).getD [] with hlst
        have hlen : lst.length = (nonEmptyProds h ps).length := hinv.lenRem h
        have hidxl : idx < lst.length := by rw [hlen]; exact hidx
        set c0 := lst.getD idx 0 with hc0
        have hcval : counterAt st h idx = c0 := rfl
        have hcnt0 := hinv.cnt h hg idx hidx
        have hpos0 := hinv.pos h hg idx hidx
        rw [hcval] at hcnt0 hpos0
        rw [count_cons_self] at hcnt0
        have hsome : alookup h st.remaining = some lst := by
          cases hal : alookup h st.remaining with
          | none =>
              have hnil : lst = [] := by rw [hlst, hal]; rfl
              rw [hnil] at hidxl
              simp at hidxl
          | some l0 =>
              have hl0 : lst = l0 := by rw [hlst, hal]; rfl
              rw [hl0]
        set st1 : GenState := ⟨insertEnd st.gsyms (Sym.var h),
          Sym.var h :: st.toProcess,
          aupdate h (lst.set idx (c0 - 1)) st.remaining⟩ with hst1
        set st2 : GenState := ⟨st.gsyms, st.toProcess,
          aupdate h (lst.set idx (c0 - 1)) st.remaining⟩ with hst2
        have hred : processImpactEntries ((h, idx) :: rest) st =
            if c0 - 1 = 0 then processImpactEntries rest st1
            else processImpactEntries rest st2 := by
          rw [pie_cons_red, if_neg hg]
        have hlook : ∀ h'', alookup h'' st1.remaining =
            if h'' = h then some (lst.set idx (c0 - 1))
            else alookup h'' st.remaining :=
          fun h'' => alookup_aupdate h'' h _ st.remaining
        have hlook2 : ∀ h'', alookup h'' st2.remaining =
            if h'' = h then some (lst.set idx (c0 - 1))
            else alookup h'' st.remaining :=
          fun h'' => alookup_aupdate h'' h _ st.remaining
        have hsumset := sumNatI_set lst idx (c0 - 1) hidxl
        rw [← hc0] at hsumset
        have hsumrem := sumRem_aupdate h (lst.set idx (c0 - 1))
          st.remaining lst hsome
        have hremle : sumRem (aupdate h (lst.set idx (c0 - 1))
            st.remaining) + 1 = sumRem st.remaining := by
          omega
        have hlenRem' : ∀ h'', ((alookup h'' st1.remaining).getD []).length =
            (nonEmptyProds h'' ps).length := by
          intro h''
          rw [hlook h'']
          by_cases hh : h'' = h
          · rw [if_pos hh, hh]
            simp [List.length_set, hlen]
          · rw [if_neg hh]
            exact hinv.lenRem h''
        rw [hred]
        by_cases hz : c0 - 1 = 0
        · rw [if_pos hz]
          -- the counter reached zero: the head is nullable and gets added
          have hle := occCount_le P (bodyAt ps h idx)
          have hocc : occCount P (bodyAt ps h idx) =
              (bodyAt ps h idx).length := by omega
          have hallP : ∀ s ∈ bodyAt ps h idx, s ∈ P :=
            (occCount_eq_length_iff P (bodyAt ps h idx)).mp hocc
          obtain ⟨hpmem, _⟩ := bodyAt_mem hidx
          have hepsfree : Sym.eps ∉ bodyAt ps h idx :=
            hef ⟨h, bodyAt ps h idx⟩ hpmem
          have hsoundbody : ∀ s ∈ bodyAt ps h idx,
              ∃ B, s = Sym.var B ∧ NullC ps B := by
            intro s hs
            have hsg : s ∈ st.gsyms := (hinv.memG s).mpr (Or.inl (hallP s hs))
            rcases hinv.sound s hsg with rfl | hvar
            · exact absurd hs hepsfree
            · exact hvar
          have hnullh : NullC ps h := by
            refine NullC.mk h (bodyAt ps h idx) hpmem ?_ ?_
            · intro s hs
              obtain ⟨B, hB, _⟩ := hsoundbody s hs
              exact ⟨B, hB⟩
            · intro B hB
              obtain ⟨B', hB', hn⟩ := hsoundbody (Sym.var B) hB
              have hBB : B' = B := by
                have := hB'.symm
                simpa using this
              exact hBB ▸ hn
          have hg1 : st1.gsyms = insertEnd st.gsyms (Sym.var h) := rfl
          have ht1 : st1.toProcess = Sym.var h :: st.toProcess := rfl
          have hnt : Sym.var h ∉ st.toProcess := fun hx =>
            hg ((hinv.memG _).mpr (Or.inr hx))
          have hinv1 : PInv ps st1 P rest := by
            refine ⟨?_, ?_, hinv.nodupP, ?_, ?_, ?_, hlenRem', ?_, ?_⟩
            · rw [hg1]
              exact insertEnd_nodup _ _ hinv.nodupG
            · rw [ht1]
              exact List.nodup_cons.mpr ⟨hnt, hinv.nodupT⟩
            · intro x hx
              rw [ht1, List.mem_cons]
              push_neg
              refine ⟨?_, hinv.disjPT x hx⟩
              intro he
              exact hg (he ▸ (hinv.memG x).mpr (Or.inl hx))
            · intro x
              rw [hg1, ht1, mem_insertEnd, hinv.memG x, List.mem_cons]
              tauto
            · intro x hx
              rw [hg1] at hx
              rcases (mem_insertEnd _ _ _).mp hx with hx2 | rfl
              · exact hinv.sound x hx2
              · exact Or.inr ⟨h, rfl, hnullh⟩
            · intro h' hh' i hi
              have hne : h' ≠ h := by
                intro he
                apply hh'
                rw [hg1, he]
                exact (mem_insertEnd _ _ _).mpr (Or.inr rfl)
              have hold : Sym.var h' ∉ st.gsyms := fun hx =>
                hh' (by rw [hg1]; exact (mem_insertEnd _ _ _).mpr (Or.inl hx))
              have hcc : counterAt st1 h' i = counterAt st h' i := by
                unfold counterAt
                rw [hlook h', if_neg hne]
              have hpne : (h, idx) ≠ (h', i) := by
                intro he
                exact hne (congrArg Prod.fst he).symm
              rw [hcc, hinv.cnt h' hold i hi, count_cons_ne _ _ _ hpne]
            · intro h' hh' i hi
              have hne : h' ≠ h := by
                intro he
                apply hh'
                rw [hg1, he]
                exact (mem_insertEnd _ _ _).mpr (Or.inr rfl)
              have hold : Sym.var h' ∉ st.gsyms := fun hx =>
                hh' (by rw [hg1]; exact (mem_insertEnd _ _ _).mpr (Or.inl hx))
              have hcc : counterAt st1 h' i = counterAt st h' i := by
                unfold counterAt
                rw [hlook h', if_neg hne]
              rw [hcc]
              exact hinv.pos h' hold i hi
          obtain ⟨hA, hB, hC⟩ := ih st1 P hinv1 hvalrest
          refine ⟨hA, ?_, ?_⟩
          · refine le_trans hB ?_
            have hm1 : stMeasure st1 = (Sym.var h :: st.toProcess).length +
                sumRem (aupdate h (lst.set idx (c0 - 1)) st.remaining) := rfl
            have hm2 : stMeasure st = st.toProcess.length +
                sumRem st.remaining := rfl
            rw [hm1, hm2, List.length_cons]
            omega
          · intro x hx
            refine hC x ?_
            rw [hg1]
            exact (mem_insertEnd _ _ _).mpr (Or.inl hx)
        · rw [if_neg hz]
          -- plain decrement: same set, counter drops by one
          have hinv2 : PInv ps st2 P rest := by
            refine ⟨hinv.nodupG, hinv.nodupT, hinv.nodupP, hinv.disjPT,
              hinv.memG, hinv.sound, ?_, ?_, ?_⟩
            · intro h''
              rw [show st2.remaining = st1.remaining from rfl]
              exact hlenRem' h''
            · intro h' hh' i hi
              by_cases hne : h' = h
              · subst hne
                by_cases hii : i = idx
                · subst hii
                  have hcc : counterAt st2 h' i = c0 - 1 := by
                    unfold counterAt
                    rw [hlook2 h', if_pos rfl]
                    simp only [Option.getD_some]
                    rw [getD_set_eq _ _ _ _ hidxl]
                  rw [hcc]
                  have := hinv.cnt h' hh' i hi
                  rw [hcval, count_cons_self] at this
                  push_cast at this ⊢
                  omega
                · have hcc : counterAt st2 h' i = counterAt st h' i := by
                    unfold counterAt
                    rw [hlook2 h', if_pos rfl]
                    simp only [Option.getD_some]
                    rw [getD_set_ne _ _ _ _ _ hii, hlst]
                  have hpne : (h', idx) ≠ (h', i) := by
                    intro he
                    exact hii (congrArg Prod.snd he).symm
                  rw [hcc, hinv.cnt h' hh' i hi, count_cons_ne _ _ _ hpne]
              · have hcc : counterAt st2 h' i = counterAt st h' i := by
                  unfold counterAt
                  rw [hlook2 h', if_neg hne]
                have hpne : (h, idx) ≠ (h', i) := by
                  intro he
                  exact hne (congrArg Prod.fst he).symm
                rw [hcc, hinv.cnt h' hh' i hi, count_cons_ne _ _ _ hpne]
            · intro h' hh' i hi
              by_cases hne : h' = h
              · subst hne
                by_cases hii : i = idx
                · subst hii
                  have hcc : counterAt st2 h' i = c0 - 1 := by
                    unfold counterAt
                    rw [hlook2 h', if_pos rfl]
                    simp only [Option.getD_some]
                    rw [getD_set_eq _ _ _ _ hidxl]
                  rw [hcc]
                  omega
                · have hcc : counterAt st2 h' i = counterAt st h' i := by
                    unfold counterAt
                    rw [hlook2 h', if_pos rfl]
                    simp only [Option.getD_some]
                    rw [getD_set_ne _ _ _ _ _ hii, hlst]
                  rw [hcc]
                  exact hinv.pos h' hh' i hi
              · have hcc : counterAt st2 h' i = counterAt st h' i := by
                  unfold counterAt
                  rw [hlook2 h', if_neg hne]
                rw [hcc]
                exact hinv.pos h' hh' i hi
          obtain ⟨hA, hB, hC⟩ := ih st2 P hinv2 hvalrest
          refine ⟨hA, ?_, hC⟩
          refine le_trans hB ?_
          have hm1 : stMeasure st2 = st.toProcess.length +
              sumRem (aupdate h (lst.set idx (c0 - 1)) st.remaining) := rfl
          have hm2 : stMeasure st = st.toProcess.length +
              sumRem st.remaining := rfl
          rw [hm1, hm2]
          omega

theorem count_pos_of_mem (a : String × Nat) (l : List (String × Nat))
    (h : a ∈ l) : 0 < l.count a := by
  induction l with
  | nil => simp at h
  | cons b t ih =>
      rcases List.mem_cons.mp h with rfl | h2
      · rw [count_cons_self]
        omega
      · by_cases hab : b = a
        · subst hab
          rw [count_cons_self]
          omega
        · rw [count_cons_ne _ _ _ hab]
          exact ih h2

theorem genLoop_red_nil (impacts : List (Sym × List (String × Nat)))
    (fuel : Nat) (g : List Sym) (r : List (String × List Int)) :
    genLoop impacts (fuel + 1) ⟨g, [], r⟩ = ⟨g, [], r⟩ := rfl

theorem genLoop_red_cons (impacts : List (Sym × List (String × Nat)))
    (fuel : Nat) (g : List Sym) (cur : Sym) (rest : List Sym)
    (r : List (String × List Int)) :
    genLoop impacts (fuel + 1) ⟨g, cur :: rest, r⟩ =
      genLoop impacts fuel
        (processImpactEntries ((alookup cur impacts).getD [])
          ⟨g, rest, r⟩) := rfl

/-- The fuelled worklist drains completely and preserves the invariant
whenever the fuel exceeds the termination measure. -/
theorem genLoop_spec {ps : List Production}
    (impacts : List (Sym × List (String × Nat))) (hef : epsFreeProds ps)
    (hI3 : ∀ s h i, ((alookup s impacts).getD []).count (h, i) =
      if i < (nonEmptyProds h ps).length then (bodyAt ps h i).count s
      else 0) :
    ∀ (fuel : Nat) (st : GenState) (P : List Sym), PInv ps st P [] →
      stMeasure st < fuel →
      ∃ P', PInv ps (genLoop impacts fuel st) P' [] ∧
        (genLoop impacts fuel st).toProcess = [] ∧
        ∀ x ∈ st.gsyms, x ∈ (genLoop impacts fuel st).gsyms := by
  intro fuel
  induction fuel with
  | zero => intro st P hinv hm; omega
  | succ fuel ih =>
      intro st P hinv hm
      obtain ⟨g, tp, r⟩ := st
      cases tp with
      | nil =>
          rw [genLoop_red_nil]
          exact ⟨P, hinv, rfl, fun x hx => hx⟩
      | cons cur rest =>
          rw [genLoop_red_cons]
          have hcurP : cur ∉ P := fun hx => hinv.disjPT cur hx (by simp)
          have hcurNR : cur ∉ rest := (List.nodup_cons.mp hinv.nodupT).1
          have hEval : EValid ps ((alookup cur impacts).getD []) := by
            intro e he
            rcases e with ⟨h', i⟩
            have hcp := count_pos_of_mem (h', i) _ he
            rw [hI3 cur h' i] at hcp
            by_contra hni
            rw [if_neg hni] at hcp
            simp at hcp
          have hinvm : PInv ps ⟨g, rest, r⟩ (P ++ [cur])
              ((alookup cur impacts).getD []) := by
            refine ⟨hinv.nodupG, (List.nodup_cons.mp hinv.nodupT).2, ?_, ?_,
              ?_, hinv.sound, hinv.lenRem, ?_, hinv.pos⟩
            · rw [List.nodup_append]
              exact ⟨hinv.nodupP, List.nodup_singleton _, by
                intro a ha hb
                rw [List.mem_singleton] at hb
                exact hcurP (hb ▸ ha)⟩
            · intro x hx
              rcases List.mem_append.mp hx with hx2 | hx2
              · intro hr
                exact hinv.disjPT x hx2 (by simp [hr])
              · rw [List.mem_singleton] at hx2
                exact hx2 ▸ hcurNR
            · intro x
              have := hinv.memG x
              simp only [List.mem_cons] at this
              rw [this]
              simp only [List.mem_append, List.mem_singleton]
              tauto
            · intro h' hh' i hi
              have hbase : counterAt (⟨g, rest, r⟩ : GenState) h' i =
                  ((bodyAt ps h' i).length : Int) -
                  (occCount P (bodyAt ps h' i) : Int) +
                  ((([] : List (String × Nat)).count (h', i) : Nat) : Int) :=
                hinv.cnt h' hh' i hi
              have hocc := occCount_append_singleton P cur hcurP
                (bodyAt ps h' i)
              have hcc : ((alookup cur impacts).getD []).count (h', i) =
                  (bodyAt ps h' i).count cur := by
                rw [hI3 cur h' i, if_pos hi]
              rw [hcc, hocc]
              have hz : (([] : List (String × Nat)).count (h', i) : Int) = 0 := by
                simp
              rw [hz] at hbase
              push_cast at hbase ⊢
              omega
          obtain ⟨hA, hB, hC⟩ := pie_spec hef _ _ _ hinvm hEval
          have hmm : stMeasure (processImpactEntries
              ((alookup cur impacts).getD []) ⟨g, rest, r⟩) < fuel := by
            have h1 : stMeasure (⟨g, rest, r⟩ : GenState) + 1 =
                stMeasure (⟨g, cur :: rest, r⟩ : GenState) := by
              unfold stMeasure
              simp
              omega
            have h2 : stMeasure (⟨g, cur :: rest, r⟩ : GenState) < fuel + 1 := hm
            omega
          obtain ⟨P', h1, h2, h3⟩ := ih _ (P ++ [cur]) hA hmm
          exact ⟨P', h1, h2, fun x hx => h3 x (hC x hx)⟩

theorem countc_ne {α : Type} [BEq α] [LawfulBEq α] (a b : α) (l : List α)
    (h : a ≠ b) : (a :: l).count b = l.count b := by
  rw [List.count_cons]
  simp [h]

theorem countc_self {α : Type} [BEq α] [LawfulBEq α] (a : α) (l : List α) :
    (a :: l).count a = l.count a + 1 := by
  rw [List.count_cons]
  simp

theorem countc_single (a b : String × Nat) :
    ([a] : List (String × Nat)).count b = if a = b then 1 else 0 := by
  rw [List.count_cons]
  by_cases h : a = b
  · simp [h]
  · simp [h]

theorem setImpacts_eq (ps : List Production) :
    setImpacts ps = ps.foldl setImpactsF ⟨[], [], []⟩ := rfl

theorem setImpactsF_empty (acc : Impacts) (p : Production)
    (hp : p.body = []) :
    setImpactsF acc p =
      ⟨insertEnd acc.addedImpacts p.head, acc.remainingLists, acc.impacts⟩ := by
  unfold setImpactsF
  rw [if_pos hp]

theorem setImpactsF_nonempty (acc : Impacts) (p : Production)
    (hp : ¬(p.body = [])) :
    setImpactsF acc p = ⟨acc.addedImpacts,
      aupdate p.head (((alookup p.head acc.remainingLists).getD []) ++
        [(p.body.length : Int)]) acc.remainingLists,
      p.body.foldl
        (fun imps sym =>
          aupdate sym (((alookup sym imps).getD []) ++
            [(p.head, (((alookup p.head acc.remainingLists).getD []) ++
              [(p.body.length : Int)]).length - 1)]) imps)
        acc.impacts⟩ := by
  unfold setImpactsF
  rw [if_neg hp]

theorem nonEmptyProds_append_empty (h : String) (pref : List Production)
    (p : Production) (hp : p.body = []) :
    nonEmptyProds h (pref ++ [p]) = nonEmptyProds h pref := by
  unfold nonEmptyProds
  rw [List.filter_append]
  simp [hp]

theorem nonEmptyProds_append_self (pref : List Production) (p : Production)
    (hp : p.body ≠ []) :
    nonEmptyProds p.head (pref ++ [p]) = nonEmptyProds p.head pref ++ [p] := by
  unfold nonEmptyProds
  rw [List.filter_append]
  congr 1
  simp [hp]

theorem nonEmptyProds_append_ne (h : String) (pref : List Production)
    (p : Production) (hp : ¬(p.head = h)) :
    nonEmptyProds h (pref ++ [p]) = nonEmptyProds h pref := by
  unfold nonEmptyProds
  rw [List.filter_append]
  simp [hp]

theorem impacts_fold_count (hd : String) (ii : Nat) :
    ∀ (b : List Sym) (imps : List (Sym × List (String × Nat))) (s : Sym)
      (h' : String) (i' : Nat),
      ((alookup s (b.foldl (fun imps sym =>
        aupdate sym (((alookup sym imps).getD []) ++ [(hd, ii)]) imps)
        imps)).getD []).count (h', i') =
      ((alookup s imps).getD []).count (h', i') +
        (if (hd, ii) = (h', i') then b.count s else 0) := by
  intro b
  induction b with
  | nil =>
      intro imps s h' i'
      simp
  | cons s0 t ih =>
      intro imps s h' i'
      rw [List.foldl_cons, ih]
      rw [alookup_aupdate]
      by_cases hs : s = s0
      · rw [if_pos hs]
        subst hs
        simp only [Option.getD_some]
        rw [List.count_append, countc_single, countc_self]
        by_cases hp : (hd, ii) = (h', i')
        · rw [if_pos hp, if_pos hp, if_pos hp]
          omega
        · rw [if_neg hp, if_neg hp, if_neg hp]
      · rw [if_neg hs, countc_ne _ _ _ (fun he => hs he.symm)]

theorem setImpacts_step_empty (pref : List Production) (acc : Impacts)
    (p : Production) (hacc : ImpSpec pref acc) (hp : p.body = []) :
    ImpSpec (pref ++ [p]) (setImpactsF acc p) := by
  rw [setImpactsF_empty acc p hp]
  have hprod : ∀ h : String, (Production.mk h [] = p) ↔ h = p.head := by
    intro h
    cases p with
    | mk ph pb =>
        simp only at hp
        subst hp
        simp [Production.mk.injEq]
  refine ⟨?_, ?_, ?_⟩
  · intro h
    rw [mem_insertEnd, hacc.1 h, List.mem_append, List.mem_singleton, hprod h]
  · intro h
    rw [nonEmptyProds_append_empty h pref p hp]
    exact hacc.2.1 h
  · intro s h i
    have hb : bodyAt (pref ++ [p]) h i = bodyAt pref h i := by
      unfold bodyAt
      rw [nonEmptyProds_append_empty h pref p hp]
    rw [nonEmptyProds_append_empty h pref p hp, hb]
    exact hacc.2.2 s h i

theorem setImpacts_step_nonempty (pref : List Production) (acc : Impacts)
    (p : Production) (hacc : ImpSpec pref acc) (hp : ¬(p.body = [])) :
    ImpSpec (pref ++ [p]) (setImpactsF acc p) := by
  rw [setImpactsF_nonempty acc p hp]
  have hrem := hacc.2.1 p.head
  have hii : (((alookup p.head acc.remainingLists).getD []) ++
      [(p.body.length : Int)]).length - 1 =
      (nonEmptyProds p.head pref).length := by
    rw [hrem]
    simp
  have hprodne : ∀ h : String, ¬(Production.mk h [] = p) := by
    intro h he
    exact hp (congrArg Production.body he).symm
  refine ⟨?_, ?_, ?_⟩
  · intro h
    rw [hacc.1 h, List.mem_append, List.mem_singleton]
    constructor
    · exact Or.inl
    · rintro (h1 | h2)
      · exact h1
      · exact absurd h2 (hprodne h)
  · intro h
    rw [alookup_aupdate]
    by_cases hh : h = p.head
    · rw [if_pos hh, hh]
      simp only [Option.getD_some]
      rw [nonEmptyProds_append_self pref p hp, List.map_append, hrem]
      rfl
    · rw [if_neg hh, nonEmptyProds_append_ne h pref p (fun he => hh he.symm)]
      exact hacc.2.1 h
  · intro s h i
    rw [impacts_fold_count, hacc.2.2 s h i, hii]
    by_cases hh : h = p.head
    · subst hh
      rw [nonEmptyProds_append_self pref p hp]
      rcases Nat.lt_trichotomy i (nonEmptyProds p.head pref).length
        with hlt | heq | hgt
      · have hpne : ¬((p.head, (nonEmptyProds p.head pref).length) =
            (p.head, i)) := by
          intro he
          have : (nonEmptyProds p.head pref).length = i :=
            congrArg Prod.snd he
          omega
        rw [if_neg hpne, if_pos hlt,
          if_pos (by rw [List.length_append]; simp; omega)]
        have hb : bodyAt (pref ++ [p]) p.head i = bodyAt pref p.head i := by
          unfold bodyAt
          rw [nonEmptyProds_append_self pref p hp,
            getD_append_left _ _ _ _ hlt]
        rw [hb]
        omega
      · subst heq
        rw [if_pos rfl, if_neg (by omega),
          if_pos (by rw [List.length_append]; simp)]
        have hb : bodyAt (pref ++ [p]) p.head
            (nonEmptyProds p.head pref).length = p.body := by
          unfold bodyAt
          rw [nonEmptyProds_append_self pref p hp, getD_append_length]
        rw [hb]
        omega
      · have hpne : ¬((p.head, (nonEmptyProds p.head pref).length) =
            (p.head, i)) := by
          intro he
          have : (nonEmptyProds p.head pref).length = i :=
            congrArg Prod.snd he
          omega
        rw [if_neg hpne, if_neg (by omega),
          if_neg (by rw [List.length_append]; simp; omega)]
    · have hpne : ¬((p.head, (nonEmptyProds p.head pref).length) = (h, i)) := by
        intro he
        have : p.head = h := congrArg Prod.fst he
        exact hh this.symm
      rw [if_neg hpne, nonEmptyProds_append_ne h pref p (fun he => hh he.symm)]
      have hb : bodyAt (pref ++ [p]) h i = bodyAt pref h i := by
        unfold bodyAt
        rw [nonEmptyProds_append_ne h pref p (fun he => hh he.symm)]
      rw [hb]
      omega

theorem setImpacts_fold :
    ∀ (l pref : List Production) (acc : Impacts), ImpSpec pref acc →
      ImpSpec (pref ++ l) (l.foldl setImpactsF acc) := by
  intro l
  induction l with
  | nil =>
      intro pref acc hacc
      simpa using hacc
  | cons p t ih =>
      intro pref acc hacc
      rw [List.foldl_cons]
      have hstep : ImpSpec (pref ++ [p]) (setImpactsF acc p) := by
        by_cases hp : p.body = []
        · exact setImpacts_step_empty pref acc p hacc hp
        · exact setImpacts_step_nonempty pref acc p hacc hp
      have := ih (pref ++ [p]) (setImpactsF acc p) hstep
      simpa [List.append_assoc] using this

/-- `_set_impacts_and_remaining_lists` satisfies its intended
characterization. -/
theorem setImpacts_spec (ps : List Production) : ImpSpec ps (setImpacts ps) := by
  have h0 : ImpSpec [] ⟨[], [], []⟩ := by
    refine ⟨?_, ?_, ?_⟩
    · intro h
      simp [alookup]
    · intro h
      simp [alookup, nonEmptyProds]
    · intro s h i
      simp [alookup, nonEmptyProds]
  have := setImpacts_fold ps [] ⟨[], [], []⟩ h0
  rw [setImpacts_eq]
  simpa using this

theorem getD_eq_getD {α : Type} (d1 d2 : α) (l : List α) (i : Nat)
    (h : i < l.length) : l.getD i d1 = l.getD i d2 := by
  rw [List.getD_eq_getElem _ _ h, List.getD_eq_getElem _ _ h]

theorem seedF_inv {ps : List Production} {R : List (String × List Int)}
    (st : GenState) (h : String) (hst : SeedInv ps R st)
    (hmem : Production.mk h [] ∈ ps) :
    SeedInv ps R (seedF st h) ∧ (∀ x ∈ st.gsyms, x ∈ (seedF st h).gsyms) ∧
      Sym.var h ∈ (seedF st h).gsyms := by
  unfold seedF
  by_cases hg : Sym.var h ∈ st.gsyms
  · rw [if_pos hg]
    exact ⟨hst, fun x hx => hx, hg⟩
  · rw [if_neg hg]
    obtain ⟨h1, h2, h3, h4, h5⟩ := hst
    have hnt : Sym.var h ∉ st.toProcess := fun hx => hg ((h3 _).mpr hx)
    have hnull : NullC ps h :=
      NullC.mk h [] hmem (by intro s hs; simp at hs)
        (by intro B hB; simp at hB)
    refine ⟨⟨insertEnd_nodup _ _ h1, List.nodup_cons.mpr ⟨hnt, h2⟩,
      ?_, ?_, h5⟩, ?_, ?_⟩
    · intro x
      show x ∈ insertEnd st.gsyms (Sym.var h) ↔ x ∈ Sym.var h :: st.toProcess
      rw [mem_insertEnd, h3 x, List.mem_cons]
      tauto
    · intro x hx
      rcases (mem_insertEnd _ _ _).mp hx with hx2 | rfl
      · exact h4 x hx2
      · exact Or.inr ⟨h, rfl, hnull⟩
    · intro x hx
      exact (mem_insertEnd _ _ _).mpr (Or.inl hx)
    · exact (mem_insertEnd _ _ _).mpr (Or.inr rfl)

theorem seed_fold_spec {ps : List Production} {R : List (String × List Int)} :
    ∀ (l : List String) (st : GenState), SeedInv ps R st →
      (∀ h ∈ l, Production.mk h [] ∈ ps) →
      SeedInv ps R (l.foldl seedF st) ∧
      (∀ x ∈ st.gsyms, x ∈ (l.foldl seedF st).gsyms) ∧
      (∀ h ∈ l, Sym.var h ∈ (l.foldl seedF st).gsyms) := by
  intro l
  induction l with
  | nil =>
      intro st hst _
      exact ⟨hst, fun x hx => hx, by simp⟩
  | cons h t ih =>
      intro st hst hl
      rw [List.foldl_cons]
      have hm : Production.mk h [] ∈ ps := hl h (by simp)
      obtain ⟨hs1, hs2, hs3⟩ := seedF_inv st h hst hm
      obtain ⟨hA, hB, hC⟩ := ih (seedF st h) hs1
        (fun h' hh' => hl h' (by simp [hh']))
      refine ⟨hA, fun x hx => hB x (hs2 x hx), ?_⟩
      intro h' hh'
      rcases List.mem_cons.mp hh' with rfl | hh2
      · exact hB _ hs3
      · exact hC h' hh2

/-- The nullable worklist computes exactly the nullable closure: every
returned symbol is a variable of the closure, and every closure variable
is returned. -/
theorem getNullable_spec (g : CFG) (hef : epsFreeProds g.productions) :
    (∀ x ∈ getNullableSymbols g, ∃ B, x = Sym.var B ∧
      NullC g.productions B) ∧
    (∀ B, NullC g.productions B → Sym.var B ∈ getNullableSymbols g) := by
  obtain ⟨hS1, hS2, hS3⟩ := setImpacts_spec g.productions
  set im := setImpacts g.productions with him
  set stI : GenState := ⟨[Sym.eps], [Sym.eps], im.remainingLists⟩ with hstI
  set st0 := im.addedImpacts.foldl seedF stI with hst0
  have hseedI : SeedInv g.productions im.remainingLists stI := by
    refine ⟨by simp, by simp, fun x => Iff.rfl, ?_, rfl⟩
    intro x hx
    left
    simpa using hx
  obtain ⟨hsd, hsdMono, hsdMem⟩ := seed_fold_spec im.addedImpacts stI hseedI
    (fun h hh => (hS1 h).mp hh)
  rw [← hst0] at hsd hsdMono hsdMem
  obtain ⟨hn1, hn2, hn3, hn4, hn5⟩ := hsd
  have hinv0 : PInv g.productions st0 [] [] := by
    refine ⟨hn1, hn2, List.nodup_nil, by simp, ?_, hn4, ?_, ?_, ?_⟩
    · intro x
      rw [hn3 x]
      simp
    · intro h
      rw [hn5, hS2 h]
      simp
    · intro h _ i hi
      have hcc : counterAt st0 h i =
          ((bodyAt g.productions h i).length : Int) := by
        unfold counterAt bodyAt
        rw [hn5, hS2 h]
        rw [getD_map_length _ i hi]
        rw [getD_eq_getD (⟨"", []⟩ : Production) (⟨h, []⟩ : Production) _ i hi]
      rw [hcc]
      simp [occCount_nil]
    · intro h _ i hi
      have hcc : counterAt st0 h i =
          ((bodyAt g.productions h i).length : Int) := by
        unfold counterAt bodyAt
        rw [hn5, hS2 h]
        rw [getD_map_length _ i hi]
        rw [getD_eq_getD (⟨"", []⟩ : Production) (⟨h, []⟩ : Production) _ i hi]
      rw [hcc]
      have := (bodyAt_mem hi).2
      have hlp : 0 < (bodyAt g.productions h i).length :=
        List.length_pos.mpr this
      omega
  have hfuel : stMeasure st0 < genFuel st0 := by
    unfold genFuel
    omega
  obtain ⟨Pf, hPf, hTf, hMono⟩ := genLoop_spec im.impacts hef hS3
    (genFuel st0) st0 [] hinv0 hfuel
  set stf := genLoop im.impacts (genFuel st0) st0 with hstf
  have hunf : getNullableSymbols g = stf.gsyms.erase Sym.eps := rfl
  constructor
  · intro x hx
    rw [hunf] at hx
    have hx2 := (hPf.nodupG.mem_erase_iff).mp hx
    rcases hPf.sound x hx2.2 with rfl | hvar
    · exact absurd rfl hx2.1
    · exact hvar
  · intro B hB
    have hmain : Sym.var B ∈ stf.gsyms := by
      induction hB with
      | mk A body hpmem hvars hrec ih =>
          by_cases hbody : body = []
          · subst hbody
            have hadd : A ∈ im.addedImpacts := (hS1 A).mpr hpmem
            exact hMono _ (hsdMem A hadd)
          · by_contra hA
            have hq : Production.mk A body ∈ nonEmptyProds A g.productions := by
              refine List.mem_filter.mpr ⟨hpmem, ?_⟩
              simp [hbody]
            obtain ⟨⟨i, hi⟩, hgi⟩ := List.mem_iff_get.mp hq
            have hbAt : bodyAt g.productions A i = body := by
              unfold bodyAt
              rw [List.getD_eq_getElem _ _ hi]
              rw [List.get_eq_getElem] at hgi
              rw [hgi]
            have hcnt := hPf.cnt A hA i hi
            have hpos := hPf.pos A hA i hi
            have hallP : ∀ s ∈ body, s ∈ Pf := by
              intro s hs
              obtain ⟨B', hB'⟩ := hvars s hs
              subst hB'
              have hg' : Sym.var B' ∈ stf.gsyms := ih B' hs
              rcases (hPf.memG _).mp hg' with hP | hT
              · exact hP
              · rw [hTf] at hT
                simp at hT
            have hocc : occCount Pf (bodyAt g.productions A i) =
                (bodyAt g.productions A i).length := by
              rw [hbAt]
              exact (occCount_eq_length_iff Pf body).mpr hallP
            rw [hocc] at hcnt
            simp at hcnt
            omega
    rw [hunf, hPf.nodupG.mem_erase_iff]
    exact ⟨by simp, hmain⟩

/-- C6: `remove_epsilon` preserves the language exactly, minus the empty
word — for every CFG whose production bodies are free of literal `Epsilon`
instances (the invariant the filtering `Production` constructor enforces),
a word is in the language of `G.remove_epsilon()` if and only if it is a
non-empty word of the language of `G`; in particular the result grammar
has no empty-body production. -/
theorem c6_remove_epsilon_language (g : CFG)
    (hef : ∀ p ∈ g.productions, Sym.eps ∉ p.body) (w : List String) :
    Lang (removeEpsilon g) w ↔ w ≠ [] ∧ Lang g w := by
  obtain ⟨hs, hc⟩ := getNullable_spec g hef
  constructor
  · rintro ⟨s, hst, n, hdn⟩
    rw [removeEpsilon_start] at hst
    have hlen := derivN_length_mono (removeEpsilon_no_empty_body g hef) hdn
    refine ⟨?_, s, hst, removeEpsilon_derivN_sound hef hs hdn⟩
    intro hw
    rw [hw] at hlen
    simp at hlen
  · rintro ⟨hw, s, hst, n, hdn⟩
    refine ⟨s, ?_, ?_⟩
    · rw [removeEpsilon_start]
      exact hst
    · exact removeEpsilon_derivN_complete hef hc n s (w.map Sym.ter) hdn
        (by simpa using hw)

/-- Witness for C6 at the spec's example grammar and the word "ab". -/
theorem c6_witness :
    (∀ p ∈ cfgABS.productions, Sym.eps ∉ p.body) ∧
    (Lang (removeEpsilon cfgABS) ["a", "b"] ↔
      ["a", "b"] ≠ ([] : List String) ∧ Lang cfgABS ["a", "b"]) :=
  ⟨by decide, c6_remove_epsilon_language cfgABS (by decide) ["a", "b"]⟩

/-! ### Normal-form shape: supporting lemmas -/

theorem mkProduction_no_eps (h : String) (b : List Sym) :
    Sym.eps ∉ (mkProduction h b).body := by
  unfold mkProduction
  intro hx
  have := List.mem_filter.mp hx
  simp at this

theorem dedupL_nodup [DecidableEq α] (l : List α) : (dedupL l).Nodup := by
  unfold dedupL
  have : ∀ (l acc : List α), acc.Nodup → (l.foldl insertEnd acc).Nodup := by
    intro l
    induction l with
    | nil => intro acc h; exact h
    | cons a t ih => intro acc h; exact ih _ (insertEnd_nodup _ _ h)
  exact this l [] List.nodup_nil

theorem cfgRegister_mono1 (vt : List String × List String) (s : Sym)
    (x : String) (hx : x ∈ vt.1) : x ∈ (cfgRegister vt s).1 := by
  unfold cfgRegister
  match s with
  | Sym.var v => exact (mem_insertEnd _ _ _).mpr (Or.inl hx)
  | Sym.ter t => exact hx
  | Sym.eps => exact hx

theorem cfgRegister_mono2 (vt : List String × List String) (s : Sym)
    (x : String) (hx : x ∈ vt.2) : x ∈ (cfgRegister vt s).2 := by
  unfold cfgRegister
  match s with
  | Sym.var v => exact hx
  | Sym.ter t => exact (mem_insertEnd _ _ _).mpr (Or.inl hx)
  | Sym.eps => exact (mem_insertEnd _ _ _).mpr (Or.inl hx)

theorem cfgRegister_nodup1 (vt : List String × List String) (s : Sym)
    (h : vt.1.Nodup) : (cfgRegister vt s).1.Nodup := by
  unfold cfgRegister
  match s with
  | Sym.var v => exact insertEnd_nodup _ _ h
  | Sym.ter t => exact h
  | Sym.eps => exact h

theorem cfgInit_mono1 (vt : List String × List String) (p : Production)
    (x : String) (hx : x ∈ vt.1) : x ∈ (cfgInit vt p).1 := by
  unfold cfgInit
  exact foldl_preserve (fun vt => x ∈ vt.1) cfgRegister
    (fun vt s h => cfgRegister_mono1 vt s x h) p.body
    (insertEnd vt.1 p.head, vt.2)
    ((mem_insertEnd _ _ _).mpr (Or.inl hx))

theorem cfgInit_mono2 (vt : List String × List String) (p : Production)
    (x : String) (hx : x ∈ vt.2) : x ∈ (cfgInit vt p).2 := by
  unfold cfgInit
  exact foldl_preserve (fun vt => x ∈ vt.2) cfgRegister
    (fun vt s h => cfgRegister_mono2 vt s x h) p.body
    (insertEnd vt.1 p.head, vt.2) hx

theorem cfgInit_nodup1 (vt : List String × List String) (p : Production)
    (h : vt.1.Nodup) : (cfgInit vt p).1.Nodup := by
  unfold cfgInit
  exact foldl_preserve (fun vt => vt.1.Nodup) cfgRegister
    (fun vt s hh => cfgRegister_nodup1 vt s hh) p.body
    (insertEnd vt.1 p.head, vt.2)
    (insertEnd_nodup _ _ h)

theorem cfgInit_head (vt : List String × List String) (p : Production) :
    p.head ∈ (cfgInit vt p).1 := by
  unfold cfgInit
  exact foldl_preserve (fun vt => p.head ∈ vt.1) cfgRegister
    (fun vt s h => cfgRegister_mono1 vt s _ h) p.body
    (insertEnd vt.1 p.head, vt.2)
    ((mem_insertEnd _ _ _).mpr (Or.inr rfl))

theorem cfgRegister_ter (vt : List String × List String) (t : String) :
    t ∈ (cfgRegister vt (Sym.ter t)).2 := by
  unfold cfgRegister
  exact (mem_insertEnd _ _ _).mpr (Or.inr rfl)

theorem body_fold_ter :
    ∀ (b : List Sym) (vt : List String × List String) (t : String),
      Sym.ter t ∈ b → t ∈ (b.foldl cfgRegister vt).2 := by
  intro b
  induction b with
  | nil => intro vt t h; simp at h
  | cons s rest ih =>
      intro vt t h
      rw [List.foldl_cons]
      rcases List.mem_cons.mp h with rfl | h2
      · exact foldl_preserve (fun vt => t ∈ vt.2) cfgRegister
          (fun vt s h => cfgRegister_mono2 vt s _ h) rest _
          (cfgRegister_ter vt t)
      · exact ih _ t h2

theorem cfgInit_ter (vt : List String × List String) (p : Production)
    (t : String) (ht : Sym.ter t ∈ p.body) : t ∈ (cfgInit vt p).2 := by
  unfold cfgInit
  exact body_fold_ter p.body _ t ht

theorem mkCFG_vars_nodup (vs ts : List String) (st : Option String)
    (ps : List Production) : (mkCFG vs ts st ps).vars.Nodup := by
  unfold mkCFG
  refine foldl_preserve (fun vt => vt.1.Nodup) cfgInit
    (fun vt p h => cfgInit_nodup1 vt p h) _ _ ?_
  match st with
  | some s => exact insertEnd_nodup _ _ (dedupL_nodup vs)
  | none => exact dedupL_nodup vs

theorem mkCFG_heads (vs ts : List String) (st : Option String)
    (ps : List Production) :
    ∀ p ∈ (mkCFG vs ts st ps).productions,
      p.head ∈ (mkCFG vs ts st ps).vars := by
  have hgen : ∀ (l : List Production) (vt : List String × List String),
      ∀ p ∈ l, p.head ∈ (l.foldl cfgInit vt).1 := by
    intro l
    induction l with
    | nil => intro vt p h; simp at h
    | cons q rest ih =>
        intro vt p h
        rw [List.foldl_cons]
        rcases List.mem_cons.mp h with rfl | h2
        · exact foldl_preserve (fun vt => p.head ∈ vt.1) cfgInit
            (fun vt q h => cfgInit_mono1 vt q _ h) rest _ (cfgInit_head vt p)
        · exact ih _ p h2
  intro p hp
  exact hgen (dedupL ps) _ p hp

theorem mkCFG_ters (vs ts : List String) (st : Option String)
    (ps : List Production) :
    ∀ p ∈ (mkCFG vs ts st ps).productions, ∀ t, Sym.ter t ∈ p.body →
      t ∈ (mkCFG vs ts st ps).terms := by
  have hgen : ∀ (l : List Production) (vt : List String × List String),
      ∀ p ∈ l, ∀ t, Sym.ter t ∈ p.body →
        t ∈ (l.foldl cfgInit vt).2 := by
    intro l
    induction l with
    | nil => intro vt p h; simp at h
    | cons q rest ih =>
        intro vt p h t ht
        rw [List.foldl_cons]
        rcases List.mem_cons.mp h with rfl | h2
        · exact foldl_preserve (fun vt => t ∈ vt.2) cfgInit
            (fun vt q h => cfgInit_mono2 vt q _ h) rest _ (cfgInit_ter vt p t ht)
        · exact ih _ p h2 t ht
  intro p hp
  exact hgen (dedupL ps) _ p hp

theorem getProductionsD_spec (ps : List Production) :
    ∀ h, (alookup h (getProductionsD ps)).getD [] =
      ps.filter fun p => p.head == h := by
  have hgen : ∀ (l pref : List Production)
      (d : List (String × List Production)),
      (∀ h, (alookup h d).getD [] = pref.filter fun p => p.head == h) →
      ∀ h, (alookup h (l.foldl (fun d p =>
        aupdate p.head ((alookup p.head d).getD [] ++ [p]) d) d)).getD [] =
        (pref ++ l).filter fun p => p.head == h := by
    intro l
    induction l with
    | nil =>
        intro pref d hd h
        simpa using hd h
    | cons p t ih =>
        intro pref d hd h
        rw [List.foldl_cons]
        have hstep : ∀ h', (alookup h'
            (aupdate p.head ((alookup p.head d).getD [] ++ [p]) d)).getD [] =
            (pref ++ [p]).filter fun q => q.head == h' := by
          intro h'
          rw [alookup_aupdate]
          by_cases hh : h' = p.head
          · rw [if_pos hh, hh]
            simp only [Option.getD_some]
            rw [hd p.head, List.filter_append]
            simp
          · rw [if_neg hh, List.filter_append]
            have : (List.filter (fun q => q.head == h') [p]) = [] := by
              simp
              intro he
              exact hh he.symm
            rw [this, List.append_nil]
            exact hd h'
        have := ih (pref ++ [p]) _ hstep h
        rw [this, List.append_assoc]
        rfl
  intro h
  have h0 : ∀ h', ((alookup h' ([] : List (String × List Production))).getD []
      : List Production) = [].filter fun p => p.head == h' := by
    intro h'
    simp [alookup]
  exact hgen ps [] [] h0 h

theorem removeUseless_sub (g : CFG) :
    ∀ q ∈ (removeUselessSymbols g).productions, q ∈ g.productions := by
  intro q hq
  unfold removeUselessSymbols at hq
  rw [mkCFG_productions, mem_dedupL] at hq
  have h1 := List.mem_filter.mp hq
  have h2 := List.mem_filter.mp h1.1
  exact h2.1

theorem elimUnit_sub (g : CFG) :
    ∀ q ∈ (eliminateUnitProductions g).productions,
      q ∈ g.productions ∨ ∃ (a : String) (p : Production), p ∈ g.productions ∧
        q = Production.mk a p.body := by
  intro q hq
  unfold eliminateUnitProductions at hq
  rw [mkCFG_productions, mem_dedupL] at hq
  -- characterize the double fold
  have hfold : ∀ (l : List (String × String))
      (acc : List Production),
      q ∈ l.foldl (fun acc ab =>
        ((alookup ab.2 (getProductionsD (g.productions.filter fun p =>
          match p.body with
          | [Sym.var _] => false
          | _ => true))).getD []).foldl
          (fun acc p => acc ++ [Production.mk ab.1 p.body]) acc) acc →
      q ∈ acc ∨ ∃ (a : String) (p : Production), p ∈ g.productions ∧
        q = Production.mk a p.body := by
    intro l
    induction l with
    | nil => intro acc h; exact Or.inl h
    | cons ab t ih =>
        intro acc h
        rw [List.foldl_cons] at h
        rcases ih _ h with hin | hex
        · -- membership in the inner fold over acc
          have hinner : ∀ (L : List Production) (acc' : List Production),
              q ∈ L.foldl (fun acc p => acc ++ [Production.mk ab.1 p.body])
                acc' →
              q ∈ acc' ∨ ∃ p ∈ L, q = Production.mk ab.1 p.body := by
            intro L
            induction L with
            | nil => intro acc' h; exact Or.inl h
            | cons p t2 ih2 =>
                intro acc' h
                rw [List.foldl_cons] at h
                rcases ih2 _ h with h2 | h2
                · rcases List.mem_append.mp h2 with h3 | h3
                  · exact Or.inl h3
                  · rw [List.mem_singleton] at h3
                    exact Or.inr ⟨p, by simp, h3⟩
                · obtain ⟨p', hp', he⟩ := h2
                  exact Or.inr ⟨p', by simp [hp'], he⟩
          rcases hinner _ _ hin with h2 | h2
          · exact Or.inl h2
          · obtain ⟨p, hp, he⟩ := h2
            rw [getProductionsD_spec] at hp
            have := (List.mem_filter.mp hp).1
            have hpg := (List.mem_filter.mp this).1
            exact Or.inr ⟨ab.1, p, hpg, he⟩
        · exact Or.inr hex
  rcases hfold _ _ hq with hin | hex
  · exact Or.inl ((List.mem_filter.mp hin).1)
  · exact Or.inr hex

theorem upStep_eq (a : String) (pairs rest : List (String × String))
    (p : Production) :
    (∃ c, p.body = [Sym.var c] ∧
      upStep a (pairs, rest) p =
        if (a, c) ∈ pairs then (pairs, rest)
        else (insertEnd pairs (a, c), (a, c) :: rest)) ∨
    (upStep a (pairs, rest) p = (pairs, rest) ∧
      ∀ c, p.body ≠ [Sym.var c]) := by
  unfold upStep
  match hb : p.body with
  | [Sym.var c] => exact Or.inl ⟨c, rfl, rfl⟩
  | [] => exact Or.inr ⟨rfl, by simp⟩
  | [Sym.ter t] => exact Or.inr ⟨rfl, by simp⟩
  | [Sym.eps] => exact Or.inr ⟨rfl, by simp⟩
  | Sym.var v :: s2 :: r => exact Or.inr ⟨rfl, by simp⟩
  | Sym.ter t :: s2 :: r => exact Or.inr ⟨rfl, by simp⟩
  | Sym.eps :: s2 :: r => exact Or.inr ⟨rfl, by simp⟩

theorem upStep_fold_spec (a : String) :
    ∀ (L : List Production) (pairs rest : List (String × String)),
      pairs.Nodup →
      (L.foldl (upStep a) (pairs, rest)).1.Nodup ∧
      (∀ e ∈ pairs, e ∈ (L.foldl (upStep a) (pairs, rest)).1) ∧
      (∀ e ∈ (L.foldl (upStep a) (pairs, rest)).1,
        e ∈ pairs ∨ e ∈ (L.foldl (upStep a) (pairs, rest)).2) ∧
      (∀ e ∈ (L.foldl (upStep a) (pairs, rest)).2,
        e ∈ rest ∨ e ∈ (L.foldl (upStep a) (pairs, rest)).1) ∧
      ((L.foldl (upStep a) (pairs, rest)).1.length + rest.length =
        pairs.length + (L.foldl (upStep a) (pairs, rest)).2.length) ∧
      (∀ p ∈ L, ∀ c, p.body = [Sym.var c] →
        (a, c) ∈ (L.foldl (upStep a) (pairs, rest)).1) ∧
      (∀ e ∈ rest, e ∈ (L.foldl (upStep a) (pairs, rest)).2) ∧
      (∀ e ∈ (L.foldl (upStep a) (pairs, rest)).1, e ∈ pairs ∨
        ∃ p ∈ L, ∃ c, p.body = [Sym.var c] ∧ e = (a, c)) := by
  intro L
  induction L with
  | nil =>
      intro pairs rest hnd
      exact ⟨hnd, fun e he => he, fun e he => Or.inl he,
        fun e he => Or.inl he, rfl, by simp, fun e he => he,
        fun e he => Or.inl he⟩
  | cons p t ih =>
      intro pairs rest hnd
      rw [List.foldl_cons]
      rcases upStep_eq a pairs rest p with ⟨c, hbc, heq⟩ | ⟨heq, hnc⟩
      · rw [heq]
        by_cases hm : (a, c) ∈ pairs
        · rw [if_pos hm]
          obtain ⟨i1, i2, i3, i4, i5, i6, i7, i8⟩ := ih pairs rest hnd
          refine ⟨i1, i2, i3, i4, i5, ?_, i7, ?_⟩
          · intro q hq c' hq'
            rcases List.mem_cons.mp hq with rfl | hq2
            · rw [hbc] at hq'
              have hcc : c = c' := by simpa using hq'
              rw [← hcc]
              exact i2 _ hm
            · exact i6 q hq2 c' hq'
          · intro e he
            rcases i8 e he with h | h
            · exact Or.inl h
            · obtain ⟨p', hp', hc⟩ := h
              exact Or.inr ⟨p', by simp [hp'], hc⟩
        · rw [if_neg hm]
          have hnd2 : (insertEnd pairs (a, c)).Nodup := insertEnd_nodup _ _ hnd
          obtain ⟨i1, i2, i3, i4, i5, i6, i7, i8⟩ :=
            ih (insertEnd pairs (a, c)) ((a, c) :: rest) hnd2
          have hmemins : ∀ e ∈ pairs, e ∈ insertEnd pairs (a, c) :=
            fun e he => (mem_insertEnd _ _ _).mpr (Or.inl he)
          have hac : (a, c) ∈ insertEnd pairs (a, c) :=
            (mem_insertEnd _ _ _).mpr (Or.inr rfl)
          refine ⟨i1, ?_, ?_, ?_, ?_, ?_, ?_, ?_⟩
          · exact fun e he => i2 e (hmemins e he)
          · intro e he
            rcases i3 e he with h2 | h2
            · rcases (mem_insertEnd _ _ _).mp h2 with h3 | h3
              · exact Or.inl h3
              · exact Or.inr (i7 _ (by simp [h3]))
            · exact Or.inr h2
          · intro e he
            rcases i4 e he with h2 | h2
            · rcases List.mem_cons.mp h2 with rfl | h3
              · exact Or.inr (i2 _ hac)
              · exact Or.inl h3
            · exact Or.inr h2
          · have hlen1 : (insertEnd pairs (a, c)).length = pairs.length + 1 := by
              unfold insertEnd
              rw [if_neg hm]
              simp
            have h5 := i5
            rw [hlen1] at h5
            simp only [List.length_cons] at h5 ⊢
            omega
          · intro q hq c' hq'
            rcases List.mem_cons.mp hq with rfl | hq2
            · rw [hbc] at hq'
              have hcc : c = c' := by simpa using hq'
              rw [← hcc]
              exact i2 _ hac
            · exact i6 q hq2 c' hq'
          · exact fun e he => i7 e (by simp [he])
          · intro e he
            rcases i8 e he with h2 | h2
            · rcases (mem_insertEnd _ _ _).mp h2 with h3 | h3
              · exact Or.inl h3
              · exact Or.inr ⟨p, by simp, c, hbc, h3⟩
            · obtain ⟨p', hp', hc⟩ := h2
              exact Or.inr ⟨p', by simp [hp'], hc⟩
      · rw [heq]
        obtain ⟨i1, i2, i3, i4, i5, i6, i7, i8⟩ := ih pairs rest hnd
        refine ⟨i1, i2, i3, i4, i5, ?_, i7, ?_⟩
        · intro q hq c' hq'
          rcases List.mem_cons.mp hq with rfl | hq2
          · exact absurd hq' (hnc c')
          · exact i6 q hq2 c' hq'
        · intro e he
          rcases i8 e he with h | h
          · exact Or.inl h
          · obtain ⟨p', hp', hc⟩ := h
            exact Or.inr ⟨p', by simp [hp'], hc⟩

theorem pairs_length_le (vars S : List String)
    (pairs : List (String × String)) (hnd : pairs.Nodup)
    (hm : ∀ e ∈ pairs, e.1 ∈ vars ∧ (e.2 ∈ vars ∨ e.2 ∈ S)) :
    pairs.length ≤ vars.length * (vars.length + S.length) := by
  have h1 : pairs.toFinset.card = pairs.length :=
    List.toFinset_card_of_nodup hnd
  have hsub : pairs.toFinset ⊆
      vars.toFinset ×ˢ (vars.toFinset ∪ S.toFinset) := by
    intro e he
    rw [List.mem_toFinset] at he
    obtain ⟨h1e, h2e⟩ := hm e he
    rw [Finset.mem_product]
    refine ⟨List.mem_toFinset.mpr h1e, ?_⟩
    rw [Finset.mem_union]
    rcases h2e with h | h
    · exact Or.inl (List.mem_toFinset.mpr h)
    · exact Or.inr (List.mem_toFinset.mpr h)
  have h2 := Finset.card_le_card hsub
  rw [Finset.card_product] at h2
  have h3 : (vars.toFinset ∪ S.toFinset).card ≤ vars.length + S.length :=
    le_trans (Finset.card_union_le _ _)
      (Nat.add_le_add (List.toFinset_card_le _) (List.toFinset_card_le _))
  have h4 : vars.toFinset.card ≤ vars.length := List.toFinset_card_le _
  calc pairs.length = pairs.toFinset.card := h1.symm
    _ ≤ vars.toFinset.card * (vars.toFinset ∪ S.toFinset).card := h2
    _ ≤ vars.length * (vars.length + S.length) := Nat.mul_le_mul h4 h3

theorem upLoop_red_nil (pd : List (String × List Production)) (fuel : Nat)
    (pairs : List (String × String)) :
    upLoop pd (fuel + 1) pairs [] = pairs := rfl

theorem upLoop_red_cons (pd : List (String × List Production)) (fuel : Nat)
    (pairs : List (String × String)) (a b : String)
    (rest : List (String × String)) :
    upLoop pd (fuel + 1) pairs ((a, b) :: rest) =
      upLoop pd fuel
        (((alookup b pd).getD []).foldl (upStep a) (pairs, rest)).1
        (((alookup b pd).getD []).foldl (upStep a) (pairs, rest)).2 := rfl

/-- The unit-pair worklist drains within its fuel and returns a
saturated, duplicate-free pair set containing everything it started
from. -/
theorem upLoop_spec (vars : List String) (ps : List Production)
    (pd : List (String × List Production))
    (hpd : ∀ h, (alookup h pd).getD [] = ps.filter fun p => p.head == h) :
    ∀ (fuel : Nat) (pairs stack : List (String × String)),
      UPInv vars ps pd pairs stack →
      vars.length * (vars.length + ps.length) + stack.length <
        fuel + pairs.length →
      UPInv vars ps pd (upLoop pd fuel pairs stack) [] ∧
      ∀ e ∈ pairs, e ∈ upLoop pd fuel pairs stack := by
  intro fuel
  induction fuel with
  | zero =>
      intro pairs stack hinv hm
      obtain ⟨hnd, _, hmem, _, _⟩ := hinv
      have hb1 : pairs.length ≤
          vars.length * (vars.length + (unitSeconds ps).length) :=
        pairs_length_le vars (unitSeconds ps) pairs hnd hmem
      have hb2 : (unitSeconds ps).length ≤ ps.length :=
        List.length_filterMap_le _ _
      have hb3 : vars.length * (vars.length + (unitSeconds ps).length) ≤
          vars.length * (vars.length + ps.length) :=
        Nat.mul_le_mul_left _ (by omega)
      omega
  | succ fuel ih =>
      intro pairs stack hinv hm
      match stack with
      | [] =>
          rw [upLoop_red_nil]
          exact ⟨hinv, fun e he => he⟩
      | (a, b) :: rest =>
          rw [upLoop_red_cons]
          obtain ⟨hnd, hstk, hcomp, hrefl, hsat⟩ := hinv
          obtain ⟨i1, i2, i3, i4, i5, i6, i7, i8⟩ :=
            upStep_fold_spec a ((alookup b pd).getD []) pairs rest hnd
          have habp : (a, b) ∈ pairs := hstk (a, b) (by simp)
          have hinv' : UPInv vars ps pd
              (((alookup b pd).getD []).foldl (upStep a) (pairs, rest)).1
              (((alookup b pd).getD []).foldl (upStep a) (pairs, rest)).2 := by
            refine ⟨i1, ?_, ?_, ?_, ?_⟩
            · intro e he
              rcases i4 e he with h2 | h2
              · exact i2 e (hstk e (by simp [h2]))
              · exact h2
            · intro e he
              rcases i8 e he with h2 | h2
              · exact hcomp e h2
              · obtain ⟨p, hpL, c, hbc, rfl⟩ := h2
                constructor
                · exact (hcomp (a, b) habp).1
                · right
                  rw [hpd b] at hpL
                  have hpps : p ∈ ps := (List.mem_filter.mp hpL).1
                  unfold unitSeconds
                  rw [List.mem_filterMap]
                  exact ⟨p, hpps, by rw [hbc]⟩
            · intro v hv
              exact i2 _ (hrefl v hv)
            · intro e he
              rcases i3 e he with h2 | h2
              · rcases hsat e h2 with h3 | h3
                · rcases List.mem_cons.mp h3 with rfl | h4
                  · right
                    intro p hp c hbc
                    exact i6 p hp c hbc
                  · exact Or.inl (i7 e h4)
                · right
                  intro p hp c hbc
                  exact i2 _ (h3 p hp c hbc)
              · exact Or.inl h2
          have hm' : vars.length * (vars.length + ps.length) +
              (((alookup b pd).getD []).foldl (upStep a) (pairs, rest)).2.length <
              fuel +
              (((alookup b pd).getD []).foldl (upStep a) (pairs, rest)).1.length := by
            simp only [List.length_cons] at hm
            omega
          obtain ⟨hA, hB⟩ := ih _ _ hinv' hm'
          exact ⟨hA, fun e he => hB e (i2 e he)⟩

/-- A non-reflexive unit production forces the unit-pair set strictly
past the variable count. -/
theorem getUnitPairs_of_unit (g : CFG) (hv : g.vars.Nodup)
    (hheads : ∀ p ∈ g.productions, p.head ∈ g.vars)
    (a b : String) (hq : Production.mk a [Sym.var b] ∈ g.productions)
    (hab : a ≠ b) :
    g.vars.length < (getUnitPairs g).length := by
  have hpd := getProductionsD_spec (g.productions.filter fun p =>
    match p.body with
    | [Sym.var _] => true
    | _ => false)
  have hinv0 : UPInv g.vars
      (g.productions.filter fun p =>
        match p.body with
        | [Sym.var _] => true
        | _ => false)
      (getProductionsD (g.productions.filter fun p =>
        match p.body with
        | [Sym.var _] => true
        | _ => false))
      (g.vars.map fun v => (v, v)) (g.vars.map fun v => (v, v)).reverse := by
    refine ⟨?_, ?_, ?_, ?_, ?_⟩
    · refine List.Nodup.map ?_ hv
      intro x y h
      exact congrArg Prod.fst h
    · intro e he
      rw [List.mem_reverse] at he
      exact he
    · intro e he
      obtain ⟨v, hv2, rfl⟩ := List.mem_map.mp he
      exact ⟨hv2, Or.inl hv2⟩
    · intro v hv2
      exact List.mem_map.mpr ⟨v, hv2, rfl⟩
    · intro e he
      exact Or.inl (List.mem_reverse.mpr he)
  have hlen0 : ((g.vars.map fun v => (v, v)) : List (String × String)).length =
      g.vars.length := List.length_map _ _
  have hfilterlen : (g.productions.filter fun p =>
      match p.body with
      | [Sym.var _] => true
      | _ => false).length ≤ g.productions.length := List.length_filter_le _ _
  have hmeas : g.vars.length * (g.vars.length +
      (g.productions.filter fun p =>
        match p.body with
        | [Sym.var _] => true
        | _ => false).length) +
      ((g.vars.map fun v => (v, v)) : List (String × String)).reverse.length <
      ((g.vars.length + g.productions.length + 1) *
        (g.vars.length + g.productions.length + 1)) +
      ((g.vars.map fun v => (v, v)) : List (String × String)).length := by
    rw [List.length_reverse, hlen0]
    have h1 : g.vars.length * (g.vars.length +
        (g.productions.filter fun p =>
          match p.body with
          | [Sym.var _] => true
          | _ => false).length) ≤
        (g.vars.length + g.productions.length) *
          (g.vars.length + g.productions.length) :=
      Nat.mul_le_mul (by omega) (by omega)
    have h2 : (g.vars.length + g.productions.length) *
        (g.vars.length + g.productions.length) <
        (g.vars.length + g.productions.length + 1) *
          (g.vars.length + g.productions.length + 1) :=
      Nat.mul_self_lt_mul_self (by omega)
    omega
  obtain ⟨hfin, hsub⟩ := upLoop_spec g.vars _ _ hpd
    ((g.vars.length + g.productions.length + 1) *
      (g.vars.length + g.productions.length + 1))
    (g.vars.map fun v => (v, v)) (g.vars.map fun v => (v, v)).reverse
    hinv0 hmeas
  have hunf : getUnitPairs g = upLoop
      (getProductionsD (g.productions.filter fun p =>
        match p.body with
        | [Sym.var _] => true
        | _ => false))
      ((g.vars.length + g.productions.length + 1) *
        (g.vars.length + g.productions.length + 1))
      (g.vars.map fun v => (v, v))
      (g.vars.map fun v => (v, v)).reverse := rfl
  rw [hunf]
  set F := upLoop
      (getProductionsD (g.productions.filter fun p =>
        match p.body with
        | [Sym.var _] => true
        | _ => false))
      ((g.vars.length + g.productions.length + 1) *
        (g.vars.length + g.productions.length + 1))
      (g.vars.map fun v => (v, v))
      (g.vars.map fun v => (v, v)).reverse with hF
  obtain ⟨hndF, _, _, _, hsatF⟩ := hfin
  have haa : (a, a) ∈ F :=
    hsub (a, a) (List.mem_map.mpr ⟨a, hheads _ hq, rfl⟩)
  have hqf : Production.mk a [Sym.var b] ∈
      (g.productions.filter fun p =>
        match p.body with
        | [Sym.var _] => true
        | _ => false) := List.mem_filter.mpr ⟨hq, rfl⟩
  have hab2 : (a, b) ∈ F := by
    rcases hsatF (a, a) haa with h | h
    · simp at h
    · refine h (Production.mk a [Sym.var b]) ?_ b rfl
      rw [hpd a]
      exact List.mem_filter.mpr ⟨hqf, by simp⟩
  -- cardinality: the reflexive pairs plus (a, b) all sit in F
  have habm : (a, b) ∉ ((g.vars.map fun v => (v, v)) :
      List (String × String)) := by
    intro hmem
    obtain ⟨v, _, hvv⟩ := List.mem_map.mp hmem
    have h1 : v = a := congrArg Prod.fst hvv
    have h2 : v = b := congrArg Prod.snd hvv
    exact hab (h1 ▸ h2)
  have hndm : ((g.vars.map fun v => (v, v)) :
      List (String × String)).Nodup := by
    refine List.Nodup.map ?_ hv
    intro x y h
    exact congrArg Prod.fst h
  have hins : insert ((a, b) : String × String)
      ((g.vars.map fun v => (v, v)) : List (String × String)).toFinset ⊆
      F.toFinset := by
    rw [Finset.insert_subset_iff]
    refine ⟨List.mem_toFinset.mpr hab2, ?_⟩
    intro e he
    rw [List.mem_toFinset] at he ⊢
    exact hsub e he
  have hcard := Finset.card_le_card hins
  rw [Finset.card_insert_of_not_mem (by
    rw [List.mem_toFinset]
    exact habm)] at hcard
  rw [List.toFinset_card_of_nodup hndm, hlen0] at hcard
  have hFlen : F.toFinset.card = F.length := List.toFinset_card_of_nodup hndF
  omega

theorem buStep_fold_fst (terms : List String) :
    ∀ (b : List Sym) (bu0 : List Sym) (ts0 : List String),
      (b.foldl (buStep terms) (bu0, ts0)).1 = bu0 ++ b.map (convSym terms) := by
  intro b
  induction b with
  | nil => intro bu0 ts0; simp
  | cons s rest ih =>
      intro bu0 ts0
      rw [List.foldl_cons]
      match s with
      | Sym.var v =>
          rw [show buStep terms (bu0, ts0) (Sym.var v) =
            (bu0 ++ [Sym.var v], ts0) from rfl, ih]
          simp [convSym]
      | Sym.eps =>
          rw [show buStep terms (bu0, ts0) Sym.eps =
            (bu0 ++ [Sym.eps], ts0) from rfl, ih]
          simp [convSym]
      | Sym.ter t =>
          by_cases ht : t ∈ terms
          · rw [show buStep terms (bu0, ts0) (Sym.ter t) =
              if t ∈ terms then (bu0 ++ [Sym.var (t ++ "#CNF#")],
                insertEnd ts0 t)
              else (bu0 ++ [Sym.ter t], ts0) from rfl, if_pos ht, ih]
            simp [convSym, ht]
          · rw [show buStep terms (bu0, ts0) (Sym.ter t) =
              if t ∈ terms then (bu0 ++ [Sym.var (t ++ "#CNF#")],
                insertEnd ts0 t)
              else (bu0 ++ [Sym.ter t], ts0) from rfl, if_neg ht, ih]
            simp [convSym, ht]

theorem stStep_fold_mem (g : CFG) :
    ∀ (l : List Production) (st : List Production × List String),
      ∀ q ∈ (l.foldl (stStep g) st).1, q ∈ st.1 ∨ ∃ p ∈ l,
        (p.body.length = 1 ∧ q = p) ∨
        (p.body.length ≠ 1 ∧
          q = mkProduction p.head (p.body.map (convSym g.terms))) := by
  intro l
  induction l with
  | nil => intro st q hq; exact Or.inl hq
  | cons p t ih =>
      intro st q hq
      rw [List.foldl_cons] at hq
      by_cases hc : p.body.length = 1
      · rw [show stStep g st p = (st.1 ++ [p], st.2) from by
          unfold stStep; rw [if_pos hc]] at hq
        rcases ih _ q hq with h2 | h2
        · rcases List.mem_append.mp h2 with h3 | h3
          · exact Or.inl h3
          · rw [List.mem_singleton] at h3
            exact Or.inr ⟨p, by simp, Or.inl ⟨hc, h3⟩⟩
        · obtain ⟨p', hp', hsh⟩ := h2
          exact Or.inr ⟨p', by simp [hp'], hsh⟩
      · rw [show stStep g st p =
          (st.1 ++ [mkProduction p.head
            (p.body.foldl (buStep g.terms) ([], st.2)).1],
            (p.body.foldl (buStep g.terms) ([], st.2)).2) from by
          unfold stStep; rw [if_neg hc]] at hq
        rcases ih _ q hq with h2 | h2
        · rcases List.mem_append.mp h2 with h3 | h3
          · exact Or.inl h3
          · rw [List.mem_singleton] at h3
            refine Or.inr ⟨p, by simp, Or.inr ⟨hc, ?_⟩⟩
            rw [h3, buStep_fold_fst g.terms p.body [] st.2]
            simp
        · obtain ⟨p', hp', hsh⟩ := h2
          exact Or.inr ⟨p', by simp [hp'], hsh⟩

/-- The shape of `_get_productions_with_only_single_terminals`' output on
a sane grammar: originals of length one, all-variable bodies of length at
least two, or terminal proxies. -/
theorem singleTerminals_shape (g : CFG)
    (hef : ∀ p ∈ g.productions, Sym.eps ∉ p.body)
    (hne : ∀ p ∈ g.productions, p.body ≠ [])
    (hter : ∀ p ∈ g.productions, ∀ t, Sym.ter t ∈ p.body → t ∈ g.terms) :
    ∀ q ∈ singleTerminals g,
      (q ∈ g.productions ∧ q.body.length = 1) ∨
      (2 ≤ q.body.length ∧ ∀ s ∈ q.body, ∃ v, s = Sym.var v) ∨
      (∃ t, q.body = [Sym.ter t]) := by
  intro q hq
  unfold singleTerminals at hq
  rw [foldl_append_g_mem] at hq
  rcases hq with hq | ⟨t, _, hq⟩
  · rcases stStep_fold_mem g g.productions ([], []) q hq with h | h
    · simp at h
    · obtain ⟨p, hp, hsh⟩ := h
      rcases hsh with ⟨h1, rfl⟩ | ⟨h1, rfl⟩
      · exact Or.inl ⟨hp, h1⟩
      · right
        left
        have hmapeps : Sym.eps ∉ p.body.map (convSym g.terms) := by
          intro hmem
          obtain ⟨s, hs, hcs⟩ := List.mem_map.mp hmem
          match s with
          | Sym.eps => exact hef p hp hs
          | Sym.var v => simp [convSym] at hcs
          | Sym.ter t2 =>
              rw [show convSym g.terms (Sym.ter t2) =
                if t2 ∈ g.terms then Sym.var (t2 ++ "#CNF#")
                else Sym.ter t2 from rfl] at hcs
              split_ifs at hcs
        rw [mkProduction_eps_free _ hmapeps]
        simp only
        constructor
        · rw [List.length_map]
          have h0 : p.body.length ≠ 0 := by
            intro h0
            exact hne p hp (List.length_eq_zero.mp h0)
          omega
        · intro s hs
          obtain ⟨s0, hs0, rfl⟩ := List.mem_map.mp hs
          match s0 with
          | Sym.eps => exact absurd hs0 (hef p hp)
          | Sym.var v => exact ⟨v, rfl⟩
          | Sym.ter t2 =>
              have ht2 := hter p hp t2 hs0
              rw [show convSym g.terms (Sym.ter t2) =
                if t2 ∈ g.terms then Sym.var (t2 ++ "#CNF#")
                else Sym.ter t2 from rfl, if_pos ht2]
              exact ⟨t2 ++ "#CNF#", rfl⟩
  · right
    right
    rw [List.mem_singleton] at hq
    subst hq
    have : Sym.eps ∉ [Sym.ter t] := by simp
    rw [mkProduction_eps_free _ this]
    exact ⟨t, rfl⟩

theorem decompLoop_red3 (b0 b1 b2 : Sym) (brest : List Sym)
    (nvs : List String) (head : String) (done : List (List Sym × String))
    (acc : List Production) :
    decompLoop (b0 :: b1 :: b2 :: brest) nvs head done acc =
      match alookup (b1 :: b2 :: brest) done with
      | some dv => (done, acc ++ [mkProduction head [b0, Sym.var dv]])
      | none =>
          match nvs with
          | nv :: nvrest =>
              decompLoop (b1 :: b2 :: brest) nvrest nv
                (aupdate (b1 :: b2 :: brest) nv done)
                (acc ++ [mkProduction head [b0, Sym.var nv]])
          | [] => (done, acc) := rfl

theorem decompLoop_red2 (bA bB : Sym) (nvs : List String) (head : String)
    (done : List (List Sym × String)) (acc : List Production) :
    decompLoop [bA, bB] nvs head done acc =
      (done, acc ++ [mkProduction head [bA, bB]]) := rfl

theorem decompLoop_red1 (b : Sym) (nvs : List String) (head : String)
    (done : List (List Sym × String)) (acc : List Production) :
    decompLoop [b] nvs head done acc = (done, acc) := rfl

theorem decompLoop_red0 (nvs : List String) (head : String)
    (done : List (List Sym × String)) (acc : List Production) :
    decompLoop [] nvs head done acc = (done, acc) := rfl

/-- Every production emitted by the decomposition chain of an
all-variable body is a two-variable production. -/
theorem decompLoop_shape :
    ∀ (body : List Sym) (nvs : List String) (head : String)
      (done : List (List Sym × String)) (acc : List Production),
      (∀ s ∈ body, ∃ v, s = Sym.var v) →
      ∀ q ∈ (decompLoop body nvs head done acc).2,
        q ∈ acc ∨ ∃ v w, q.body = [Sym.var v, Sym.var w] := by
  intro body
  induction body with
  | nil =>
      intro nvs head done acc _ q hq
      rw [decompLoop_red0] at hq
      exact Or.inl hq
  | cons b0 rest ih =>
      intro nvs head done acc hvars q hq
      match rest with
      | [] =>
          rw [decompLoop_red1] at hq
          exact Or.inl hq
      | [b1] =>
          rw [decompLoop_red2] at hq
          rcases List.mem_append.mp hq with h | h
          · exact Or.inl h
          · rw [List.mem_singleton] at h
            obtain ⟨v0, hv0⟩ := hvars b0 (by simp)
            obtain ⟨v1, hv1⟩ := hvars b1 (by simp)
            subst hv0
            subst hv1
            have heps : Sym.eps ∉ [Sym.var v0, Sym.var v1] := by simp
            rw [h, mkProduction_eps_free _ heps]
            exact Or.inr ⟨v0, v1, rfl⟩
      | b1 :: b2 :: brest =>
          rw [decompLoop_red3] at hq
          obtain ⟨v0, hv0⟩ := hvars b0 (by simp)
          cases hal : alookup (b1 :: b2 :: brest) done with
          | some dv =>
              rw [hal] at hq
              simp only at hq
              rcases List.mem_append.mp hq with h | h
              · exact Or.inl h
              · rw [List.mem_singleton] at h
                subst hv0
                have heps : Sym.eps ∉ [Sym.var v0, Sym.var dv] := by simp
                rw [h, mkProduction_eps_free _ heps]
                exact Or.inr ⟨v0, dv, rfl⟩
          | none =>
              rw [hal] at hq
              simp only at hq
              match nvs with
              | [] => exact Or.inl hq
              | nv :: nvrest =>
                  have hvars2 : ∀ s ∈ b1 :: b2 :: brest, ∃ v, s = Sym.var v :=
                    fun s hs => hvars s (by simp [hs])
                  rcases ih nvrest nv (aupdate (b1 :: b2 :: brest) nv done)
                      (acc ++ [mkProduction head [b0, Sym.var nv]]) hvars2 q hq
                    with h | h
                  · rcases List.mem_append.mp h with h2 | h2
                    · exact Or.inl h2
                    · rw [List.mem_singleton] at h2
                      subst hv0
                      have heps : Sym.eps ∉ [Sym.var v0, Sym.var nv] := by simp
                      rw [h2, mkProduction_eps_free _ heps]
                      exact Or.inr ⟨v0, nv, rfl⟩
                  · exact Or.inr h


/-- The shape of `_decompose_productions`' output: survivors of length
at most two, or freshly chained two-variable bodies. -/
theorem decomposeProductions_shape (g : CFG) (P : List Production)
    (hP : ∀ p ∈ P, p.body.length ≤ 2 ∨ ∀ s ∈ p.body, ∃ v, s = Sym.var v) :
    ∀ q ∈ decomposeProductions g P,
      (q ∈ P ∧ q.body.length ≤ 2) ∨ ∃ v w, q.body = [Sym.var v, Sym.var w] := by
  have hgen : ∀ (l : List Production)
      (st : Nat × List (List Sym × String) × List Production),
      (∀ p ∈ l, p ∈ P) →
      (∀ q ∈ st.2.2, (q ∈ P ∧ q.body.length ≤ 2) ∨
        ∃ v w, q.body = [Sym.var v, Sym.var w]) →
      ∀ q ∈ (l.foldl (dStep g) st).2.2,
        (q ∈ P ∧ q.body.length ≤ 2) ∨
        ∃ v w, q.body = [Sym.var v, Sym.var w] := by
    intro l
    induction l with
    | nil => intro st _ hacc q hq; exact hacc q hq
    | cons p t ih =>
        intro st hsub hacc q hq
        rw [List.foldl_cons] at hq
        obtain ⟨idx, done, acc⟩ := st
        have hdred : dStep g (idx, done, acc) p =
            if p.body.length ≤ 2 then (idx, done, acc ++ [p])
            else ((genVarsRec g (p.body.length - 2) idx).1,
              (decompLoop p.body (genVarsRec g (p.body.length - 2) idx).2
                p.head done acc).1,
              (decompLoop p.body (genVarsRec g (p.body.length - 2) idx).2
                p.head done acc).2) := rfl
        by_cases hc : p.body.length ≤ 2
        · rw [show dStep g (idx, done, acc) p = (idx, done, acc ++ [p]) from by
            rw [hdred, if_pos hc]] at hq
          refine ih _ (fun p' hp' => hsub p' (by simp [hp'])) ?_ q hq
          intro q' hq'
          rcases List.mem_append.mp hq' with h2 | h2
          · exact hacc q' h2
          · rw [List.mem_singleton] at h2
            exact Or.inl ⟨h2 ▸ hsub p (by simp), h2 ▸ hc⟩
        · rw [show dStep g (idx, done, acc) p =
            ((genVarsRec g (p.body.length - 2) idx).1,
              (decompLoop p.body (genVarsRec g (p.body.length - 2) idx).2
                p.head done acc).1,
              (decompLoop p.body (genVarsRec g (p.body.length - 2) idx).2
                p.head done acc).2) from by
            rw [hdred, if_neg hc]] at hq
          have hvars : ∀ s ∈ p.body, ∃ v, s = Sym.var v := by
            rcases hP p (hsub p (by simp)) with h2 | h2
            · exact absurd h2 hc
            · exact h2
          refine ih _ (fun p' hp' => hsub p' (by simp [hp'])) ?_ q hq
          intro q' hq'
          rcases decompLoop_shape p.body _ p.head done acc hvars q' hq'
            with h2 | h2
          · exact hacc q' h2
          · exact Or.inr h2
  intro q hq
  exact hgen P (0, [], []) (fun p hp => hp) (by simp) q hq

theorem epsFree_removeEpsilon (g : CFG) :
    ∀ q ∈ (removeEpsilon g).productions, Sym.eps ∉ q.body := by
  intro q hq
  obtain ⟨p, _, b', _, _, rfl⟩ := (mem_removeEpsilon_productions g q).mp hq
  exact mkProduction_no_eps p.head b'

theorem epsFree_removeUseless (g : CFG)
    (hef : ∀ p ∈ g.productions, Sym.eps ∉ p.body) :
    ∀ q ∈ (removeUselessSymbols g).productions, Sym.eps ∉ q.body :=
  fun q hq => hef q (removeUseless_sub g q hq)

theorem epsFree_elimUnit (g : CFG)
    (hef : ∀ p ∈ g.productions, Sym.eps ∉ p.body) :
    ∀ q ∈ (eliminateUnitProductions g).productions, Sym.eps ∉ q.body := by
  intro q hq
  rcases elimUnit_sub g q hq with h | ⟨a, p, hp, rfl⟩
  · exact hef q h
  · exact hef p hp

theorem removeUseless_wf (g : CFG) :
    (removeUselessSymbols g).vars.Nodup ∧
    (∀ p ∈ (removeUselessSymbols g).productions,
      p.head ∈ (removeUselessSymbols g).vars) ∧
    (∀ p ∈ (removeUselessSymbols g).productions, ∀ t,
      Sym.ter t ∈ p.body → t ∈ (removeUselessSymbols g).terms) := by
  unfold removeUselessSymbols
  exact ⟨mkCFG_vars_nodup _ _ _ _, mkCFG_heads _ _ _ _, mkCFG_ters _ _ _ _⟩

theorem tnf_red (n : Nat) (g : CFG) :
    toNormalFormFuel (n + 1) g =
      if (getNullableSymbols g).length ≠ 0 ∨
          (getUnitPairs g).length ≠ g.vars.length ∨
          (getGeneratingSymbols g).length ≠
            g.vars.length + g.terms.length ∨
          (getReachableSymbols g).length ≠
            g.vars.length + g.terms.length then
        if g.productions.length = 0 then some g
        else
          toNormalFormFuel n
            (removeUselessSymbols
              (eliminateUnitProductions
                (removeUselessSymbols
                  (removeEpsilon (removeUselessSymbols g)))))
      else
        some (mkCFG [] [] g.start
          (decomposeProductions g (singleTerminals g))) := rfl

/-- C3 (amended): every production of `to_normal_form`'s result has a
two-variable body, a single-terminal body, or — the carve-out the
counterexample exhibits — a self-loop unit body `[head]` carried over
from a grammar that already passed the four cheap normal-form checks. -/
theorem c3_amended_normal_form_shape :
    ∀ (fuel : Nat) (g g' : CFG),
      g.vars.Nodup →
      (∀ p ∈ g.productions, p.head ∈ g.vars) →
      (∀ p ∈ g.productions, Sym.eps ∉ p.body) →
      (∀ p ∈ g.productions, ∀ t, Sym.ter t ∈ p.body → t ∈ g.terms) →
      toNormalFormFuel fuel g = some g' →
      ∀ p ∈ g'.productions,
        (∃ v w, p.body = [Sym.var v, Sym.var w]) ∨
        (∃ t, p.body = [Sym.ter t]) ∨
        p.body = [Sym.var p.head] := by
  intro fuel
  induction fuel with
  | zero =>
      intro g g' _ _ _ _ h
      simp [toNormalFormFuel] at h
  | succ n ih =>
      intro g g' hv hh hef hter hsome
      rw [tnf_red] at hsome
      by_cases hcond : (getNullableSymbols g).length ≠ 0 ∨
          (getUnitPairs g).length ≠ g.vars.length ∨
          (getGeneratingSymbols g).length ≠
            g.vars.length + g.terms.length ∨
          (getReachableSymbols g).length ≠ g.vars.length + g.terms.length
      · rw [if_pos hcond] at hsome
        by_cases hlen : g.productions.length = 0
        · rw [if_pos hlen] at hsome
          have hgg : g = g' := Option.some.inj hsome
          intro p hp
          rw [← hgg] at hp
          rw [List.length_eq_zero.mp hlen] at hp
          simp at hp
        · rw [if_neg hlen] at hsome
          -- recurse through the cleanup pipeline, whose output is
          -- `mkCFG`-built hence well-formed, with `Epsilon`-free bodies
          have hru1 := removeUseless_wf g
          have hef1 := epsFree_removeUseless g hef
          have hef2 := epsFree_removeEpsilon (removeUselessSymbols g)
          have hef3 := epsFree_removeUseless _ hef2
          have hef4 := epsFree_elimUnit _ hef3
          have hef5 := epsFree_removeUseless _ hef4
          have hwf := removeUseless_wf
            (eliminateUnitProductions
              (removeUselessSymbols
                (removeEpsilon (removeUselessSymbols g))))
          exact ih _ g' hwf.1 hwf.2.1 hef5 hwf.2.2 hsome
      · rw [if_neg hcond] at hsome
        have hg' : g' = mkCFG [] [] g.start
            (decomposeProductions g (singleTerminals g)) :=
          (Option.some.inj hsome).symm
        push_neg at hcond
        obtain ⟨hnz, hup, _, _⟩ := hcond
        have hnullnil : getNullableSymbols g = [] :=
          List.length_eq_zero.mp hnz
        have hne : ∀ p ∈ g.productions, p.body ≠ [] := by
          intro p hp hb
          cases p with
          | mk ph pb =>
              simp only at hb
              subst hb
              have hnc : NullC g.productions ph :=
                NullC.mk ph [] hp (by intro s hs; simp at hs)
                  (by intro B hB; simp at hB)
              have := (getNullable_spec g hef).2 ph hnc
              rw [hnullnil] at this
              simp at this
        have hunit : ∀ p ∈ g.productions, ∀ x, p.body = [Sym.var x] →
            x = p.head := by
          intro p hp x hb
          by_contra hxh
          cases p with
          | mk ph pb =>
              simp only at hb hxh
              subst hb
              have := getUnitPairs_of_unit g hv hh ph x hp
                (fun he => hxh he.symm)
              omega
        intro q hq
        rw [hg', mkCFG_productions, mem_dedupL] at hq
        have hstShape : ∀ p ∈ singleTerminals g,
            p.body.length ≤ 2 ∨ ∀ s ∈ p.body, ∃ v, s = Sym.var v := by
          intro p hp
          rcases singleTerminals_shape g hef hne hter p hp with h | h | h
          · left
            omega
          · right
            exact h.2
          · left
            rw [h.choose_spec]
            simp
        rcases decomposeProductions_shape g (singleTerminals g) hstShape q hq
          with ⟨hqm, hqlen⟩ | ⟨v, w, hvw⟩
        · rcases singleTerminals_shape g hef hne hter q hqm
            with ⟨hqg, hq1⟩ | ⟨hq2, hqv⟩ | ⟨t, hqt⟩
          · -- a kept length-one original
            obtain ⟨s, hs⟩ := List.length_eq_one.mp hq1
            cases s with
            | var x =>
                right
                right
                rw [hs, hunit q hqg x hs]
            | ter t => exact Or.inr (Or.inl ⟨t, hs⟩)
            | eps => exact absurd (by rw [hs]; simp) (hef q hqg)
          · -- a converted body of length exactly two
            have hlen2 : q.body.length = 2 := by omega
            obtain ⟨s1, s2, hs⟩ := List.length_eq_two.mp hlen2
            obtain ⟨v1, hv1⟩ := hqv s1 (by rw [hs]; simp)
            obtain ⟨v2, hv2⟩ := hqv s2 (by rw [hs]; simp)
            exact Or.inl ⟨v1, v2, by rw [hs, hv1, hv2]⟩
          · exact Or.inr (Or.inl ⟨t, hqt⟩)
        · exact Or.inl ⟨v, w, hvw⟩

/-- Witness for the amended C3 at the self-loop grammar `S -> a | S`:
the hypotheses hold, the normal form is computed, and every resulting
production is two-variable, single-terminal, or the self-loop `S -> S`. -/
theorem c3_amended_witness :
    cfgSelfLoop.vars.Nodup ∧
    (∀ p ∈ cfgSelfLoop.productions, p.head ∈ cfgSelfLoop.vars) ∧
    (∀ p ∈ cfgSelfLoop.productions, Sym.eps ∉ p.body) ∧
    (∀ p ∈ cfgSelfLoop.productions, ∀ t, Sym.ter t ∈ p.body →
      t ∈ cfgSelfLoop.terms) ∧
    toNormalFormFuel 10 cfgSelfLoop =
      some ⟨["S"], ["a"], some "S",
        [⟨"S", [Sym.ter "a"]⟩, ⟨"S", [Sym.var "S"]⟩]⟩ ∧
    (∀ p ∈ (⟨["S"], ["a"], some "S",
        [⟨"S", [Sym.ter "a"]⟩, ⟨"S", [Sym.var "S"]⟩]⟩ : CFG).productions,
      (∃ v w, p.body = [Sym.var v, Sym.var w]) ∨
      (∃ t, p.body = [Sym.ter t]) ∨
      p.body = [Sym.var p.head]) := by
  have hter : ∀ p ∈ cfgSelfLoop.productions, ∀ t, Sym.ter t ∈ p.body →
      t ∈ cfgSelfLoop.terms := by
    have hps : cfgSelfLoop.productions =
        [⟨"S", [Sym.ter "a"]⟩, ⟨"S", [Sym.var "S"]⟩] := by decide
    intro p hp t ht
    rw [hps] at hp
    rcases List.mem_cons.mp hp with rfl | hp2
    · simp only at ht
      have : t = "a" := by simpa using ht
      subst this
      decide
    · rw [List.mem_singleton] at hp2
      subst hp2
      simp at ht
  exact ⟨by decide, by decide, by decide, hter, by decide,
    c3_amended_normal_form_shape 10 cfgSelfLoop _ (by decide) (by decide)
      (by decide) hter (by decide)⟩

end Pyformlang
